import Mathlib

/-!
# Verification of the file_metadata_and_embeddings engine

A shallow embedding, in Lean 4, of the parts of the
`file_metadata_and_embeddings` repository that the specification's testable
claims are about:

* `chunking_refactor.py` — the `AIOptimizedChunker` (code and prose chunking,
  chunk envelopes);
* `faiss_index_manager.py` — the `TwoTierFAISSManager` (two-tier vector index,
  staleness tracking, compaction, search);
* `file_metadata_content.py` — the change-detection / statistics part of
  `FileMetadataExtractor.scan_directory` and `process_single_file`;
* `autograph_manager.py` — `AutographManager.suggest_sources`.

Modelling conventions:

* Python strings are `List Char`; Python `int` is `ℕ`/`ℤ`; Python `float`
  values that only flow through arithmetic and comparisons are modelled as `ℚ`
  (exact rationals; IEEE rounding artefacts are outside the model).
* Fallible code returns `Except PyError`; a raised exception carries no state,
  matching the fact that the Python methods validate before mutating.
* FAISS is an external library.  `IndexFlatIP` is modelled as a list of stored
  vectors with exact inner-product scores; `IndexFlatIP.search(q, k)` returns
  the `k` best (score, index) pairs in score-descending order.
  `faiss.normalize_L2` rescales each row by a positive scalar (an irrational
  operation over ℚ); since every property proved here is invariant under
  per-vector positive rescaling, stored vectors are treated as already
  normalised and the rescaling is the identity of the model.
* Python's `list.sort` (Timsort) is a stable sort; it is modelled by a stable
  insertion sort `pyStableSort`.
* Python `dict`s preserve insertion order; they are modelled as association
  lists with in-place update.
-/

namespace FMEE

/-- A Python string, as a sequence of characters. -/
abbrev Str := List Char

/-- Python `str.isspace` / the `\s` regex class for the characters that occur
in this code base (space, tab, newline, carriage return, vertical tab, form
feed). -/
def pyIsSpace (c : Char) : Bool :=
  c = ' ' || c = '\t' || c = '\n' || c = '\r' || c = '\x0b' || c = '\x0c'

/-- A string consisting of whitespace only. -/
def isWsStr (s : Str) : Prop := ∀ c ∈ s, pyIsSpace c = true

instance (s : Str) : Decidable (isWsStr s) := by
  unfold isWsStr; infer_instance

/-- Python `str.strip()`: remove leading and trailing whitespace. -/
def pyStrip (s : Str) : Str :=
  ((s.dropWhile pyIsSpace).reverse.dropWhile pyIsSpace).reverse

/-- Python `s.split(sep)` for a single-character separator: split at every
occurrence, keeping empty pieces.  `splitOnChar '\n' s` models
`s.split('\n')`. -/
def splitOnChar (sep : Char) : Str → List Str
  | [] => [[]]
  | c :: cs =>
    if c = sep then
      [] :: splitOnChar sep cs
    else
      match splitOnChar sep cs with
      | [] => [[c]]
      | p :: ps => (c :: p) :: ps

/-- Python `s.split()` (no argument): split on whitespace runs, dropping
empty pieces. -/
def pySplitWs (s : Str) : List Str :=
  (splitOnChar ' ' (s.map (fun c => if pyIsSpace c then ' ' else c))).filter
    (fun p => !p.isEmpty)

/-- Source: `'\n'.join(pieces)` and friends. -/
def joinWith (sep : Str) (pieces : List Str) : Str :=
  sep.intercalate pieces

/-- The non-whitespace characters of a string, in order. -/
def nonWs (s : Str) : Str := s.filter (fun c => !(pyIsSpace c))

/-- Stable insertion into a list that is already sorted by the strict
"must-come-before" test `lt`: the new element is placed before the first
element it strictly precedes, hence after every element it ties with.  This is
how Python's stable `list.sort` orders equal keys. -/
def stableInsert (lt : α → α → Bool) (x : α) : List α → List α
  | [] => [x]
  | y :: ys => if lt x y then x :: y :: ys else y :: stableInsert lt x ys

/-- Stable sort (models Python `list.sort(key=..., reverse=...)`): elements
are inserted left to right, so elements with equal keys keep their original
relative order. -/
def pyStableSort (lt : α → α → Bool) (l : List α) : List α :=
  l.foldl (fun acc x => stableInsert lt x acc) []


/-! ## Chunker (`chunking_refactor.py`, class `AIOptimizedChunker`) -/

namespace Chunker

/-- Source: `AIOptimizedChunker.CODE_CHUNK_SIZE`. -/
def CODE_CHUNK_SIZE : ℕ := 350

/-- Source: `AIOptimizedChunker.PROSE_CHUNK_SIZE`. -/
def PROSE_CHUNK_SIZE : ℕ := 800

/-- Index of the last occurrence of `c` in `l`, if any. -/
def lastIdxOf (c : Char) (l : List Char) : Option ℕ :=
  match l.reverse.findIdx? (· = c) with
  | none => none
  | some j => some (l.length - 1 - j)

/-- Length of the match of the regex `\n\s*\n` anchored at the start of `cs`
(0 when there is no match).  The regex engine matches a newline, then a
greedy-with-backtracking run of whitespace, then a newline, so the match
extends to the **last** newline inside the maximal whitespace run that starts
at the anchor. -/
def paraSepLen (cs : Str) : ℕ :=
  match cs with
  | [] => 0
  | c :: rest =>
    if c = '\n' then
      match lastIdxOf '\n' (rest.takeWhile pyIsSpace) with
      | none => 0
      | some i => i + 2
    else 0

/-- Source: `re.split(r'\n\s*\n', content)`: pieces between non-overlapping matches,
scanning left to right.  `acc` is the current piece, reversed. -/
def splitParasAux : Str → Str → List Str
  | [], acc => [acc.reverse]
  | c :: rest, acc =>
    match paraSepLen (c :: rest) with
    | 0 => splitParasAux rest (c :: acc)
    | n + 1 =>
      -- the separator has n + 1 characters in total; the first is `c`
      acc.reverse :: splitParasAux (rest.drop n) []
termination_by cs _ => cs.length
decreasing_by
· simp
· simp only [List.length_cons]
  have := List.length_drop n rest
  omega

/-- Source: `re.split(r'\n\s*\n', content)`. -/
def splitParas (cs : Str) : List Str := splitParasAux cs []

/-- The character class `[.!?]` of the sentence-boundary regex. -/
def isSentPunct (c : Char) : Bool := c = '.' || c = '!' || c = '?'

/-- Length of the match of the regex `[.!?]+\s+` anchored at the start of
`cs` (0 when there is no match): a maximal non-empty run of `[.!?]`
immediately followed by a maximal non-empty run of whitespace. -/
def sentSepLen (cs : Str) : ℕ :=
  let p := cs.takeWhile isSentPunct
  let w := (cs.drop p.length).takeWhile pyIsSpace
  if 0 < p.length ∧ 0 < w.length then p.length + w.length else 0

/-- Source: `re.split(r'([.!?]+\s+)', para)` — split on sentence terminators, keeping
the separators in the output list (the regex group is captured). -/
def sentSplitAux : Str → Str → List Str
  | [], acc => [acc.reverse]
  | c :: rest, acc =>
    match sentSepLen (c :: rest) with
    | 0 => sentSplitAux rest (c :: acc)
    | n + 1 => acc.reverse :: (c :: rest).take (n + 1) :: sentSplitAux (rest.drop n) []
termination_by cs _ => cs.length
decreasing_by
· simp
· simp only [List.length_cons]
  have := List.length_drop n rest
  omega

/-- Source: `re.split(r'([.!?]+\s+)', para)`. -/
def sentSplit (cs : Str) : List Str := sentSplitAux cs []

/-- The inner sentence-packing loop of `chunk_prose` (lines 171–185): pack
the pieces of `sentSplit` while `sent_size + len(sent) ≤ PROSE_CHUNK_SIZE`,
flushing `''.join(sent_chunk).strip()`. -/
def sentPackLoop : List Str → List Str → ℕ → List Str
  | [], sc, _ => if sc.isEmpty then [] else [pyStrip sc.flatten]
  | s :: ss, sc, size =>
    if PROSE_CHUNK_SIZE < size + s.length ∧ ¬ sc.isEmpty then
      pyStrip sc.flatten :: sentPackLoop ss [s] s.length
    else
      sentPackLoop ss (sc ++ [s]) (size + s.length)

/-- The paragraph loop of the `use_overlap=False` branch of `chunk_prose`
(lines 156–196), including the final flush. -/
def prosePackLoop : List Str → List Str → ℕ → List Str
  | [], cur, _ => if cur.isEmpty then [] else [joinWith ['\n', '\n'] cur]
  | para :: ps, cur, size =>
    if PROSE_CHUNK_SIZE < para.length then
      -- a single oversized paragraph: flush, then split it at sentence
      -- boundaries
      if cur.isEmpty then
        sentPackLoop (sentSplit para) [] 0 ++ prosePackLoop ps [] size
      else
        joinWith ['\n', '\n'] cur ::
          (sentPackLoop (sentSplit para) [] 0 ++ prosePackLoop ps [] 0)
    else if PROSE_CHUNK_SIZE < size + para.length ∧ ¬ cur.isEmpty then
      joinWith ['\n', '\n'] cur :: prosePackLoop ps [para] para.length
    else
      prosePackLoop ps (cur ++ [para]) (size + para.length + 2)

/-- The line-packing loop of `chunk_code` (lines 114–128), including the
final flush.  `current_size` counts `len(line) + 1` per accumulated line. -/
def codePackLoop : List Str → List Str → ℕ → List Str
  | [], cur, _ => if cur.isEmpty then [] else [joinWith ['\n'] cur]
  | line :: ls, cur, size =>
    if CODE_CHUNK_SIZE < size + (line.length + 1) ∧ ¬ cur.isEmpty then
      joinWith ['\n'] cur :: codePackLoop ls [line] (line.length + 1)
    else
      codePackLoop ls (cur ++ [line]) (size + (line.length + 1))

/-- The chunk texts produced by `chunk_code` (before envelope creation). -/
def chunkCodeRaw (content : Str) : List Str :=
  if content.isEmpty then [] else codePackLoop (splitOnChar '\n' content) [] 0

/-- Source: `[p.strip() for p in re.split(r'\n\s*\n', content) if p.strip()]`. -/
def proseParagraphs (content : Str) : List Str :=
  ((splitParas content).map pyStrip).filter (fun p => !p.isEmpty)

/-- The chunk texts produced by the `use_overlap=False` branch of
`chunk_prose` (before envelope creation). -/
def chunkProseRaw (content : Str) : List Str :=
  if content.isEmpty then [] else prosePackLoop (proseParagraphs content) [] 0

/-- Round-half-to-even of a rational to an integer (the idealisation of
Python's `round`). -/
def roundHalfEven (q : ℚ) : ℤ :=
  let f := ⌊q⌋
  if q - f < 1/2 then f
  else if 1/2 < q - f then f + 1
  else if f % 2 = 0 then f else f + 1

/-- Python `round(q, n)` as exact decimal rounding (float artefacts are
outside the model). -/
def pyRound (n : ℕ) (q : ℚ) : ℚ :=
  (roundHalfEven (q * (10 ^ n : ℕ)) : ℚ) / (10 ^ n : ℕ)

/-- Source: `pathlib.Path(filename).suffix`: the extension of the last path
component, including the dot; empty when the last component has no dot or
only a leading dot. -/
def pathSuffix (filename : Str) : Str :=
  let base := ((splitOnChar '/' filename).getLastD [])
  match lastIdxOf '.' base with
  | none => []
  | some 0 => []
  | some i => base.drop i

/-- Source: `AIOptimizedChunker.CODE_EXTENSIONS`. -/
def CODE_EXTENSIONS : List Str :=
  [".py", ".js", ".ts", ".java", ".c", ".cpp", ".h", ".hpp",
   ".rs", ".go", ".rb", ".php", ".swift", ".kt", ".scala",
   ".sh", ".bash", ".zsh", ".sql", ".r", ".m", ".cs"].map String.data

/-- Source: `AIOptimizedChunker.is_code_file`. -/
def is_code_file (filename : Str) : Bool :=
  (pathSuffix filename).map Char.toLower ∈ CODE_EXTENSIONS

/-- The `ai_metadata` dict built in `_create_envelopes`. -/
structure AiMetadata where
  line_count : ℕ
  word_count : ℕ
  char_count : ℕ
  avg_chunk_size : ℚ
  file_total_size : ℕ
  chunk_position : Str
  has_previous : Bool
  has_next : Bool
  previous_chunk_index : Option ℕ
  next_chunk_index : Option ℕ
  starts_with : Str
  ends_with : Str
  adjacent_chunk_indexes : List ℕ
  retrieval_context_suggestion : Str
  deriving Repr, DecidableEq

/-- Source: `ChunkMetadata` (dataclass). -/
structure ChunkMetadata where
  filename : Str
  chunk_index : ℕ
  total_chunks : ℕ
  chunk_size : ℕ
  chunk_strategy : Str
  overlap_chars : ℕ
  file_type : Str
  file_hash : Str
  created_at : Str
  ai_metadata : AiMetadata
  deriving Repr, DecidableEq

/-- Source: `ChunkEnvelope` (dataclass). -/
structure ChunkEnvelope where
  metadata : ChunkMetadata
  content : Str
  deriving Repr, DecidableEq

/-- Source: `Path(filename).suffix.lstrip('.') or 'txt'`. -/
def envelopeFileType (filename : Str) : Str :=
  let s := (pathSuffix filename).dropWhile (· = '.')
  if s.isEmpty then "txt".data else s

/-- Source: `AIOptimizedChunker._create_envelopes`.  The SHA-256 of `hashlib`
(`calculate_file_hash`) and the constructor timestamp come from external
libraries and are passed in as the opaque parameters `hashFn` and
`timestamp`. -/
def createEnvelopes (hashFn : Str → Str) (timestamp : Str) (chunks : List Str)
    (filename content strategy : Str) (overlapChars : ℕ) : List ChunkEnvelope :=
  let fileHash := hashFn content
  let fileType := envelopeFileType filename
  let totalChunks := chunks.length
  let fileSize := content.length
  let avgChunkSize : ℚ := if 0 < totalChunks then (fileSize : ℚ) / totalChunks else 0
  (chunks.enum).map (fun (i, chunkContent) =>
    { metadata :=
      { filename := filename
        chunk_index := i
        total_chunks := totalChunks
        chunk_size := chunkContent.length
        chunk_strategy := strategy
        overlap_chars := overlapChars
        file_type := fileType
        file_hash := fileHash
        created_at := timestamp
        ai_metadata :=
        { line_count := chunkContent.count '\n' + 1
          word_count := (pySplitWs chunkContent).length
          char_count := chunkContent.length
          avg_chunk_size := pyRound 2 avgChunkSize
          file_total_size := fileSize
          chunk_position :=
            if i = 0 then "start".data
            else if i = totalChunks - 1 then "end".data else "middle".data
          has_previous := 0 < i
          has_next := i < totalChunks - 1
          previous_chunk_index := if 0 < i then some (i - 1) else none
          next_chunk_index := if i < totalChunks - 1 then some (i + 1) else none
          starts_with := if 50 < chunkContent.length then chunkContent.take 50 else chunkContent
          ends_with :=
            if 50 < chunkContent.length then chunkContent.drop (chunkContent.length - 50)
            else chunkContent
          adjacent_chunk_indexes := List.range' (i - 2) (min totalChunks (i + 3) - (i - 2))
          retrieval_context_suggestion :=
            if 3 < totalChunks then "adjacent_1".data else "full_file".data } }
      content := chunkContent })

/-- Source: `AIOptimizedChunker.chunk_code`. -/
def chunk_code (hashFn : Str → Str) (timestamp : Str) (content filename : Str) :
    List ChunkEnvelope :=
  createEnvelopes hashFn timestamp (chunkCodeRaw content) filename content
    "code_discrete".data 0

/-- Source: `AIOptimizedChunker.chunk_prose` with `use_overlap=False` (the only form
reachable from `chunk_file`; the `use_overlap=True` sliding-window arm is a
separate branch of the source function that no claim settled here touches). -/
def chunk_prose (hashFn : Str → Str) (timestamp : Str) (content filename : Str) :
    List ChunkEnvelope :=
  createEnvelopes hashFn timestamp (chunkProseRaw content) filename content
    "prose_discrete".data 0

/-- Source: `current_size` as accumulated by `chunk_code`: `len(line) + 1` per line. -/
def codeSize (cur : List Str) : ℕ := (cur.map (fun l => l.length + 1)).sum

/-- Source: `current_size` as it relates to `'\n\n'.join`: `len(para) + 2` per
paragraph. -/
def proseSize (cur : List Str) : ℕ := (cur.map (fun l => l.length + 2)).sum

/-- The indivisible prose units: the fragments of the sentence split of each
(stripped, non-empty) paragraph. -/
def proseUnits (content : Str) : List Str :=
  ((proseParagraphs content).map sentSplit).flatten

/-- Source: `AIOptimizedChunker.chunk_file`. -/
def chunk_file (hashFn : Str → Str) (timestamp : Str) (filename content : Str)
    (forceProse : Bool) : List ChunkEnvelope :=
  if forceProse || ¬ is_code_file filename then
    chunk_prose hashFn timestamp content filename
  else
    chunk_code hashFn timestamp content filename

end Chunker

/-! ## Two-tier FAISS manager (`faiss_index_manager.py`,
class `TwoTierFAISSManager`)

The persistence layer (reading/writing the `.faiss` and `.json` files) is
I/O around the in-memory state and is not part of the functional model; the
model state is the in-memory state the class maintains, which the source
keeps in lock-step with the files it writes. -/

namespace Faiss

/-- Python `dict` lookup on an insertion-ordered association list (keys are
unique, as in a Python dict). -/
def dictLookup : List (String × β) → String → Option β
  | [], _ => none
  | kv :: t, k => if kv.1 = k then some kv.2 else dictLookup t k

/-- Python `dict` assignment: update in place when the key exists, append
otherwise. -/
def dictSet : List (String × β) → String → β → List (String × β)
  | [], k, v => [(k, v)]
  | kv :: t, k, v => if kv.1 = k then (k, v) :: t else kv :: dictSet t k v

/-- Python `del d[k]`. -/
def dictDelete : List (String × β) → String → List (String × β)
  | [], _ => []
  | kv :: t, k => if kv.1 = k then dictDelete t k else kv :: dictDelete t k

/-- Inner product, the score of `faiss.IndexFlatIP`. -/
def ipScore (q v : List ℚ) : ℚ := (List.zipWith (· * ·) q v).sum

/-- Model of `faiss.IndexFlatIP.search(query, k)` (an external library): the
`k` best `(score, index)` pairs over the stored vectors, score-descending,
ties by insertion order. -/
def flatSearch (vecs : List (List ℚ)) (q : List ℚ) (k : ℕ) : List (ℚ × ℕ) :=
  (pyStableSort (fun a b => decide (b.1 < a.1))
    ((vecs.enum).map (fun iv => (ipScore q iv.2, iv.1)))).take k

/-- An input chunk dict, with the keys `add_chunks` reads (`.get` defaults
are folded into the field values). -/
structure Chunk where
  file_path : String
  file_name : String
  directory : String
  file_type : String
  file_size : ℕ
  modified_date : String
  chunk_index : ℕ
  total_chunks : ℕ
  chunk_text : String
  tfidf_keywords : List String
  lda_topics : List String
  deriving Repr, DecidableEq

/-- A vector-metadata dict as built by `add_chunks` and `rebuild_major`. -/
structure VecMeta where
  id : ℕ
  file_path : String
  file_name : String
  directory : String
  file_type : String
  file_size : ℕ
  modified_date : String
  chunk_index : ℕ
  total_chunks : ℕ
  chunk_text : String
  tfidf_keywords : List String
  lda_topics : List String
  deriving Repr, DecidableEq

/-- The metadata dict built for one chunk (lines 317–330 and 721–734). -/
def mkMeta (vid : ℕ) (c : Chunk) : VecMeta :=
  { id := vid
    file_path := c.file_path
    file_name := c.file_name
    directory := c.directory
    file_type := c.file_type
    file_size := c.file_size
    modified_date := c.modified_date
    chunk_index := c.chunk_index
    total_chunks := c.total_chunks
    chunk_text := c.chunk_text
    tfidf_keywords := c.tfidf_keywords
    lda_topics := c.lda_topics }

/-- An entry of `IndexState.indexed_file_hashes`.  The `hash` field reads
back `''` when the writing site did not store one (dict `.get('hash', '')`),
so a missing key is modelled as `""`. -/
structure FileInfo where
  hash : String
  tier : String
  vector_ids : List ℕ
  deriving Repr, DecidableEq

/-- Source: `IndexState` (the persisted state dataclass). -/
structure IndexState where
  major_build_timestamp : Option String
  minor_build_timestamp : Option String
  major_vector_count : ℕ
  minor_vector_count : ℕ
  indexed_file_hashes : List (String × FileInfo)
  stale_vector_ids : List ℕ
  deriving Repr, DecidableEq

/-- The in-memory state of a `TwoTierFAISSManager`: the two ANN containers,
their metadata lists, and the `IndexState`. -/
structure Manager where
  embedding_dim : ℕ
  major_vecs : List (List ℚ)
  major_meta : List VecMeta
  minor_vecs : List (List ℚ)
  minor_meta : List VecMeta
  state : IndexState
  deriving Repr, DecidableEq

/-- A freshly constructed manager over an empty data directory. -/
def initManager (dim : ℕ) : Manager :=
  { embedding_dim := dim
    major_vecs := []
    major_meta := []
    minor_vecs := []
    minor_meta := []
    state :=
    { major_build_timestamp := none
      minor_build_timestamp := none
      major_vector_count := 0
      minor_vector_count := 0
      indexed_file_hashes := []
      stale_vector_ids := [] } }

/-- A two-dimensional `numpy` array: `shape = (rows.length, cols)`. -/
structure NDArray where
  rows : List (List ℚ)
  cols : ℕ
  deriving Repr, DecidableEq

/-- The typed errors the manager raises. -/
inductive PyError where
  | valueError (msg : String)
  deriving Repr, DecidableEq

/-- Source: `TwoTierFAISSManager.add_chunks` (lines 266–355).  `faiss.normalize_L2`
rescales each row by a positive scalar; the model stores the rows as given
(see the module comment).  `now` stands for `datetime.now().isoformat()`. -/
def add_chunks (m : Manager) (chunks : List Chunk) (embeddings : NDArray)
    (file_hash : Option String) (now : String) : Except PyError (Manager × ℕ) :=
  if chunks.length = 0 then .ok (m, 0)
  else if embeddings.rows.length ≠ chunks.length then
    .error (.valueError "Mismatch: chunks but embeddings")
  else if embeddings.cols ≠ m.embedding_dim then
    .error (.valueError "Embedding dim mismatch")
  else
    let minorVecs := m.minor_vecs ++ embeddings.rows
    let baseId := m.state.major_vector_count + m.state.minor_vector_count
    let newIds := List.range' baseId chunks.length
    let minorMeta := m.minor_meta ++
      (chunks.enum).map (fun ic => mkMeta (baseId + ic.1) ic.2)
    let st1 := { m.state with
      minor_vector_count := minorVecs.length
      minor_build_timestamp := some now }
    let filePath := ((chunks.head?).map (·.file_path)).getD ""
    let st2 :=
      if filePath ≠ "" then
        let stale :=
          match dictLookup st1.indexed_file_hashes filePath with
          | some old => st1.stale_vector_ids ++ old.vector_ids
          | none => st1.stale_vector_ids
        { st1 with
          stale_vector_ids := stale
          indexed_file_hashes := dictSet st1.indexed_file_hashes filePath
            ⟨file_hash.getD "", "minor", newIds⟩ }
      else st1
    .ok ({ m with minor_vecs := minorVecs, minor_meta := minorMeta, state := st2 },
      chunks.length)

/-- Source: `TwoTierFAISSManager.mark_file_stale` (lines 493–514). -/
def mark_file_stale (m : Manager) (file_path : String) : List ℕ × Manager :=
  match dictLookup m.state.indexed_file_hashes file_path with
  | none => ([], m)
  | some info =>
    (info.vector_ids,
     { m with state := { m.state with
        stale_vector_ids := m.state.stale_vector_ids ++ info.vector_ids
        indexed_file_hashes := dictDelete m.state.indexed_file_hashes file_path } })

/-- Source: `TwoTierFAISSManager.is_file_indexed` (lines 521–535). -/
def is_file_indexed (m : Manager) (file_path : String)
    (file_hash : Option String) : Bool :=
  match dictLookup m.state.indexed_file_hashes file_path with
  | none => false
  | some info =>
    match file_hash with
    | some h => info.hash == h
    | none => true

/-- The two result-dict shapes `compact` returns. -/
inductive CompactResult where
  | noAction (minor_vectors major_vectors : ℕ)
  | success (pre_major_vectors pre_minor_vectors post_major_vectors
      stale_vectors : ℕ)
  deriving Repr, DecidableEq

/-- Source: `TwoTierFAISSManager.compact` (lines 561–641). -/
def compact (m : Manager) (now : String) : CompactResult × Manager :=
  if m.minor_vecs.length = 0 then
    (.noAction 0 m.state.major_vector_count, m)
  else
    let preMajor := m.major_vecs.length
    let preMinor := m.minor_vecs.length
    let majorVecs := m.major_vecs ++ m.minor_vecs
    let majorMeta := m.major_meta ++ m.minor_meta
    let st := { m.state with
      major_vector_count := majorVecs.length
      major_build_timestamp := some now
      minor_vector_count := 0
      minor_build_timestamp := none
      indexed_file_hashes := m.state.indexed_file_hashes.map
        (fun kv => if kv.2.tier == "minor" then (kv.1, { kv.2 with tier := "major" }) else kv) }
    (.success preMajor preMinor majorVecs.length st.stale_vector_ids.length,
     { m with major_vecs := majorVecs, major_meta := majorMeta,
              minor_vecs := [], minor_meta := [], state := st })

/-- The two result-dict shapes `rebuild_major` returns. -/
inductive RebuildResult where
  | error (message : String)
  | success (total_vectors indexed_files : ℕ)
  deriving Repr, DecidableEq

/-- One step of the `file_hashes` accumulation in `rebuild_major`
(lines 737–745); the entries it creates carry no `hash` key. -/
def addToFileHashes (acc : List (String × FileInfo)) (fp : String) (i : ℕ) :
    List (String × FileInfo) :=
  match dictLookup acc fp with
  | none => acc ++ [(fp, ⟨"", "major", [i]⟩)]
  | some info => dictSet acc fp { info with vector_ids := info.vector_ids ++ [i] }

/-- The `file_hashes` map `rebuild_major` builds from scratch. -/
def buildFileHashes (chunks : List Chunk) : List (String × FileInfo) :=
  (chunks.enum).foldl
    (fun acc ic => if ic.2.file_path ≠ "" then addToFileHashes acc ic.2.file_path ic.1 else acc)
    []

/-- Source: `TwoTierFAISSManager.rebuild_major` (lines 686–786).  The source has no
dimension check here; `faiss` itself would reject mismatched rows inside
`new_index.add`, which is outside this model. -/
def rebuild_major (m : Manager) (chunks : List Chunk) (embeddings : NDArray)
    (now : String) : Except PyError (RebuildResult × Manager) :=
  if chunks.length = 0 then .ok (.error "No chunks provided", m)
  else if embeddings.rows.length ≠ chunks.length then
    .error (.valueError "Mismatch: chunks but embeddings")
  else
    let newVecs := embeddings.rows
    let newMeta := (chunks.enum).map (fun ic => mkMeta ic.1 ic.2)
    let fileHashes := buildFileHashes chunks
    .ok (.success newVecs.length fileHashes.length,
      { m with
        major_vecs := newVecs
        major_meta := newMeta
        minor_vecs := []
        minor_meta := []
        state :=
        { major_build_timestamp := some now
          minor_build_timestamp := none
          major_vector_count := newVecs.length
          minor_vector_count := 0
          indexed_file_hashes := fileHashes
          stale_vector_ids := [] } })

/-- Source: `SearchResult` (dataclass). -/
structure SearchResult where
  vector_id : ℕ
  file_path : String
  chunk_index : ℕ
  chunk_text : String
  similarity_score : ℚ
  tier : String
  metadata : VecMeta
  deriving Repr, DecidableEq

/-- The per-tier result-collection loop of `search` (lines 414–432 and
440–458).  Metadata written by this class always carries an `id`, so
`meta.get('id', idx)` is `mt.id`; the `idx < 0` guard cannot fire for the
exact flat index when `k ≤ ntotal`. -/
def collectHits (hits : List (ℚ × ℕ)) (meta : List VecMeta) (tier : String)
    (stale : List ℕ) : List SearchResult :=
  hits.foldr
    (fun h acc =>
      match meta[h.2]? with
      | none => acc
      | some mt =>
        if mt.id ∈ stale then acc
        else ⟨mt.id, mt.file_path, mt.chunk_index, mt.chunk_text, h.1, tier, mt⟩ :: acc)
    []

/-- The sort test of `_merge_results`: Python
`results.sort(key=lambda r: r.similarity_score, reverse=True)`. -/
def resultLt (a b : SearchResult) : Bool :=
  decide (b.similarity_score < a.similarity_score)

/-- The deduplication loop of `_merge_results`: keep the first occurrence of
each `(file_path, chunk_index)` key. -/
def dedupKeys : List SearchResult → List (String × ℕ) → List SearchResult
  | [], _ => []
  | r :: rs, seen =>
    if (r.file_path, r.chunk_index) ∈ seen then dedupKeys rs seen
    else r :: dedupKeys rs ((r.file_path, r.chunk_index) :: seen)

/-- Source: `TwoTierFAISSManager._merge_results` (lines 463–487). -/
def _merge_results (results : List SearchResult) (top_k : ℕ) : List SearchResult :=
  (dedupKeys (pyStableSort resultLt results) []).take top_k

/-- Source: `TwoTierFAISSManager.search` (lines 380–461).  Query normalisation
rescales every score by the same positive factor and is the identity of the
model (see the module comment). -/
def search (m : Manager) (query : List ℚ) (top_k : ℕ) (filter_stale : Bool) :
    List SearchResult :=
  let stale := if filter_stale then m.state.stale_vector_ids else []
  let majorHits :=
    if 0 < m.major_vecs.length then
      flatSearch m.major_vecs query (min (top_k * 2) m.major_vecs.length)
    else []
  let minorHits :=
    if 0 < m.minor_vecs.length then
      flatSearch m.minor_vecs query (min (top_k * 2) m.minor_vecs.length)
    else []
  _merge_results
    (collectHits majorHits m.major_meta "major" stale ++
     collectHits minorHits m.minor_meta "minor" stale) top_k

/-- The operations of claim C1's state machine. -/
inductive Op where
  | add (chunks : List Chunk) (embeddings : NDArray) (file_hash : Option String)
      (now : String)
  | markStale (file_path : String)
  | compact (now : String)

/-- Apply one operation; a raised `ValueError` leaves the state unchanged
(the source validates before mutating). -/
def applyOp (m : Manager) : Op → Manager
  | .add chunks embeddings fh now =>
    match add_chunks m chunks embeddings fh now with
    | .ok r => r.1
    | .error _ => m
  | .markStale fp => (mark_file_stale m fp).2
  | .compact now => (compact m now).2

/-- Run a sequence of operations. -/
def runOps (m : Manager) (ops : List Op) : Manager := ops.foldl applyOp m

/-- The vector ids a single operation allocates (observed as the id range a
successful `add_chunks` hands out). -/
def opAllocated (m : Manager) : Op → List ℕ
  | .add chunks embeddings fh now =>
    match add_chunks m chunks embeddings fh now with
    | .ok _ =>
      List.range' (m.state.major_vector_count + m.state.minor_vector_count)
        chunks.length
    | .error _ => []
  | .markStale _ => []
  | .compact _ => []

/-- All vector ids ever allocated along a trace, in allocation order. -/
def traceAllocated : Manager → List Op → List ℕ
  | _, [] => []
  | m, op :: ops => opAllocated m op ++ traceAllocated (applyOp m op) ops

/-- All metadata entries, major tier first (the order compaction keeps). -/
def allMeta (m : Manager) : List VecMeta := m.major_meta ++ m.minor_meta

/-- The live vector ids: ids present in the tiers' metadata and not stale. -/
def liveIds (m : Manager) : List ℕ :=
  ((allMeta m).map (·.id)).filter (fun i => i ∉ m.state.stale_vector_ids)

end Faiss

/-! ## Scanner / orchestrator statistics (`file_metadata_content.py`) -/

namespace Scan

/-- Source: `ProcessingStatus` (the outcome enum). -/
inductive ProcessingStatus where
  | success
  | skipped
  | permission_denied
  | file_not_found
  | encoding_error
  | size_limit_exceeded
  | timeout
  | unknown_error
  deriving Repr, DecidableEq

/-- One discovered file as the worker sees it: the `modified_date` stored in
the database (`''` when the file is unknown), the filesystem mtime (`''` when
`stat` fails), and the outcome the rest of the worker pipeline would produce
for it. -/
structure ScanFile where
  db_modified_date : String
  fs_modified_date : String
  outcome : ProcessingStatus
  deriving Repr, DecidableEq

/-- The unchanged-file check of `process_single_file` (lines 1461–1470):
skip when, without `force`, both dates are non-empty and equal; otherwise the
pipeline outcome stands. -/
def process_single_file (force : Bool) (f : ScanFile) : ProcessingStatus :=
  if !force && !(f.db_modified_date == "") && !(f.fs_modified_date == "")
      && f.db_modified_date == f.fs_modified_date then
    .skipped
  else f.outcome

/-- The keys of `self.stats` as reset and aggregated by `scan_directory`.
There is no `skipped_unchanged` key in the source. -/
structure ScanStats where
  total_files : ℕ
  successful_files : ℕ
  permission_denied_files : ℕ
  size_limit_exceeded_files : ℕ
  encoding_error_files : ℕ
  file_not_found_files : ℕ
  timeout_files : ℕ
  unknown_error_files : ℕ
  failed_files : ℕ
  deriving Repr, DecidableEq

/-- One iteration of the statistics aggregation in `scan_directory`
(lines 1611–1633): `skipped` files are counted nowhere. -/
def tally (acc : ScanStats) (st : ProcessingStatus) : ScanStats :=
  let acc1 :=
    match st with
    | .success => { acc with successful_files := acc.successful_files + 1 }
    | .permission_denied =>
      { acc with permission_denied_files := acc.permission_denied_files + 1 }
    | .size_limit_exceeded =>
      { acc with size_limit_exceeded_files := acc.size_limit_exceeded_files + 1 }
    | .encoding_error =>
      { acc with encoding_error_files := acc.encoding_error_files + 1 }
    | .file_not_found =>
      { acc with file_not_found_files := acc.file_not_found_files + 1 }
    | .timeout => { acc with timeout_files := acc.timeout_files + 1 }
    | .skipped => acc
    | .unknown_error =>
      { acc with unknown_error_files := acc.unknown_error_files + 1 }
  if st ≠ .success ∧ st ≠ .skipped then
    { acc1 with failed_files := acc1.failed_files + 1 }
  else acc1

/-- The statistics part of `scan_directory` (lines 1582–1643): reset the
counters, set `total_files` to the number of discovered files, then tally
each file's outcome. -/
def scan_directory (files : List ScanFile) (force : Bool) : ScanStats :=
  let base : ScanStats := ⟨files.length, 0, 0, 0, 0, 0, 0, 0, 0⟩
  files.foldl (fun acc f => tally acc (process_single_file force f)) base

end Scan

/-! ## Autograph knowledge graph (`autograph_manager.py`,
class `AutographManager`) -/

namespace Autograph

/-- Source: `KnowledgeEdge` (dataclass). -/
structure KnowledgeEdge where
  timestamp : String
  source_node : String
  edge_type : String
  target_node : String
  weight : ℚ
  context_summary : String
  command : String
  deriving Repr, DecidableEq

/-- One `source_scores[source]` accumulator dict. -/
structure SourceScore where
  accepted : ℚ
  rejected : ℚ
  total_weight : ℚ
  deriving Repr, DecidableEq

/-- One suggestion dict in the return value of `suggest_sources`. -/
structure Suggestion where
  source : String
  confidence : ℚ
  total_weight : ℚ
  accept_count : ℚ
  reject_count : ℚ
  deriving Repr, DecidableEq

/-- Source: `config["settings"]["auto_suggest_threshold"]` (default config). -/
def auto_suggest_threshold : ℚ := 1 / 2

/-- Source: `config["settings"]["max_suggestions"]` (default config). -/
def max_suggestions : ℕ := 5

/-- Update the entry of `k` in place. -/
def updateEntry (m : List (String × SourceScore)) (k : String)
    (f : SourceScore → SourceScore) : List (String × SourceScore) :=
  m.map (fun kv => if kv.1 == k then (kv.1, f kv.2) else kv)

/-- Processing of one edge of a similar context (lines 420–431): create the
zero entry when absent (also for `ignored` edges), then accumulate for
`accepted` / `rejected` edges. -/
def processEdge (scores : List (String × SourceScore)) (sim : ℚ)
    (e : KnowledgeEdge) : List (String × SourceScore) :=
  let s0 :=
    match Faiss.dictLookup scores e.target_node with
    | none => scores ++ [(e.target_node, ⟨0, 0, 0⟩)]
    | some _ => scores
  if e.edge_type == "accepted" then
    updateEntry s0 e.target_node (fun sc =>
      { sc with
        accepted := sc.accepted + sim
        total_weight := sc.total_weight + e.weight * sim })
  else if e.edge_type == "rejected" then
    updateEntry s0 e.target_node (fun sc =>
      { sc with
        rejected := sc.rejected + sim
        total_weight := sc.total_weight + e.weight * sim })
  else s0

/-- The sort test of `suggest_sources`: Python
`suggestions.sort(key=lambda x: (-x["confidence"], -x["total_weight"]))`. -/
def suggLt (a b : Suggestion) : Bool :=
  decide (b.confidence < a.confidence) ||
    (decide (b.confidence = a.confidence) && decide (b.total_weight < a.total_weight))

/-- Source: `AutographManager.suggest_sources` (lines 395–450).  The
sentence-transformer embedding model is an external dependency, so the result
of `self._find_similar_contexts(context, top_k=20)` — the list of (context
node id, cosine similarity) pairs — is the `similar_contexts` parameter;
`edges` is `self._read_edges()`; `threshold` is the caller's threshold or the
config default; `maxSuggestions` is `config["settings"]["max_suggestions"]`.
Python `round(x, n)` is `Chunker.pyRound n`. -/
def suggest_sources (similar_contexts : List (String × ℚ))
    (edges : List KnowledgeEdge) (threshold : ℚ) (maxSuggestions : ℕ) :
    List Suggestion :=
  if similar_contexts.isEmpty then []
  else
    let scores := similar_contexts.foldl
      (fun acc cs =>
        if cs.2 < threshold then acc
        else (edges.filter (fun e => e.source_node == cs.1)).foldl
          (fun a e => processEdge a cs.2 e) acc)
      []
    let suggestions := scores.filterMap (fun kv =>
      let total := kv.2.accepted + kv.2.rejected
      if 0 < total then
        let confidence := kv.2.accepted / total
        if threshold ≤ confidence then
          some ⟨kv.1, Chunker.pyRound 3 confidence, Chunker.pyRound 3 kv.2.total_weight,
            Chunker.pyRound 2 kv.2.accepted, Chunker.pyRound 2 kv.2.rejected⟩
        else none
      else none)
    (pyStableSort suggLt suggestions).take maxSuggestions

/-- Claim C8's description of `suggest_sources`, followed to the letter: the
edges of every top-K similar context are aggregated (no similarity-threshold
gate on the contexts), then confidence is computed, filtered, sorted and
truncated exactly as in the source. -/
def suggest_sources_claim (similar_contexts : List (String × ℚ))
    (edges : List KnowledgeEdge) (threshold : ℚ) (maxSuggestions : ℕ) :
    List Suggestion :=
  if similar_contexts.isEmpty then []
  else
    let scores := similar_contexts.foldl
      (fun acc cs =>
        (edges.filter (fun e => e.source_node == cs.1)).foldl
          (fun a e => processEdge a cs.2 e) acc)
      []
    let suggestions := scores.filterMap (fun kv =>
      let total := kv.2.accepted + kv.2.rejected
      if 0 < total then
        let confidence := kv.2.accepted / total
        if threshold ≤ confidence then
          some ⟨kv.1, Chunker.pyRound 3 confidence, Chunker.pyRound 3 kv.2.total_weight,
            Chunker.pyRound 2 kv.2.accepted, Chunker.pyRound 2 kv.2.rejected⟩
        else none
      else none)
    (pyStableSort suggLt suggestions).take maxSuggestions

end Autograph

namespace Faiss

/-- The candidate results `search` feeds into `_merge_results`: the per-tier
FAISS hits at depth `min(top_k * 2, ntotal)`, collected against the tier's
metadata and the stale set. -/
def searchCandidates (m : Manager) (query : List ℚ) (top_k : ℕ)
    (filter_stale : Bool) : List SearchResult :=
  let stale := if filter_stale then m.state.stale_vector_ids else []
  collectHits (flatSearch m.major_vecs query (min (top_k * 2) m.major_vecs.length))
      m.major_meta "major" stale ++
    collectHits (flatSearch m.minor_vecs query (min (top_k * 2) m.minor_vecs.length))
      m.minor_meta "minor" stale

/-- Predicate: an operation's `add` calls ingest chunks of a single file
(every chunk carries the file path of the first chunk). -/
def homogeneousOp : Op → Prop
  | .add chunks _ _ _ =>
    ∀ c ∈ chunks, c.file_path = (((chunks.head?).map Chunk.file_path).getD "")
  | .markStale _ => True
  | .compact _ => True

/-- Predicate: an operation ingests no chunk of file `F`. -/
def avoidsFile (F : String) : Op → Prop
  | .add chunks _ _ _ => ∀ c ∈ chunks, c.file_path ≠ F
  | .markStale _ => True
  | .compact _ => True

/-- Invariant property used for claim C4: file `F` is untracked and every
metadata entry of `F` is stale. -/
def fileRetired (m : Manager) (F : String) : Prop :=
  dictLookup m.state.indexed_file_hashes F = none ∧
    ∀ mt ∈ allMeta m, mt.file_path = F → mt.id ∈ m.state.stale_vector_ids

/-- Invariant: every metadata entry with a non-empty path is stale or listed
in the tracked `vector_ids` of its file.  Holds along homogeneous traces. -/
def trackedCover (m : Manager) : Prop :=
  ∀ mt ∈ allMeta m, mt.file_path ≠ "" →
    mt.id ∈ m.state.stale_vector_ids ∨
      ∃ info, dictLookup m.state.indexed_file_hashes mt.file_path = some info ∧
        mt.id ∈ info.vector_ids

/-- The tracked `vector_ids` of all files, concatenated in map order. -/
def trackedFlat (m : Manager) : List ℕ :=
  (m.state.indexed_file_hashes.map (fun kv => kv.2.vector_ids)).flatten

/-- The tracked `vector_ids` of an association list of file entries,
concatenated in map order (the list-level form of `trackedFlat`). -/
def flatIds (l : List (String × FileInfo)) : List ℕ :=
  (l.map (fun kv => kv.2.vector_ids)).flatten

/-- The structural invariant of the manager state machine (claims C1, C4). -/
structure Inv (m : Manager) : Prop where
  lens_major : m.major_vecs.length = m.major_meta.length
  lens_minor : m.minor_vecs.length = m.minor_meta.length
  cnt_major : m.state.major_vector_count = m.major_meta.length
  cnt_minor : m.state.minor_vector_count = m.minor_meta.length
  ids_range : (allMeta m).map VecMeta.id = List.range (allMeta m).length
  stale_sub : ∀ i ∈ m.state.stale_vector_ids, i < (allMeta m).length
  tracked_sub : ∀ i ∈ trackedFlat m, i < (allMeta m).length
  global_nodup : (m.state.stale_vector_ids ++ trackedFlat m).Nodup
  keys_nodup : ((m.state.indexed_file_hashes).map Prod.fst).Nodup

/-- A minimal chunk dict for examples. -/
def exChunk (fp : String) (ci : ℕ) : Chunk :=
  ⟨fp, "", "", "", 0, "", ci, 1, "", [], []⟩

/-- Example trace for claim C4: one `add_chunks` call carrying chunks of two
files (`G` first, `F` second), then a single-file add of `F`. -/
def c4ops : List Op :=
  [.add [exChunk "G" 0, exChunk "F" 0] ⟨[[], []], 0⟩ none "t1",
   .add [exChunk "F" 1] ⟨[[]], 0⟩ none "t2"]

/-- The state reached by `c4ops` from an empty (dimension-0) manager. -/
def c4m1 : Manager := runOps (initManager 0) c4ops

/-- The state after `mark_file_stale("F")` on `c4m1`. -/
def c4m2 : Manager := (mark_file_stale c4m1 "F").2

end Faiss

namespace Chunker

/-- Example input for claim C6: four paragraphs of 99, 700, 99 and 1
characters.  The second chunk packs the 700- and 99-character paragraphs
with an inserted `"\n\n"`, giving a non-final 801-character chunk. -/
def c6content : Str :=
  List.replicate 99 'a' ++ '\n' :: '\n' :: List.replicate 700 'b' ++
    '\n' :: '\n' :: List.replicate 99 'c' ++ '\n' :: '\n' :: ['d']

end Chunker

namespace Autograph

/-- Example edge for claim C8. -/
def exEdge (ctx ty target : String) (w : ℚ) : KnowledgeEdge :=
  ⟨"t", ctx, ty, target, w, "", "ground"⟩

/-- Example similar-context list for claim C8's counterexample: one context
above the 1/2 threshold, one below. -/
def c8similar : List (String × ℚ) := [("c1", 9 / 10), ("c2", 3 / 10)]

/-- Example edges for claim C8's counterexample: the same source is accepted
in the similar context and rejected in the dissimilar one. -/
def c8edges : List KnowledgeEdge :=
  [exEdge "c1" "accepted" "S" 1, exEdge "c2" "rejected" "S" (-(1 / 2))]

/-- Example edges for the claim's S7-style scenario: three accepts of `X`,
one reject of `Y`, all in one context. -/
def c8edges2 : List KnowledgeEdge :=
  [exEdge "c" "accepted" "X" 1, exEdge "c" "accepted" "X" 1,
   exEdge "c" "accepted" "X" 1, exEdge "c" "rejected" "Y" (-(1 / 2))]

end Autograph


/-! ### Stable-sort lemmas -/

theorem stableInsert_perm (lt : α → α → Bool) (x : α) (l : List α) :
    (stableInsert lt x l).Perm (x :: l) := by
  induction l with
  | nil => simp [stableInsert]
  | cons y ys ih =>
    simp only [stableInsert]
    by_cases h : lt x y
    · simp [h]
    · simp only [h, if_neg]
      exact (ih.cons y).trans (List.Perm.swap x y ys)

theorem pyStableSort_perm (lt : α → α → Bool) (l : List α) :
    (pyStableSort lt l).Perm l := by
  suffices h : ∀ acc, ((l.foldl (fun acc x => stableInsert lt x acc) acc)).Perm
      (l.reverse ++ acc) by
    have := h []
    simp only [List.append_nil] at this
    exact (this.trans l.reverse_perm)
  induction l with
  | nil => intro acc; simp
  | cons y ys ih =>
    intro acc
    simp only [List.foldl_cons, List.reverse_cons, List.append_assoc,
      List.singleton_append]
    exact (ih (stableInsert lt y acc)).trans
      (List.perm_append_left_iff _ |>.mpr (stableInsert_perm lt y acc))

/-- Sortedness produced by `stableInsert`, for a strict test that is
asymmetric and "transitive across a failure"
(`lt x y = true → lt z x = false → lt z y = false` would be the
contrapositive form; we require the two laws below). -/
theorem stableInsert_pairwise (lt : α → α → Bool)
    (hasym : ∀ a b, lt a b = true → lt b a = false)
    (htrans : ∀ a b c, lt a b = true → lt b c = true → lt a c = true)
    (x : α) (l : List α)
    (hl : l.Pairwise (fun a b => lt b a = false)) :
    (stableInsert lt x l).Pairwise (fun a b => lt b a = false) := by
  induction l with
  | nil => simp [stableInsert]
  | cons y ys ih =>
    rcases List.pairwise_cons.mp hl with ⟨hy, hys⟩
    simp only [stableInsert]
    by_cases h : lt x y
    · simp only [h, if_pos]
      refine List.pairwise_cons.mpr ⟨?_, hl⟩
      intro z hz
      rcases hz with _ | hz
      · exact hasym _ _ h
      · rename_i hz
        -- z ∈ ys; lt x y and lt z y = false give lt z x = false
        have hzy : lt z y = false := hy z hz
        by_contra hcon
        have hzx : lt z x = true := by
          cases hxz : lt z x
          · exact absurd hxz hcon
          · rfl
        have : lt z y = true := htrans z x y hzx h
        rw [this] at hzy; exact Bool.noConfusion hzy
    · simp only [h, if_neg]
      refine List.pairwise_cons.mpr ⟨?_, ih hys⟩
      intro z hz
      have hmem := (stableInsert_perm lt x ys).mem_iff.mp hz
      rcases List.mem_cons.mp hmem with rfl | hzb
      · cases hres : lt z y
        · rfl
        · exact absurd hres (by simp [h])
      · exact hy z hzb

theorem pyStableSort_pairwise (lt : α → α → Bool)
    (hasym : ∀ a b, lt a b = true → lt b a = false)
    (htrans : ∀ a b c, lt a b = true → lt b c = true → lt a c = true)
    (l : List α) :
    (pyStableSort lt l).Pairwise (fun a b => lt b a = false) := by
  suffices h : ∀ acc, acc.Pairwise (fun a b => lt b a = false) →
      (l.foldl (fun acc x => stableInsert lt x acc) acc).Pairwise
        (fun a b => lt b a = false) by
    exact h [] (by simp)
  induction l with
  | nil => intro acc hacc; simpa using hacc
  | cons y ys ih =>
    intro acc hacc
    exact ih _ (stableInsert_pairwise lt hasym htrans y acc hacc)

/-! ### String lemmas -/

theorem nonWs_append (s t : Str) : nonWs (s ++ t) = nonWs s ++ nonWs t := by
  simp [nonWs]

@[simp] theorem nonWs_nil : nonWs [] = [] := rfl

theorem nonWs_eq_nil_of_ws {s : Str} (h : ∀ c ∈ s, pyIsSpace c = true) :
    nonWs s = [] := by
  simp only [nonWs, List.filter_eq_nil_iff]
  intro c hc
  simp [h c hc]

theorem nonWs_flatten (l : List Str) : nonWs l.flatten = (l.map nonWs).flatten := by
  induction l with
  | nil => rfl
  | cons p ps ih => simp [nonWs_append, ih]

theorem nonWs_dropWhile (s : Str) : nonWs (s.dropWhile pyIsSpace) = nonWs s := by
  induction s with
  | nil => rfl
  | cons c cs ih =>
    by_cases h : pyIsSpace c
    · simpa [List.dropWhile, h, nonWs] using ih
    · simp [List.dropWhile, h]

theorem nonWs_reverse (s : Str) : nonWs s.reverse = (nonWs s).reverse := by
  simp [nonWs, List.filter_reverse]

theorem nonWs_pyStrip (s : Str) : nonWs (pyStrip s) = nonWs s := by
  simp [pyStrip, nonWs_reverse, nonWs_dropWhile]

theorem length_dropWhile_le' (p : α → Bool) (l : List α) :
    (l.dropWhile p).length ≤ l.length :=
  (List.dropWhile_sublist p (l := l)).length_le

theorem pyStrip_length_le (s : Str) : (pyStrip s).length ≤ s.length := by
  unfold pyStrip
  simp only [List.length_reverse]
  calc (List.dropWhile pyIsSpace (List.dropWhile pyIsSpace s).reverse).length
      ≤ (List.dropWhile pyIsSpace s).reverse.length := length_dropWhile_le' _ _
    _ = (List.dropWhile pyIsSpace s).length := by simp
    _ ≤ s.length := length_dropWhile_le' _ _

theorem joinWith_nil (sep : Str) : joinWith sep [] = [] := by
  simp [joinWith, List.intercalate]

theorem joinWith_single (sep a : Str) : joinWith sep [a] = a := by
  simp [joinWith, List.intercalate]

theorem joinWith_cons2 (sep a b : Str) (l : List Str) :
    joinWith sep (a :: b :: l) = a ++ sep ++ joinWith sep (b :: l) := by
  simp [joinWith, List.intercalate]

theorem joinWith_append_of_ne (sep : Str) :
    ∀ (xs ys : List Str), xs ≠ [] → ys ≠ [] →
      joinWith sep (xs ++ ys) = joinWith sep xs ++ sep ++ joinWith sep ys := by
  intro xs
  induction xs with
  | nil => intro ys h _; exact absurd rfl h
  | cons a t ih =>
    intro ys _ hy
    cases t with
    | nil =>
      cases ys with
      | nil => exact absurd rfl hy
      | cons b u => simp [joinWith_cons2, joinWith_single]
    | cons b u =>
      simp only [List.cons_append]
      have hih := ih ys (by simp) hy
      simp only [List.cons_append] at hih
      rw [joinWith_cons2, hih, joinWith_cons2]
      simp

theorem nonWs_joinWith_ws {sep : Str} (hsep : ∀ c ∈ sep, pyIsSpace c = true)
    (pieces : List Str) :
    nonWs (joinWith sep pieces) = (pieces.map nonWs).flatten := by
  induction pieces with
  | nil => simp [joinWith_nil, nonWs]
  | cons a l ih =>
    cases l with
    | nil => simp [joinWith_single, nonWs]
    | cons b t =>
      rw [joinWith_cons2, nonWs_append, nonWs_append, ih,
        nonWs_eq_nil_of_ws hsep]
      simp

/-- Elements within the `takeWhile p` region of a list satisfy `p`. -/
theorem mem_take_of_le_takeWhile {p : α → Bool} :
    ∀ (l : List α) (k : ℕ), k ≤ (l.takeWhile p).length →
      ∀ x ∈ l.take k, p x = true := by
  intro l
  induction l with
  | nil => intro k _ x hx; simp at hx
  | cons a t ih =>
    intro k hk x hx
    cases k with
    | zero => simp at hx
    | succ k =>
      by_cases ha : p a
      · simp only [List.takeWhile_cons, ha, if_true, List.length_cons,
          Nat.succ_le_succ_iff] at hk
        rcases List.mem_cons.mp (by simpa using hx) with rfl | hxt
        · exact ha
        · exact ih k hk x hxt
      · simp [List.takeWhile_cons, ha] at hk

namespace Chunker

theorem splitOnChar_ne_nil (sep : Char) (s : Str) : splitOnChar sep s ≠ [] := by
  induction s with
  | nil => simp [splitOnChar]
  | cons c cs ih =>
    by_cases h : c = sep
    · simp [splitOnChar, h]
    · simp only [splitOnChar, h, if_neg]
      cases hs : splitOnChar sep cs with
      | nil => simp
      | cons p ps => simp

theorem splitOnChar_join (sep : Char) (s : Str) :
    joinWith [sep] (splitOnChar sep s) = s := by
  induction s with
  | nil => simp [splitOnChar, joinWith_single]
  | cons c cs ih =>
    by_cases h : c = sep
    · subst h
      rw [splitOnChar, if_pos rfl]
      cases hs : splitOnChar c cs with
      | nil => exact absurd hs (splitOnChar_ne_nil c cs)
      | cons p ps =>
        rw [joinWith_cons2]
        rw [hs] at ih
        simp [ih]
    · rw [splitOnChar, if_neg h]
      cases hs : splitOnChar sep cs with
      | nil => exact absurd hs (splitOnChar_ne_nil sep cs)
      | cons p ps =>
        rw [hs] at ih
        cases ps with
        | nil =>
          rw [joinWith_single] at ih ⊢
          simp [ih]
        | cons q qs =>
          rw [joinWith_cons2] at ih ⊢
          simp [← ih]

theorem codePackLoop_ne_nil (lines : List Str) :
    ∀ (cur : List Str) (size : ℕ), cur ≠ [] →
      codePackLoop lines cur size ≠ [] := by
  induction lines with
  | nil =>
    intro cur size hcur
    simp [codePackLoop, List.isEmpty_iff, hcur]
  | cons line ls ih =>
    intro cur size hcur
    rw [codePackLoop]
    by_cases hc : CODE_CHUNK_SIZE < size + (line.length + 1) ∧ ¬ cur.isEmpty
    · rw [if_pos hc]; simp
    · rw [if_neg hc]; exact ih _ _ (by simp)

/-- The text of the chunks of `chunk_code`, rejoined with the newline that the
packing loop dropped between chunks, is exactly the input (the loop
partitions `content.split('\n')`). -/
theorem codePackLoop_join (lines : List Str) :
    ∀ (cur : List Str) (size : ℕ),
      joinWith ['\n'] (codePackLoop lines cur size) =
        joinWith ['\n'] (cur ++ lines) := by
  induction lines with
  | nil =>
    intro cur size
    cases cur with
    | nil => simp [codePackLoop, joinWith_nil]
    | cons a t => simp [codePackLoop, joinWith_single]
  | cons line ls ih =>
    intro cur size
    rw [codePackLoop]
    by_cases hc : CODE_CHUNK_SIZE < size + (line.length + 1) ∧ ¬ cur.isEmpty
    · rw [if_pos hc]
      cases cur with
      | nil => simp at hc
      | cons a t =>
        cases hjoin : codePackLoop ls [line] (line.length + 1) with
        | nil =>
          exact absurd hjoin (codePackLoop_ne_nil ls [line] _ (by simp))
        | cons ch chs =>
          rw [joinWith_cons2]
          have hr : joinWith ['\n'] (ch :: chs) = joinWith ['\n'] ([line] ++ ls) := by
            rw [← hjoin, ih]
          rw [hr, ← joinWith_append_of_ne ['\n'] (a :: t) ([line] ++ ls)
            (by simp) (by simp)]
          simp
    · rw [if_neg hc, ih (cur ++ [line]) (size + (line.length + 1))]
      simp

theorem chunkCodeRaw_join (content : Str) :
    joinWith ['\n'] (chunkCodeRaw content) = content := by
  by_cases h : content.isEmpty
  · rw [chunkCodeRaw, if_pos h, joinWith_nil]
    exact (List.isEmpty_iff.mp h).symm
  · rw [chunkCodeRaw, if_neg h, codePackLoop_join, List.nil_append,
      splitOnChar_join]

theorem lastIdxOf_succ_le {c : Char} {l : Str} {i : ℕ}
    (h : lastIdxOf c l = some i) : i + 1 ≤ l.length := by
  unfold lastIdxOf at h
  cases hf : l.reverse.findIdx? (· = c) with
  | none => rw [hf] at h; exact Option.noConfusion h
  | some j =>
    rw [hf] at h
    have hl : l ≠ [] := by
      intro hnil
      subst hnil
      simp [List.findIdx?] at hf
    have hlen : 1 ≤ l.length := List.length_pos.mpr hl
    injection h with h
    omega

/-- All characters of a `\n\s*\n` separator match are whitespace. -/
theorem paraSepLen_take_ws {cs : Str} {n : ℕ} (h : paraSepLen cs = n + 1) :
    ∀ x ∈ cs.take (n + 1), pyIsSpace x = true := by
  match cs with
  | [] => simp [paraSepLen] at h
  | c :: rest =>
    rw [paraSepLen] at h
    by_cases hc : c = '\n'
    · rw [if_pos hc] at h
      cases hf : lastIdxOf '\n' (rest.takeWhile pyIsSpace) with
      | none => rw [hf] at h; exact absurd h.symm (Nat.succ_ne_zero n)
      | some i =>
        rw [hf] at h
        have h2 : i + 2 = n + 1 := h
        have hn : n = i + 1 := by omega
        subst hn
        intro x hx
        rw [List.take_succ_cons] at hx
        rcases List.mem_cons.mp hx with rfl | hxr
        · subst hc; decide
        · exact mem_take_of_le_takeWhile rest (i + 1) (lastIdxOf_succ_le hf) x hxr
    · rw [if_neg hc] at h
      exact absurd h.symm (Nat.succ_ne_zero n)

theorem splitParasAux_nonWs (cs acc : Str) :
    ((splitParasAux cs acc).map nonWs).flatten = nonWs acc.reverse ++ nonWs cs := by
  induction cs, acc using splitParasAux.induct with
  | case1 acc => simp [splitParasAux, nonWs]
  | case2 c rest acc hsep ih =>
    rw [splitParasAux, hsep, ih]
    have : nonWs (c :: rest) = nonWs [c] ++ nonWs rest := nonWs_append [c] rest
    simp only [List.reverse_cons, nonWs_append]
    simp [this]
  | case3 c rest acc n hsep ih =>
    rw [splitParasAux, hsep]
    simp only [List.map_cons, List.flatten_cons, ih]
    have hsplit : (c :: rest) = (c :: rest).take (n + 1) ++ rest.drop n :=
      (List.take_append_drop (n + 1) (c :: rest)).symm
    rw [show nonWs (c :: rest) = nonWs ((c :: rest).take (n + 1) ++ rest.drop n) by
        rw [← hsplit],
      nonWs_append, nonWs_eq_nil_of_ws (paraSepLen_take_ws hsep)]
    simp

theorem splitParas_nonWs (cs : Str) :
    ((splitParas cs).map nonWs).flatten = nonWs cs := by
  simpa [nonWs] using splitParasAux_nonWs cs []

theorem filter_strip_nonWs (l : List Str) :
    (((l.map pyStrip).filter (fun p => !p.isEmpty)).map nonWs).flatten =
      (l.map nonWs).flatten := by
  induction l with
  | nil => rfl
  | cons p t ih =>
    by_cases hp : pyStrip p = []
    · have hnw : nonWs p = [] := by rw [← nonWs_pyStrip, hp]; rfl
      simp [List.filter_cons, hp, ih, hnw]
    · simp [List.filter_cons, List.isEmpty_iff, hp, ih, nonWs_pyStrip]

theorem proseParagraphs_nonWs (content : Str) :
    ((proseParagraphs content).map nonWs).flatten = nonWs content := by
  unfold proseParagraphs
  exact (filter_strip_nonWs (splitParas content)).trans (splitParas_nonWs content)

theorem sentSplitAux_flatten (cs acc : Str) :
    (sentSplitAux cs acc).flatten = acc.reverse ++ cs := by
  induction cs, acc using sentSplitAux.induct with
  | case1 acc => simp [sentSplitAux]
  | case2 c rest acc hsep ih =>
    rw [sentSplitAux, hsep, ih]
    simp
  | case3 c rest acc n hsep ih =>
    rw [sentSplitAux, hsep]
    simp only [List.flatten_cons, ih, List.reverse_nil, List.nil_append]
    rw [← List.append_assoc,  List.append_assoc]
    rw [show (c :: rest).take (n + 1) ++ rest.drop n = c :: rest from
      List.take_append_drop (n + 1) (c :: rest)]

theorem sentSplit_flatten (cs : Str) : (sentSplit cs).flatten = cs := by
  simpa using sentSplitAux_flatten cs []

theorem sentPackLoop_nonWs (pieces : List Str) :
    ∀ (sc : List Str) (size : ℕ),
      ((sentPackLoop pieces sc size).map nonWs).flatten =
        nonWs sc.flatten ++ nonWs pieces.flatten := by
  induction pieces with
  | nil =>
    intro sc size
    by_cases hsc : sc.isEmpty
    · have : sc = [] := List.isEmpty_iff.mp hsc
      subst this
      simp [sentPackLoop]
    · simp [sentPackLoop, hsc, nonWs_pyStrip, nonWs_flatten]
  | cons s ss ih =>
    intro sc size
    rw [sentPackLoop]
    by_cases hc : PROSE_CHUNK_SIZE < size + s.length ∧ ¬ sc.isEmpty
    · rw [if_pos hc]
      simp only [List.map_cons, List.flatten_cons, ih, nonWs_pyStrip]
      simp [nonWs_append]
    · rw [if_neg hc, ih]
      simp [nonWs_append]

theorem prosePackLoop_nonWs (paras : List Str) :
    ∀ (cur : List Str) (size : ℕ),
      ((prosePackLoop paras cur size).map nonWs).flatten =
        (cur.map nonWs).flatten ++ (paras.map nonWs).flatten := by
  have hnn : ∀ c ∈ ['\n', '\n'], pyIsSpace c = true := by decide
  induction paras with
  | nil =>
    intro cur size
    by_cases hcur : cur.isEmpty
    · have : cur = [] := List.isEmpty_iff.mp hcur
      subst this
      simp [prosePackLoop]
    · simp [prosePackLoop, hcur, nonWs_joinWith_ws hnn]
  | cons para ps ih =>
    intro cur size
    rw [prosePackLoop]
    by_cases hbig : PROSE_CHUNK_SIZE < para.length
    · rw [if_pos hbig]
      by_cases hcur : cur.isEmpty
      · have hceq : cur = [] := List.isEmpty_iff.mp hcur
        subst hceq
        rw [if_pos (show (([] : List Str)).isEmpty = true from rfl)]
        simp only [List.map_append, List.flatten_append, ih, sentPackLoop_nonWs]
        simp [sentSplit_flatten]
      · rw [if_neg hcur]
        simp only [List.map_cons, List.flatten_cons, List.map_append,
          List.flatten_append, ih, sentPackLoop_nonWs, nonWs_joinWith_ws hnn]
        simp [sentSplit_flatten]
    · rw [if_neg hbig]
      by_cases hc : PROSE_CHUNK_SIZE < size + para.length ∧ ¬ cur.isEmpty
      · rw [if_pos hc]
        simp only [List.map_cons, List.flatten_cons, ih, nonWs_joinWith_ws hnn]
        simp
      · rw [if_neg hc, ih]
        simp

theorem joinWith_one_sep_length (ch : Char) :
    ∀ (cur : List Str), cur ≠ [] →
      (joinWith [ch] cur).length + 1 = codeSize cur := by
  intro cur
  induction cur with
  | nil => intro h; exact absurd rfl h
  | cons a t ih =>
    intro _
    cases t with
    | nil => simp [joinWith_single, codeSize]
    | cons b u =>
      rw [joinWith_cons2]
      have := ih (by simp)
      simp only [codeSize, List.map_cons, List.sum_cons] at this ⊢
      simp only [List.length_append, List.length_cons, List.length_nil]
      omega

theorem joinWith_two_sep_length (c₁ c₂ : Char) :
    ∀ (cur : List Str), cur ≠ [] →
      (joinWith [c₁, c₂] cur).length + 2 = proseSize cur := by
  intro cur
  induction cur with
  | nil => intro h; exact absurd rfl h
  | cons a t ih =>
    intro _
    cases t with
    | nil => simp [joinWith_single, proseSize]
    | cons b u =>
      rw [joinWith_cons2]
      have := ih (by simp)
      simp only [proseSize, List.map_cons, List.sum_cons] at this ⊢
      simp only [List.length_append, List.length_cons, List.length_nil]
      omega

theorem codeSize_append_single (cur : List Str) (l : Str) :
    codeSize (cur ++ [l]) = codeSize cur + (l.length + 1) := by
  simp [codeSize]

theorem proseSize_append_single (cur : List Str) (l : Str) :
    proseSize (cur ++ [l]) = proseSize cur + (l.length + 2) := by
  simp [proseSize]

/-- Size bound for the chunks of `chunk_code`: every chunk is within the
350-character target, or is one single (over-long) input line. -/
theorem codePackLoop_bound (L : List Str) :
    ∀ (lines cur : List Str) (size : ℕ),
      (∀ l ∈ cur, l ∈ L) → (∀ l ∈ lines, l ∈ L) →
      size = codeSize cur → (2 ≤ cur.length → size ≤ CODE_CHUNK_SIZE) →
      ∀ ch ∈ codePackLoop lines cur size,
        ch.length ≤ CODE_CHUNK_SIZE ∨ ch ∈ L := by
  have flushCase : ∀ (cur : List Str), cur ≠ [] → (∀ l ∈ cur, l ∈ L) →
      (2 ≤ cur.length → codeSize cur ≤ CODE_CHUNK_SIZE) →
      (joinWith ['\n'] cur).length ≤ CODE_CHUNK_SIZE ∨ joinWith ['\n'] cur ∈ L := by
    intro cur hne hmem hsz
    cases cur with
    | nil => exact absurd rfl hne
    | cons a t =>
      cases t with
      | nil => exact Or.inr (by simpa [joinWith_single] using hmem a (by simp))
      | cons b u =>
        left
        have hj := joinWith_one_sep_length '\n' (a :: b :: u) (by simp)
        have hs := hsz (by simp)
        omega
  intro lines
  induction lines with
  | nil =>
    intro cur size hcur _ hsize hguard ch hch
    rw [codePackLoop] at hch
    by_cases hce : cur.isEmpty
    · rw [if_pos hce] at hch; simp at hch
    · rw [if_neg hce] at hch
      rcases List.mem_singleton.mp hch with rfl
      exact flushCase cur (by simpa [List.isEmpty_iff] using hce) hcur
        (by rw [← hsize]; exact hguard)
  | cons line ls ih =>
    intro cur size hcur hlines hsize hguard ch hch
    rw [codePackLoop] at hch
    by_cases hc : CODE_CHUNK_SIZE < size + (line.length + 1) ∧ ¬ cur.isEmpty
    · rw [if_pos hc] at hch
      rcases List.mem_cons.mp hch with rfl | htail
      · exact flushCase cur (by simpa [List.isEmpty_iff] using hc.2) hcur
          (by rw [← hsize]; exact hguard)
      · exact ih [line] (line.length + 1)
          (by intro l hl; rcases List.mem_singleton.mp hl with rfl;
              exact hlines _ (by simp))
          (fun l hl => hlines l (List.mem_cons_of_mem line hl))
          (by simp [codeSize]) (by intro h2; simp at h2) ch htail
    · rw [if_neg hc] at hch
      refine ih (cur ++ [line]) (size + (line.length + 1))
        ?_ (fun l hl => hlines l (List.mem_cons_of_mem line hl))
        (by rw [hsize, codeSize_append_single]) ?_ ch hch
      · intro l hl
        rcases List.mem_append.mp hl with hl | hl
        · exact hcur l hl
        · rcases List.mem_singleton.mp hl with rfl
          exact hlines _ (by simp)
      · intro h2
        by_cases hcure : cur.isEmpty
        · have hceq : cur = [] := List.isEmpty_iff.mp hcure
          subst hceq
          simp at h2
        · have hnlt : ¬ (CODE_CHUNK_SIZE < size + (line.length + 1)) :=
            fun hlt => hc ⟨hlt, hcure⟩
          omega

theorem chunkCodeRaw_bound (content : Str) :
    ∀ ch ∈ chunkCodeRaw content,
      ch.length ≤ CODE_CHUNK_SIZE ∨ ch ∈ splitOnChar '\n' content := by
  intro ch hch
  by_cases h : content.isEmpty
  · rw [chunkCodeRaw, if_pos h] at hch; simp at hch
  · rw [chunkCodeRaw, if_neg h] at hch
    exact codePackLoop_bound (splitOnChar '\n' content) (splitOnChar '\n' content)
      [] 0 (by simp) (fun l hl => hl) (by simp [codeSize]) (by simp) ch hch

/-- Size bound for the sentence-packing loop of `chunk_prose`: each emitted
chunk is within the 800-character target, or is the strip of one single
(over-long) fragment. -/
theorem sentPackLoop_bound (U : List Str) :
    ∀ (pieces sc : List Str) (size : ℕ),
      (∀ u ∈ sc, u ∈ U) → (∀ u ∈ pieces, u ∈ U) →
      size = (sc.map List.length).sum →
      (2 ≤ sc.length → size ≤ PROSE_CHUNK_SIZE) →
      ∀ ch ∈ sentPackLoop pieces sc size,
        ch.length ≤ PROSE_CHUNK_SIZE ∨
          ∃ u ∈ U, ch = pyStrip u ∧ PROSE_CHUNK_SIZE < u.length := by
  have flushCase : ∀ (sc : List Str), sc ≠ [] → (∀ u ∈ sc, u ∈ U) →
      (2 ≤ sc.length → (sc.map List.length).sum ≤ PROSE_CHUNK_SIZE) →
      (pyStrip sc.flatten).length ≤ PROSE_CHUNK_SIZE ∨
        ∃ u ∈ U, pyStrip sc.flatten = pyStrip u ∧ PROSE_CHUNK_SIZE < u.length := by
    intro sc hne hmem hsz
    cases sc with
    | nil => exact absurd rfl hne
    | cons a t =>
      cases t with
      | nil =>
        by_cases hlen : (pyStrip ([a].flatten)).length ≤ PROSE_CHUNK_SIZE
        · exact Or.inl hlen
        · right
          refine ⟨a, hmem a (by simp), by simp, ?_⟩
          have h1 : (pyStrip ([a].flatten)).length ≤ a.length := by
            simpa using pyStrip_length_le a
          omega
      | cons b u =>
        left
        have h1 : (pyStrip ((a :: b :: u).flatten)).length ≤
            ((a :: b :: u).flatten).length := pyStrip_length_le _
        have h2 : ((a :: b :: u).flatten).length =
            ((a :: b :: u).map List.length).sum := by
          simp [List.length_flatten]
        have h3 := hsz (by simp)
        omega
  intro pieces
  induction pieces with
  | nil =>
    intro sc size hsc _ hsize hguard ch hch
    rw [sentPackLoop] at hch
    by_cases hse : sc.isEmpty
    · rw [if_pos hse] at hch; simp at hch
    · rw [if_neg hse] at hch
      rcases List.mem_singleton.mp hch with rfl
      exact flushCase sc (by simpa [List.isEmpty_iff] using hse) hsc
        (by rw [← hsize]; exact hguard)
  | cons s ss ih =>
    intro sc size hsc hpieces hsize hguard ch hch
    rw [sentPackLoop] at hch
    by_cases hc : PROSE_CHUNK_SIZE < size + s.length ∧ ¬ sc.isEmpty
    · rw [if_pos hc] at hch
      rcases List.mem_cons.mp hch with rfl | htail
      · exact flushCase sc (by simpa [List.isEmpty_iff] using hc.2) hsc
          (by rw [← hsize]; exact hguard)
      · exact ih [s] s.length
          (by intro u hu; rcases List.mem_singleton.mp hu with rfl;
              exact hpieces _ (by simp))
          (fun u hu => hpieces u (List.mem_cons_of_mem s hu))
          (by simp) (by intro h2; simp at h2) ch htail
    · rw [if_neg hc] at hch
      refine ih (sc ++ [s]) (size + s.length)
        ?_ (fun u hu => hpieces u (List.mem_cons_of_mem s hu))
        (by simp [hsize]) ?_ ch hch
      · intro u hu
        rcases List.mem_append.mp hu with hu | hu
        · exact hsc u hu
        · rcases List.mem_singleton.mp hu with rfl
          exact hpieces _ (by simp)
      · intro h2
        by_cases hsce : sc.isEmpty
        · have hsceq : sc = [] := List.isEmpty_iff.mp hsce
          subst hsceq
          simp at h2
        · have hnlt : ¬ (PROSE_CHUNK_SIZE < size + s.length) :=
            fun hlt => hc ⟨hlt, hsce⟩
          omega

/-- Size bound for the paragraph loop of `chunk_prose`.  The invariant ties
`current_size` to the length of the `'\n\n'.join` of the accumulated
paragraphs: the source's middle branch (`current_chunk = [para];
current_size = para_size`) omits the `+2` separator accounting, so the join
can overshoot `current_size` by two characters — hence the
`PROSE_CHUNK_SIZE + 2` bound. -/
theorem prosePackLoop_bound (U : List Str) :
    ∀ (paras cur : List Str) (size : ℕ),
      (∀ p ∈ paras, ∀ u ∈ sentSplit p, u ∈ U) →
      (cur = [] → size = 0) →
      (cur ≠ [] → proseSize cur ≤ size + 2 ∧ size ≤ PROSE_CHUNK_SIZE + 2) →
      ∀ ch ∈ prosePackLoop paras cur size,
        ch.length ≤ PROSE_CHUNK_SIZE + 2 ∨
          ∃ u ∈ U, ch = pyStrip u ∧ PROSE_CHUNK_SIZE < u.length := by
  have flushCase : ∀ (cur : List Str) (size : ℕ), cur ≠ [] →
      (cur ≠ [] → proseSize cur ≤ size + 2 ∧ size ≤ PROSE_CHUNK_SIZE + 2) →
      (joinWith ['\n', '\n'] cur).length ≤ PROSE_CHUNK_SIZE + 2 := by
    intro cur size hne hinv
    have hj := joinWith_two_sep_length '\n' '\n' cur hne
    have := hinv hne
    omega
  intro paras
  induction paras with
  | nil =>
    intro cur size _ hinv0 hinv ch hch
    rw [prosePackLoop] at hch
    by_cases hce : cur.isEmpty
    · rw [if_pos hce] at hch; simp at hch
    · rw [if_neg hce] at hch
      rcases List.mem_singleton.mp hch with rfl
      exact Or.inl (flushCase cur size (by simpa [List.isEmpty_iff] using hce) hinv)
  | cons para ps ih =>
    intro cur size hU hinv0 hinv ch hch
    have hUtail : ∀ p ∈ ps, ∀ u ∈ sentSplit p, u ∈ U :=
      fun p hp => hU p (List.mem_cons_of_mem para hp)
    have hUhead : ∀ u ∈ sentSplit para, u ∈ U := hU para (by simp)
    rw [prosePackLoop] at hch
    by_cases hbig : PROSE_CHUNK_SIZE < para.length
    · rw [if_pos hbig] at hch
      by_cases hce : cur.isEmpty
      · have hceq : cur = [] := List.isEmpty_iff.mp hce
        subst hceq
        rw [if_pos (show (([] : List Str)).isEmpty = true from rfl)] at hch
        rcases List.mem_append.mp hch with hsent | hrest
        · exact (sentPackLoop_bound U (sentSplit para) [] 0 (by simp) hUhead
            (by simp) (by intro h2; simp at h2) ch hsent).imp_left
            (fun h => by omega)
        · exact ih [] size hUtail hinv0 (fun h => absurd rfl h) ch hrest
      · rw [if_neg hce] at hch
        rcases List.mem_cons.mp hch with rfl | htail
        · exact Or.inl (flushCase cur size (by simpa [List.isEmpty_iff] using hce) hinv)
        · rcases List.mem_append.mp htail with hsent | hrest
          · exact (sentPackLoop_bound U (sentSplit para) [] 0 (by simp) hUhead
              (by simp) (by intro h2; simp at h2) ch hsent).imp_left
              (fun h => by omega)
          · exact ih [] 0 hUtail (fun _ => rfl) (fun h => absurd rfl h) ch hrest
    · rw [if_neg hbig] at hch
      have hple : para.length ≤ PROSE_CHUNK_SIZE := by omega
      by_cases hc : PROSE_CHUNK_SIZE < size + para.length ∧ ¬ cur.isEmpty
      · rw [if_pos hc] at hch
        rcases List.mem_cons.mp hch with rfl | htail
        · exact Or.inl (flushCase cur size (by simpa [List.isEmpty_iff] using hc.2) hinv)
        · refine ih [para] para.length hUtail (by intro h; exact absurd h (by simp))
            ?_ ch htail
          intro _
          constructor
          · simp [proseSize]
          · omega
      · rw [if_neg hc] at hch
        refine ih (cur ++ [para]) (size + para.length + 2) hUtail
          (by intro h; simp at h) ?_ ch hch
        intro _
        by_cases hce : cur.isEmpty
        · have hceq : cur = [] := List.isEmpty_iff.mp hce
          subst hceq
          have hsz : size = 0 := hinv0 rfl
          subst hsz
          constructor
          · simp [proseSize]
          · omega
        · have hne : cur ≠ [] := by simpa [List.isEmpty_iff] using hce
          have hnlt : ¬ (PROSE_CHUNK_SIZE < size + para.length) :=
            fun hlt => hc ⟨hlt, by simpa [List.isEmpty_iff] using hce⟩
          have := hinv hne
          constructor
          · rw [proseSize_append_single]
            omega
          · omega

theorem chunkProseRaw_bound (content : Str) :
    ∀ ch ∈ chunkProseRaw content,
      ch.length ≤ PROSE_CHUNK_SIZE + 2 ∨
        ∃ u ∈ proseUnits content, ch = pyStrip u ∧ PROSE_CHUNK_SIZE < u.length := by
  intro ch hch
  by_cases h : content.isEmpty
  · rw [chunkProseRaw, if_pos h] at hch; simp at hch
  · rw [chunkProseRaw, if_neg h] at hch
    refine prosePackLoop_bound (proseUnits content) (proseParagraphs content) [] 0
      ?_ (fun _ => rfl) (fun hne => absurd rfl hne) ch hch
    intro p hp u hu
    unfold proseUnits
    rw [List.mem_flatten]
    exact ⟨sentSplit p, List.mem_map_of_mem sentSplit hp, hu⟩

theorem chunkProseRaw_nonWs (content : Str) :
    nonWs (chunkProseRaw content).flatten = nonWs content := by
  by_cases h : content.isEmpty
  · have : content = [] := List.isEmpty_iff.mp h
    subst this
    simp [chunkProseRaw, nonWs]
  · rw [chunkProseRaw, if_neg h, nonWs_flatten, prosePackLoop_nonWs,
      proseParagraphs_nonWs]
    simp

end Chunker

/-! ### Association-list (Python dict) lemmas -/

namespace Faiss

theorem dictLookup_dictSet_self (m : List (String × β)) (k : String) (v : β) :
    dictLookup (dictSet m k v) k = some v := by
  induction m with
  | nil => simp [dictSet, dictLookup]
  | cons kv t ih =>
    by_cases h : kv.1 = k
    · simp [dictSet, dictLookup, h]
    · rw [dictSet, if_neg h, dictLookup, if_neg h]
      exact ih

theorem dictLookup_dictSet_ne (m : List (String × β)) (k : String) (v : β)
    (P : String) (h : P ≠ k) :
    dictLookup (dictSet m k v) P = dictLookup m P := by
  have hkP : ¬ k = P := fun hh => h hh.symm
  induction m with
  | nil => simp [dictSet, dictLookup, hkP]
  | cons kv t ih =>
    by_cases hk : kv.1 = k
    · rw [dictSet, if_pos hk, dictLookup, if_neg hkP, dictLookup, hk, if_neg hkP]
    · rw [dictSet, if_neg hk, dictLookup, dictLookup]
      by_cases hp : kv.1 = P
      · rw [if_pos hp, if_pos hp]
      · rw [if_neg hp, if_neg hp, ih]

theorem dictLookup_dictDelete_self (m : List (String × β)) (k : String) :
    dictLookup (dictDelete m k) k = none := by
  induction m with
  | nil => rfl
  | cons kv t ih =>
    by_cases h : kv.1 = k
    · rw [dictDelete, if_pos h]
      exact ih
    · rw [dictDelete, if_neg h, dictLookup, if_neg h]
      exact ih

theorem dictLookup_dictDelete_ne (m : List (String × β)) (k P : String)
    (h : P ≠ k) :
    dictLookup (dictDelete m k) P = dictLookup m P := by
  have hkP : ¬ k = P := fun hh => h hh.symm
  induction m with
  | nil => rfl
  | cons kv t ih =>
    by_cases hk : kv.1 = k
    · rw [dictDelete, if_pos hk, ih, dictLookup,
        if_neg (show ¬ kv.1 = P by rw [hk]; exact hkP)]
    · rw [dictDelete, if_neg hk, dictLookup, dictLookup]
      by_cases hp : kv.1 = P
      · rw [if_pos hp, if_pos hp]
      · rw [if_neg hp, if_neg hp, ih]

theorem dictLookup_mem {m : List (String × β)} {k : String} {v : β}
    (h : dictLookup m k = some v) : (k, v) ∈ m := by
  induction m with
  | nil => simp [dictLookup] at h
  | cons kv t ih =>
    rw [dictLookup] at h
    by_cases hk : kv.1 = k
    · rw [if_pos hk] at h
      injection h with h
      have hkv : (k, v) = kv := by rw [← hk, ← h]
      rw [hkv]
      exact List.mem_cons_self kv t
    · rw [if_neg hk] at h
      exact List.mem_cons_of_mem kv (ih h)

theorem dictLookup_none_of_not_mem {m : List (String × β)} {k : String}
    (h : ∀ v, (k, v) ∈ m → False) : dictLookup m k = none := by
  induction m with
  | nil => rfl
  | cons kv t ih =>
    rw [dictLookup]
    by_cases hk : kv.1 = k
    · exfalso
      refine h kv.2 ?_
      rw [← hk]
      exact List.mem_cons_self kv t
    · rw [if_neg hk]
      exact ih (fun v hv => h v (List.mem_cons_of_mem kv hv))

/-! ### Claim C3: compaction -/

/-- Claim C3.  For every manager state whose minor index is non-empty,
`compact()` reports `pre_major`/`pre_minor`/`post_major` with
`post_major = pre_major + pre_minor`, empties the minor tier (vectors and
metadata, in memory and — not modelled — its on-disk files), appends the
minor vectors and metadata after the major ones, leaves `stale_vector_ids`
exactly unchanged, retags every `indexed_file_hashes` entry of tier
`"minor"` to `"major"` while keeping its key, hash and `vector_ids`, and
afterwards no entry has tier `"minor"`. -/
theorem C3_compact_postconditions (m : Manager) (now : String)
    (h : m.minor_vecs.length ≠ 0) :
    (compact m now).1 =
      .success m.major_vecs.length m.minor_vecs.length
        (m.major_vecs.length + m.minor_vecs.length)
        m.state.stale_vector_ids.length
    ∧ (compact m now).2.major_vecs = m.major_vecs ++ m.minor_vecs
    ∧ (compact m now).2.major_meta = m.major_meta ++ m.minor_meta
    ∧ (compact m now).2.minor_vecs = []
    ∧ (compact m now).2.minor_meta = []
    ∧ (compact m now).2.state.minor_vector_count = 0
    ∧ (compact m now).2.state.major_vector_count =
        m.major_vecs.length + m.minor_vecs.length
    ∧ (compact m now).2.state.stale_vector_ids = m.state.stale_vector_ids
    ∧ (compact m now).2.state.indexed_file_hashes =
        m.state.indexed_file_hashes.map
          (fun kv => if kv.2.tier == "minor" then
            (kv.1, { kv.2 with tier := "major" }) else kv)
    ∧ ∀ kv ∈ (compact m now).2.state.indexed_file_hashes,
        kv.2.tier ≠ "minor" ∨ kv.2.tier = "major" := by
  rw [compact, if_neg h]
  refine ⟨by simp, rfl, rfl, rfl, rfl, rfl, by simp, rfl, rfl, ?_⟩
  intro kv hkv
  rcases List.mem_map.mp hkv with ⟨kv0, _, heq⟩
  by_cases ht : kv0.2.tier == "minor"
  · rw [if_pos ht] at heq
    right
    rw [← heq]
  · rw [if_neg ht] at heq
    left
    rw [← heq]
    simpa using ht

/-! ### Claim C7: incremental re-scan statistics -/

/-- Claim C7 (evaluation at the failing input).  On a re-scan without
`force` of an unchanged one-file tree (database `modified_date` equal to the
filesystem mtime), the worker returns `skipped`, but `scan_directory` still
reports `total_files = 1` — not the claimed `total_files = 0` — and the
statistics record has no `skipped_unchanged` counter at all (no field of
`ScanStats` counts the skip).  The source decides the skip per file against
the stored `modified_date`, not against a `last_scan_time` of the most
recent ProcessingRun. -/
theorem C7_unchanged_rescan_counts :
    Scan.process_single_file false
        ⟨"2024-01-01T00:00:00", "2024-01-01T00:00:00", .success⟩ =
      .skipped
    ∧ Scan.scan_directory
        [⟨"2024-01-01T00:00:00", "2024-01-01T00:00:00", .success⟩] false =
      ⟨1, 0, 0, 0, 0, 0, 0, 0, 0⟩ := by
  constructor
  · rfl
  · rfl

/-! ### Claim C9: shape validation -/

/-- Counterexample to claim C9 as stated: with an empty chunk list and a
one-row embedding matrix the row count (1) differs from the chunk count (0),
yet `add_chunks` raises nothing — it returns 0 before validating. -/
theorem C9_counterexample :
    add_chunks (initManager 384) [] ⟨[[]], 384⟩ none "t" =
      .ok (initManager 384, 0)
    ∧ (NDArray.mk [[]] 384).rows.length ≠ ([] : List Chunk).length := by
  exact ⟨rfl, by decide⟩

/-- Claim C9 as amended.  For a non-empty chunk list, `add_chunks` raises
`ValueError` exactly when the row count differs from the chunk count or the
column count differs from the configured dimension, and the error carries no
state (the checks precede every mutation); with matching shapes it returns
`.ok`.  `rebuild_major` validates only the row count (it has no dimension
check); an empty chunk list short-circuits both methods without raising. -/
theorem C9_shape_validation (m : Manager) (chunks : List Chunk)
    (embs : NDArray) (fh : Option String) (now : String) :
    (chunks ≠ [] → embs.rows.length ≠ chunks.length →
      add_chunks m chunks embs fh now =
        .error (.valueError "Mismatch: chunks but embeddings"))
    ∧ (chunks ≠ [] → embs.rows.length = chunks.length →
        embs.cols ≠ m.embedding_dim →
        add_chunks m chunks embs fh now =
          .error (.valueError "Embedding dim mismatch"))
    ∧ (embs.rows.length = chunks.length → embs.cols = m.embedding_dim →
        ∃ m' n, add_chunks m chunks embs fh now = .ok (m', n))
    ∧ (chunks ≠ [] → embs.rows.length ≠ chunks.length →
        rebuild_major m chunks embs now =
          .error (.valueError "Mismatch: chunks but embeddings"))
    ∧ (chunks ≠ [] → embs.rows.length = chunks.length →
        ∃ r m', rebuild_major m chunks embs now = .ok (r, m')) := by
  have hlen : chunks ≠ [] → ¬ chunks.length = 0 := by
    intro h
    have := List.length_pos.mpr h
    omega
  refine ⟨?_, ?_, ?_, ?_, ?_⟩
  · intro hne hrows
    rw [add_chunks, if_neg (hlen hne), if_pos hrows]
  · intro hne hrows hcols
    rw [add_chunks, if_neg (hlen hne), if_neg (by simp [hrows]), if_pos hcols]
  · intro hrows hcols
    by_cases hz : chunks.length = 0
    · exact ⟨m, 0, by rw [add_chunks, if_pos hz]⟩
    · have h1 : ¬ embs.rows.length ≠ chunks.length := by simp [hrows]
      have h2 : ¬ embs.cols ≠ m.embedding_dim := by simp [hcols]
      rw [add_chunks, if_neg hz, if_neg h1, if_neg h2]
      exact ⟨_, _, rfl⟩
  · intro hne hrows
    rw [rebuild_major, if_neg (hlen hne), if_pos hrows]
  · intro hne hrows
    have h1 : ¬ embs.rows.length ≠ chunks.length := by simp [hrows]
    rw [rebuild_major, if_neg (hlen hne), if_neg h1]
    exact ⟨_, _, rfl⟩

/-- Witness for claim C9's amended theorem at a concrete input. -/
theorem C9_shape_validation_witness :
    ([exChunk "A" 0] ≠ ([] : List Chunk))
    ∧ (NDArray.mk [[], []] 0).rows.length ≠ [exChunk "A" 0].length
    ∧ add_chunks (initManager 0) [exChunk "A" 0] ⟨[[], []], 0⟩ none "t" =
        .error (.valueError "Mismatch: chunks but embeddings") :=
  ⟨by decide, by decide,
    (C9_shape_validation (initManager 0) [exChunk "A" 0] ⟨[[], []], 0⟩ none "t").1
      (by decide) (by decide)⟩

end Faiss

namespace Faiss

/-- Witness for claim C3's theorem at a concrete state (the example state
`c4m1`, whose minor tier holds three vectors). -/
theorem C3_compact_witness :
    c4m1.minor_vecs.length ≠ 0 ∧
      (compact c4m1 "t3").2.state.minor_vector_count = 0 :=
  ⟨by decide, (C3_compact_postconditions c4m1 "t3" (by decide)).2.2.2.2.2.1⟩

theorem mem_trackedFlat {m : Manager} {kv : String × FileInfo} {i : ℕ}
    (hkv : kv ∈ m.state.indexed_file_hashes) (hi : i ∈ kv.2.vector_ids) :
    i ∈ trackedFlat m := by
  unfold trackedFlat
  rw [List.mem_flatten]
  exact ⟨kv.2.vector_ids, List.mem_map_of_mem _ hkv, hi⟩

/-- Claim C10.  In `add_chunks`, only the file path of the FIRST chunk is
recorded in `indexed_file_hashes` (receiving all of the call's new vector
ids, and staling the file's previously tracked ids if it was tracked); a
different file `G` whose chunks ride along in the same call has its vectors
inserted into the minor tier but is never tracked: `is_file_indexed(G)` is
false, `mark_file_stale(G)` returns `[]` without changing state, and the
call's new vector ids (including `G`'s) are not stale. -/
theorem C10_first_chunk_owns_tracking
    (m : Manager) (chunks : List Chunk) (embs : NDArray) (fh : Option String)
    (now : String) (m' : Manager) (n : ℕ) (F G : String)
    (heq : add_chunks m chunks embs fh now = .ok (m', n))
    (hne : chunks ≠ [])
    (hF : (((chunks.head?).map Chunk.file_path).getD "") = F)
    (hGF : G ≠ F)
    (hGun : dictLookup m.state.indexed_file_hashes G = none)
    (hstale : ∀ i ∈ m.state.stale_vector_ids,
      i < m.state.major_vector_count + m.state.minor_vector_count)
    (htracked : ∀ i ∈ trackedFlat m,
      i < m.state.major_vector_count + m.state.minor_vector_count) :
    m'.minor_meta = m.minor_meta ++
      (chunks.enum).map (fun ic =>
        mkMeta (m.state.major_vector_count + m.state.minor_vector_count + ic.1) ic.2)
    ∧ (F ≠ "" → dictLookup m'.state.indexed_file_hashes F =
        some ⟨fh.getD "", "minor",
          List.range' (m.state.major_vector_count + m.state.minor_vector_count)
            chunks.length⟩)
    ∧ (F ≠ "" → m'.state.stale_vector_ids = m.state.stale_vector_ids ++
        (match dictLookup m.state.indexed_file_hashes F with
         | some old => old.vector_ids
         | none => []))
    ∧ (F = "" → m'.state.stale_vector_ids = m.state.stale_vector_ids ∧
        m'.state.indexed_file_hashes = m.state.indexed_file_hashes)
    ∧ dictLookup m'.state.indexed_file_hashes G = none
    ∧ is_file_indexed m' G none = false
    ∧ mark_file_stale m' G = ([], m')
    ∧ ∀ i ∈ List.range' (m.state.major_vector_count + m.state.minor_vector_count)
        chunks.length, i ∉ m'.state.stale_vector_ids := by
  have hz : ¬ chunks.length = 0 := by
    have := List.length_pos.mpr hne
    omega
  have h1 : ¬ embs.rows.length ≠ chunks.length := by
    intro hcon
    rw [add_chunks, if_neg hz, if_pos hcon] at heq
    exact Except.noConfusion heq
  have h2 : ¬ embs.cols ≠ m.embedding_dim := by
    intro hcon
    rw [add_chunks, if_neg hz, if_neg h1, if_pos hcon] at heq
    exact Except.noConfusion heq
  rw [add_chunks, if_neg hz, if_neg h1, if_neg h2] at heq
  simp only [Except.ok.injEq, Prod.mk.injEq] at heq
  obtain ⟨hm', hn⟩ := heq
  subst hm'
  rw [hF]
  by_cases hFe : F = ""
  · rw [if_neg (by simpa using hFe)]
    refine ⟨rfl, fun hc => absurd hFe hc, fun hc => absurd hFe hc,
      fun _ => ⟨rfl, rfl⟩, hGun, ?_, ?_, ?_⟩
    · rw [is_file_indexed, hGun]
    · rw [mark_file_stale, hGun]
    · intro i hi hmem
      have hb := List.mem_range'.mp hi
      exact absurd (hstale i hmem) (by omega)
  · rw [if_pos hFe]
    have hlookG : dictLookup
        (dictSet m.state.indexed_file_hashes F
          ⟨fh.getD "", "minor",
            List.range'
              (m.state.major_vector_count + m.state.minor_vector_count)
              chunks.length⟩) G = none := by
      rw [dictLookup_dictSet_ne _ _ _ _ hGF]
      exact hGun
    refine ⟨rfl, fun _ => dictLookup_dictSet_self _ _ _,
      fun _ => ?_, fun hc => absurd hc hFe, ?_, ?_, ?_, ?_⟩
    · cases hold : dictLookup m.state.indexed_file_hashes F <;> simp [hold]
    · exact hlookG
    · rw [is_file_indexed, hlookG]
    · rw [mark_file_stale, hlookG]
    · intro i hi hmem
      have hb := List.mem_range'.mp hi
      cases hold : dictLookup m.state.indexed_file_hashes F with
      | none =>
        rw [hold] at hmem
        simp only [List.append_nil] at hmem
        exact absurd (hstale i hmem) (by omega)
      | some old =>
        rw [hold] at hmem
        rcases List.mem_append.mp hmem with hs | ht
        · exact absurd (hstale i hs) (by omega)
        · have := htracked i (mem_trackedFlat (dictLookup_mem hold) ht)
          omega

/-- Witness for claim C10's theorem: an `add_chunks` call whose first chunk
belongs to `"G"` and whose second chunk belongs to `"F"`. -/
theorem C10_witness :
    add_chunks (initManager 0) [exChunk "G" 0, exChunk "F" 0] ⟨[[], []], 0⟩
        none "t1" =
      .ok (applyOp (initManager 0)
        (.add [exChunk "G" 0, exChunk "F" 0] ⟨[[], []], 0⟩ none "t1"), 2)
    ∧ is_file_indexed
        (applyOp (initManager 0)
          (.add [exChunk "G" 0, exChunk "F" 0] ⟨[[], []], 0⟩ none "t1"))
        "F" none = false :=
  ⟨rfl,
    (C10_first_chunk_owns_tracking (initManager 0)
      [exChunk "G" 0, exChunk "F" 0] ⟨[[], []], 0⟩ none "t1" _ 2 "G" "F"
      rfl (by decide) (by decide) (by decide) (by decide)
      (by decide) (by decide)).2.2.2.2.2.1⟩

end Faiss

namespace Faiss

/-! ### Claim C2: search fusion properties -/

theorem flatSearch_nil (q : List ℚ) (n : ℕ) : flatSearch [] q n = [] := by
  simp [flatSearch, pyStableSort]

theorem dedupKeys_sublist : ∀ (l : List SearchResult) (seen : List (String × ℕ)),
    (dedupKeys l seen).Sublist l := by
  intro l
  induction l with
  | nil => intro seen; simp [dedupKeys]
  | cons r rs ih =>
    intro seen
    rw [dedupKeys]
    by_cases h : (r.file_path, r.chunk_index) ∈ seen
    · rw [if_pos h]
      exact (ih seen).cons r
    · rw [if_neg h]
      exact (ih _).cons₂ r

theorem dedupKeys_not_seen :
    ∀ (l : List SearchResult) (seen : List (String × ℕ)),
      ∀ r ∈ dedupKeys l seen, (r.file_path, r.chunk_index) ∉ seen := by
  intro l
  induction l with
  | nil => intro seen r hr; simp [dedupKeys] at hr
  | cons x xs ih =>
    intro seen r hr
    rw [dedupKeys] at hr
    by_cases h : (x.file_path, x.chunk_index) ∈ seen
    · rw [if_pos h] at hr
      exact ih seen r hr
    · rw [if_neg h] at hr
      rcases List.mem_cons.mp hr with rfl | hr2
      · exact h
      · intro hcon
        exact (ih _ r hr2) (List.mem_cons_of_mem _ hcon)

theorem dedupKeys_keys_pairwise :
    ∀ (l : List SearchResult) (seen : List (String × ℕ)),
      (dedupKeys l seen).Pairwise
        (fun a b => (a.file_path, a.chunk_index) ≠ (b.file_path, b.chunk_index)) := by
  intro l
  induction l with
  | nil => intro seen; simp [dedupKeys]
  | cons x xs ih =>
    intro seen
    rw [dedupKeys]
    by_cases h : (x.file_path, x.chunk_index) ∈ seen
    · rw [if_pos h]
      exact ih seen
    · rw [if_neg h]
      refine List.pairwise_cons.mpr ⟨?_, ih _⟩
      intro b hb hcon
      exact (dedupKeys_not_seen xs _ b hb) (by rw [← hcon]; exact List.mem_cons_self _ _)

theorem dedupKeys_max :
    ∀ (l : List SearchResult) (seen : List (String × ℕ)),
      l.Pairwise (fun a b => resultLt b a = false) →
      ∀ r ∈ dedupKeys l seen, ∀ c ∈ l,
        (c.file_path, c.chunk_index) = (r.file_path, r.chunk_index) →
        c.similarity_score ≤ r.similarity_score := by
  intro l
  induction l with
  | nil => intro seen _ r hr; simp [dedupKeys] at hr
  | cons x xs ih =>
    intro seen hsort r hr c hc hkey
    rcases List.pairwise_cons.mp hsort with ⟨hx, hxs⟩
    rw [dedupKeys] at hr
    by_cases h : (x.file_path, x.chunk_index) ∈ seen
    · rw [if_pos h] at hr
      rcases List.mem_cons.mp hc with rfl | hc2
      · exfalso
        exact (dedupKeys_not_seen xs seen r hr) (by rw [← hkey]; exact h)
      · exact ih seen hxs r hr c hc2 hkey
    · rw [if_neg h] at hr
      rcases List.mem_cons.mp hr with rfl | hr2
      · rcases List.mem_cons.mp hc with rfl | hc2
        · exact le_refl _
        · have := hx c hc2
          simp only [resultLt, decide_eq_false_iff_not, not_lt] at this
          exact this
      · rcases List.mem_cons.mp hc with rfl | hc2
        · exfalso
          exact (dedupKeys_not_seen xs _ r hr2)
            (by rw [← hkey]; exact List.mem_cons_self _ _)
        · exact ih _ hxs r hr2 c hc2 hkey

theorem resultLt_asymm : ∀ a b, resultLt a b = true → resultLt b a = false := by
  intro a b h
  simp only [resultLt, decide_eq_true_eq] at h
  simp only [resultLt, decide_eq_false_iff_not, not_lt]
  exact le_of_lt h

theorem resultLt_trans :
    ∀ a b c, resultLt a b = true → resultLt b c = true → resultLt a c = true := by
  intro a b c hab hbc
  simp only [resultLt, decide_eq_true_eq] at hab hbc ⊢
  exact lt_trans hbc hab

theorem sorted_merge_results (results : List SearchResult) (k : ℕ) :
    (_merge_results results k).Pairwise
      (fun a b => b.similarity_score ≤ a.similarity_score) := by
  have hsorted := pyStableSort_pairwise resultLt resultLt_asymm resultLt_trans results
  have hsub : (_merge_results results k).Sublist (pyStableSort resultLt results) :=
    ((List.take_sublist k _).trans (dedupKeys_sublist _ []))
  refine (hsorted.sublist hsub).imp ?_
  intro a b hab
  simpa [resultLt, not_lt] using hab

/-- Claim C2 (amended only in presentation: the properties hold as claimed).
`search` queries each tier at depth `min(top_k·2, ntotal)` and feeds the
collected per-tier hits into `_merge_results` (conjunct 1); the returned
list is sorted by descending similarity (2), has pairwise-distinct
`(file_path, chunk_index)` keys (3), has length at most `top_k` (4), is
drawn from the candidate hits (5), and every returned result carries the
maximal score among the candidates that share its key (6). -/
theorem C2_search_properties (m : Manager) (q : List ℚ) (k : ℕ) (fs : Bool) :
    search m q k fs = _merge_results (searchCandidates m q k fs) k
    ∧ (search m q k fs).Pairwise
        (fun a b => b.similarity_score ≤ a.similarity_score)
    ∧ (search m q k fs).Pairwise
        (fun a b => (a.file_path, a.chunk_index) ≠ (b.file_path, b.chunk_index))
    ∧ (search m q k fs).length ≤ k
    ∧ (∀ r ∈ search m q k fs, r ∈ searchCandidates m q k fs)
    ∧ ∀ r ∈ search m q k fs, ∀ c ∈ searchCandidates m q k fs,
        (c.file_path, c.chunk_index) = (r.file_path, r.chunk_index) →
        c.similarity_score ≤ r.similarity_score := by
  have hEq : search m q k fs = _merge_results (searchCandidates m q k fs) k := by
    rw [search, searchCandidates]
    by_cases hM : 0 < m.major_vecs.length
    · by_cases hm : 0 < m.minor_vecs.length
      · rw [if_pos hM, if_pos hm]
      · rw [if_pos hM, if_neg hm]
        have : m.minor_vecs = [] := by
          cases hv : m.minor_vecs with
          | nil => rfl
          | cons a t => rw [hv] at hm; simp at hm
        rw [this]
        simp only [flatSearch_nil]
    · by_cases hm : 0 < m.minor_vecs.length
      · rw [if_neg hM, if_pos hm]
        have : m.major_vecs = [] := by
          cases hv : m.major_vecs with
          | nil => rfl
          | cons a t => rw [hv] at hM; simp at hM
        rw [this]
        simp only [flatSearch_nil]
      · rw [if_neg hM, if_neg hm]
        have h1 : m.major_vecs = [] := by
          cases hv : m.major_vecs with
          | nil => rfl
          | cons a t => rw [hv] at hM; simp at hM
        have h2 : m.minor_vecs = [] := by
          cases hv : m.minor_vecs with
          | nil => rfl
          | cons a t => rw [hv] at hm; simp at hm
        rw [h1, h2]
        simp only [flatSearch_nil]
  have hsubSorted : (_merge_results (searchCandidates m q k fs) k).Sublist
      (pyStableSort resultLt (searchCandidates m q k fs)) :=
    (List.take_sublist k _).trans (dedupKeys_sublist _ [])
  refine ⟨hEq, ?_, ?_, ?_, ?_, ?_⟩
  · rw [hEq]
    exact sorted_merge_results _ k
  · rw [hEq]
    exact (dedupKeys_keys_pairwise _ []).sublist (List.take_sublist k _)
  · rw [hEq, _merge_results]
    exact List.length_take_le k _
  · rw [hEq]
    intro r hr
    exact (pyStableSort_perm resultLt _).mem_iff.mp (hsubSorted.mem hr)
  · rw [hEq]
    intro r hr c hc hkey
    exact dedupKeys_max (pyStableSort resultLt (searchCandidates m q k fs)) []
      (pyStableSort_pairwise resultLt resultLt_asymm resultLt_trans _)
      r (List.mem_of_mem_take hr) c
      ((pyStableSort_perm resultLt _).symm.mem_iff.mp hc) hkey

/-- Witness for claim C2's theorem: a concrete search over the example
state `c4m2` returns a result that is indeed among the candidate hits. -/
theorem C2_search_witness :
    (⟨0, "G", 0, "", 0, "minor", mkMeta 0 (exChunk "G" 0)⟩ : SearchResult) ∈
      search c4m2 [] 10 true
    ∧ (⟨0, "G", 0, "", 0, "minor", mkMeta 0 (exChunk "G" 0)⟩ : SearchResult) ∈
      searchCandidates c4m2 [] 10 true :=
  ⟨by decide,
    (C2_search_properties c4m2 [] 10 true).2.2.2.2.1
      ⟨0, "G", 0, "", 0, "minor", mkMeta 0 (exChunk "G" 0)⟩ (by decide)⟩

end Faiss

namespace Faiss

/-! ### Claim C1: id allocation along traces -/

theorem trackedFlat_eq (m : Manager) :
    trackedFlat m = flatIds m.state.indexed_file_hashes := rfl

theorem flatIds_cons (kv : String × FileInfo) (t : List (String × FileInfo)) :
    flatIds (kv :: t) = kv.2.vector_ids ++ flatIds t := rfl

theorem flatIds_append (a b : List (String × FileInfo)) :
    flatIds (a ++ b) = flatIds a ++ flatIds b := by
  simp [flatIds]

theorem dictSet_of_lookup_none {l : List (String × β)} {k : String}
    (h : dictLookup l k = none) (v : β) : dictSet l k v = l ++ [(k, v)] := by
  induction l with
  | nil => rfl
  | cons kv t ih =>
    rw [dictLookup] at h
    by_cases hk : kv.1 = k
    · rw [if_pos hk] at h
      exact Option.noConfusion h
    · rw [if_neg hk] at h
      simp [dictSet, hk, ih h]

theorem dictDelete_of_lookup_none {l : List (String × β)} {k : String}
    (h : dictLookup l k = none) : dictDelete l k = l := by
  induction l with
  | nil => rfl
  | cons kv t ih =>
    rw [dictLookup] at h
    by_cases hk : kv.1 = k
    · rw [if_pos hk] at h
      exact Option.noConfusion h
    · rw [if_neg hk] at h
      simp [dictDelete, hk, ih h]

theorem not_key_of_lookup_none {l : List (String × β)} {k : String}
    (h : dictLookup l k = none) : k ∉ l.map Prod.fst := by
  induction l with
  | nil => simp
  | cons kv t ih =>
    rw [dictLookup] at h
    by_cases hk : kv.1 = k
    · rw [if_pos hk] at h
      exact Option.noConfusion h
    · rw [if_neg hk] at h
      simp only [List.map_cons, List.mem_cons]
      rintro (rfl | hmem)
      · exact hk rfl
      · exact ih h hmem

theorem dictSet_keys_of_found {l : List (String × β)} {k : String} {old : β}
    (h : dictLookup l k = some old) (v : β) :
    (dictSet l k v).map Prod.fst = l.map Prod.fst := by
  induction l with
  | nil => simp [dictLookup] at h
  | cons kv t ih =>
    rw [dictLookup] at h
    by_cases hk : kv.1 = k
    · simp [dictSet, hk]
    · rw [if_neg hk] at h
      simp [dictSet, hk, ih h]

theorem dictDelete_sublist (l : List (String × β)) (k : String) :
    (dictDelete l k).Sublist l := by
  induction l with
  | nil => simp [dictDelete]
  | cons kv t ih =>
    by_cases hk : kv.1 = k
    · have hd : dictDelete (kv :: t) k = dictDelete t k := by simp [dictDelete, hk]
      rw [hd]
      exact ih.cons kv
    · have hd : dictDelete (kv :: t) k = kv :: dictDelete t k := by
        simp [dictDelete, hk]
      rw [hd]
      exact ih.cons₂ kv

theorem mem_flatIds_dictDelete {l : List (String × FileInfo)} {k : String}
    {i : ℕ} (h : i ∈ flatIds (dictDelete l k)) : i ∈ flatIds l := by
  induction l with
  | nil => simpa [dictDelete] using h
  | cons kv t ih =>
    by_cases hk : kv.1 = k
    · have hd : dictDelete (kv :: t) k = dictDelete t k := by simp [dictDelete, hk]
      rw [hd] at h
      rw [flatIds_cons]
      exact List.mem_append_right _ (ih h)
    · have hd : dictDelete (kv :: t) k = kv :: dictDelete t k := by
        simp [dictDelete, hk]
      rw [hd, flatIds_cons] at h
      rw [flatIds_cons]
      rcases List.mem_append.mp h with h1 | h2
      · exact List.mem_append_left _ h1
      · exact List.mem_append_right _ (ih h2)

theorem dictSet_found_perm {l : List (String × FileInfo)} {k : String}
    {old : FileInfo} (h : dictLookup l k = some old) (v : FileInfo) :
    (flatIds (dictSet l k v) ++ old.vector_ids).Perm
      (flatIds l ++ v.vector_ids) := by
  induction l with
  | nil => simp [dictLookup] at h
  | cons kv t ih =>
    rw [dictLookup] at h
    by_cases hk : kv.1 = k
    · rw [if_pos hk] at h
      injection h with h
      subst h
      have hd : dictSet (kv :: t) k v = (k, v) :: t := by simp [dictSet, hk]
      rw [hd, flatIds_cons, flatIds_cons]
      rw [List.perm_iff_count]
      intro a
      simp only [List.count_append]
      omega
    · rw [if_neg hk] at h
      have hd : dictSet (kv :: t) k v = kv :: dictSet t k v := by
        simp [dictSet, hk]
      rw [hd, flatIds_cons, flatIds_cons, List.append_assoc, List.append_assoc]
      exact List.Perm.append_left _ (ih h)

theorem dictDelete_found_perm {l : List (String × FileInfo)} {k : String}
    {old : FileInfo} (h : dictLookup l k = some old)
    (hnd : (l.map Prod.fst).Nodup) :
    (flatIds (dictDelete l k) ++ old.vector_ids).Perm (flatIds l) := by
  induction l with
  | nil => simp [dictLookup] at h
  | cons kv t ih =>
    rw [dictLookup] at h
    rw [List.map_cons, List.nodup_cons] at hnd
    obtain ⟨hk1, hnd2⟩ := hnd
    by_cases hk : kv.1 = k
    · rw [if_pos hk] at h
      injection h with h
      subst h
      have hd : dictDelete (kv :: t) k = dictDelete t k := by simp [dictDelete, hk]
      have hnone : dictLookup t k = none := by
        apply dictLookup_none_of_not_mem
        intro v hv
        exact hk1 (by rw [hk]; exact List.mem_map_of_mem Prod.fst hv)
      rw [hd, dictDelete_of_lookup_none hnone, flatIds_cons]
      exact List.perm_append_comm
    · rw [if_neg hk] at h
      have hd : dictDelete (kv :: t) k = kv :: dictDelete t k := by
        simp [dictDelete, hk]
      rw [hd, flatIds_cons, flatIds_cons, List.append_assoc]
      exact List.Perm.append_left _ (ih h hnd2)

theorem flatIds_retag (l : List (String × FileInfo)) :
    flatIds (l.map (fun kv => if kv.2.tier == "minor" then
      (kv.1, { kv.2 with tier := "major" }) else kv)) = flatIds l := by
  induction l with
  | nil => rfl
  | cons kv t ih =>
    simp only [List.map_cons, flatIds_cons, ih]
    congr 1
    by_cases h : kv.2.tier == "minor"
    · rw [if_pos h]
    · rw [if_neg h]

theorem keys_retag (l : List (String × FileInfo)) :
    (l.map (fun kv => if kv.2.tier == "minor" then
      (kv.1, { kv.2 with tier := "major" }) else kv)).map Prod.fst =
      l.map Prod.fst := by
  induction l with
  | nil => rfl
  | cons kv t ih =>
    simp only [List.map_cons, ih]
    congr 1
    by_cases h : kv.2.tier == "minor"
    · rw [if_pos h]
    · rw [if_neg h]

theorem enum_map_mkMeta_id (b : ℕ) (l : List Chunk) :
    ((l.enum).map (fun ic => mkMeta (b + ic.1) ic.2)).map VecMeta.id =
      List.range' b l.length := by
  rw [List.map_map]
  have h1 : (VecMeta.id ∘ fun ic : ℕ × Chunk => mkMeta (b + ic.1) ic.2) =
      (fun ic : ℕ × Chunk => b + ic.1) := rfl
  rw [h1]
  have h2 : (fun ic : ℕ × Chunk => b + ic.1) =
      ((fun j => b + j) ∘ Prod.fst) := rfl
  rw [h2, ← List.map_map, List.enum_map_fst, ← List.range'_eq_map_range]

theorem add_chunks_ok_meta (m : Manager) (chunks : List Chunk) (embs : NDArray)
    (fh : Option String) (now : String) (m' : Manager) (n : ℕ)
    (heq : add_chunks m chunks embs fh now = .ok (m', n)) :
    m'.major_meta = m.major_meta
    ∧ m'.minor_meta = m.minor_meta ++ (chunks.enum).map (fun ic =>
        mkMeta (m.state.major_vector_count + m.state.minor_vector_count + ic.1)
          ic.2)
    ∧ n = chunks.length := by
  by_cases hz : chunks.length = 0
  · have hnil : chunks = [] := List.length_eq_zero.mp hz
    subst hnil
    rw [add_chunks, if_pos hz] at heq
    simp only [Except.ok.injEq, Prod.mk.injEq] at heq
    obtain ⟨hm, hn⟩ := heq
    refine ⟨by rw [← hm], by rw [← hm]; simp, by omega⟩
  · have h1 : ¬ embs.rows.length ≠ chunks.length := by
      intro hcon
      rw [add_chunks, if_neg hz, if_pos hcon] at heq
      exact Except.noConfusion heq
    have h2 : ¬ embs.cols ≠ m.embedding_dim := by
      intro hcon
      rw [add_chunks, if_neg hz, if_neg h1, if_pos hcon] at heq
      exact Except.noConfusion heq
    rw [add_chunks, if_neg hz, if_neg h1, if_neg h2] at heq
    simp only [Except.ok.injEq, Prod.mk.injEq] at heq
    obtain ⟨hm', hn⟩ := heq
    subst hm'
    exact ⟨rfl, rfl, hn.symm⟩

theorem inv_add (m : Manager) (chunks : List Chunk) (embs : NDArray)
    (fh : Option String) (now : String) (m' : Manager) (n : ℕ)
    (hInv : Inv m) (heq : add_chunks m chunks embs fh now = .ok (m', n)) :
    Inv m' := by
  by_cases hz : chunks.length = 0
  · rw [add_chunks, if_pos hz] at heq
    simp only [Except.ok.injEq, Prod.mk.injEq] at heq
    obtain ⟨hm, -⟩ := heq
    rw [← hm]
    exact hInv
  · have h1 : ¬ embs.rows.length ≠ chunks.length := by
      intro hcon
      rw [add_chunks, if_neg hz, if_pos hcon] at heq
      exact Except.noConfusion heq
    have h2 : ¬ embs.cols ≠ m.embedding_dim := by
      intro hcon
      rw [add_chunks, if_neg hz, if_neg h1, if_pos hcon] at heq
      exact Except.noConfusion heq
    have hrows : embs.rows.length = chunks.length := not_not.mp h1
    rw [add_chunks, if_neg hz, if_neg h1, if_neg h2] at heq
    simp only [Except.ok.injEq, Prod.mk.injEq] at heq
    obtain ⟨hm', -⟩ := heq
    subst hm'
    have e1 := hInv.lens_minor
    have hbase : m.state.major_vector_count + m.state.minor_vector_count =
        (m.major_meta ++ m.minor_meta).length := by
      rw [hInv.cnt_major, hInv.cnt_minor, List.length_append]
    have hrange : (m.major_meta ++ m.minor_meta).map VecMeta.id =
        List.range (m.major_meta ++ m.minor_meta).length := hInv.ids_range
    by_cases hFPe : (((chunks.head?).map (·.file_path)).getD "") = ""
    · rw [if_neg (by simpa using hFPe)]
      refine ⟨hInv.lens_major, ?_, hInv.cnt_major, ?_, ?_, ?_, ?_,
        hInv.global_nodup, hInv.keys_nodup⟩
      · simp only [List.length_append, List.length_map, List.enum_length]
        omega
      · simp only [List.length_append, List.length_map, List.enum_length]
        omega
      · show (m.major_meta ++ (m.minor_meta ++ (chunks.enum).map (fun ic =>
            mkMeta (m.state.major_vector_count + m.state.minor_vector_count +
              ic.1) ic.2))).map VecMeta.id =
          List.range ((m.major_meta ++ (m.minor_meta ++ (chunks.enum).map
            (fun ic => mkMeta (m.state.major_vector_count +
              m.state.minor_vector_count + ic.1) ic.2))).length)
        rw [← List.append_assoc, List.map_append, hrange, enum_map_mkMeta_id,
          hbase]
        simp only [List.length_append, List.length_map, List.enum_length]
        have hr : List.range (m.major_meta.length + m.minor_meta.length +
            chunks.length) =
            List.range (m.major_meta.length + m.minor_meta.length) ++
              List.range' (m.major_meta.length + m.minor_meta.length)
                chunks.length := by
          rw [List.range_add, ← List.range'_eq_map_range]
        rw [hr]
      · intro i hi
        have hlt := hInv.stale_sub i hi
        simp only [allMeta, List.length_append] at hlt
        show i < (m.major_meta ++ (m.minor_meta ++ _)).length
        simp only [List.length_append, List.length_map, List.enum_length]
        omega
      · intro i hi
        have h0 : i ∈ trackedFlat m := hi
        have hlt := hInv.tracked_sub i h0
        simp only [allMeta, List.length_append] at hlt
        show i < (m.major_meta ++ (m.minor_meta ++ _)).length
        simp only [List.length_append, List.length_map, List.enum_length]
        omega
    · rw [if_pos hFPe]
      have hdisj : ∀ a, a ∈ m.state.stale_vector_ids ++
          flatIds m.state.indexed_file_hashes →
          a ∈ List.range'
            (m.state.major_vector_count + m.state.minor_vector_count)
            chunks.length → False := by
        intro a ha hb
        have e2 := hInv.cnt_major
        have e3 := hInv.cnt_minor
        obtain ⟨j, hj, haj⟩ := List.mem_range'.mp hb
        rcases List.mem_append.mp ha with h1a | h2a
        · have := hInv.stale_sub a h1a
          simp only [allMeta, List.length_append] at this
          omega
        · have := hInv.tracked_sub a h2a
          simp only [allMeta, List.length_append] at this
          omega
      cases hlook : dictLookup m.state.indexed_file_hashes
          (((chunks.head?).map (·.file_path)).getD "") with
      | none =>
        have hset := dictSet_of_lookup_none hlook
          (⟨fh.getD "", "minor",
            List.range' (m.state.major_vector_count +
              m.state.minor_vector_count) chunks.length⟩ : FileInfo)
        refine ⟨hInv.lens_major, ?_, hInv.cnt_major, ?_, ?_, ?_, ?_, ?_, ?_⟩
        · simp only [List.length_append, List.length_map, List.enum_length]
          omega
        · simp only [List.length_append, List.length_map, List.enum_length]
          omega
        · show (m.major_meta ++ (m.minor_meta ++ (chunks.enum).map (fun ic =>
              mkMeta (m.state.major_vector_count + m.state.minor_vector_count +
                ic.1) ic.2))).map VecMeta.id =
            List.range ((m.major_meta ++ (m.minor_meta ++ (chunks.enum).map
              (fun ic => mkMeta (m.state.major_vector_count +
                m.state.minor_vector_count + ic.1) ic.2))).length)
          rw [← List.append_assoc, List.map_append, hrange, enum_map_mkMeta_id,
            hbase]
          simp only [List.length_append, List.length_map, List.enum_length]
          have hr : List.range (m.major_meta.length + m.minor_meta.length +
              chunks.length) =
              List.range (m.major_meta.length + m.minor_meta.length) ++
                List.range' (m.major_meta.length + m.minor_meta.length)
                  chunks.length := by
            rw [List.range_add, ← List.range'_eq_map_range]
          rw [hr]
        · intro i hi
          have hlt := hInv.stale_sub i hi
          simp only [allMeta, List.length_append] at hlt
          show i < (m.major_meta ++ (m.minor_meta ++ _)).length
          simp only [List.length_append, List.length_map, List.enum_length]
          omega
        · intro i hi
          have h0 : i ∈ flatIds (dictSet m.state.indexed_file_hashes
              (((chunks.head?).map (·.file_path)).getD "")
              ⟨fh.getD "", "minor",
                List.range' (m.state.major_vector_count +
                  m.state.minor_vector_count) chunks.length⟩) := hi
          rw [hset, flatIds_append] at h0
          show i < (m.major_meta ++ (m.minor_meta ++ _)).length
          simp only [List.length_append, List.length_map, List.enum_length]
          rcases List.mem_append.mp h0 with h1a | h2a
          · have := hInv.tracked_sub i h1a
            simp only [allMeta, List.length_append] at this
            omega
          · have h3 : i ∈ List.range' (m.state.major_vector_count +
                m.state.minor_vector_count) chunks.length := by
              simpa [flatIds] using h2a
            obtain ⟨j, hj, hij⟩ := List.mem_range'.mp h3
            have e2 := hInv.cnt_major
            have e3 := hInv.cnt_minor
            omega
        · show (m.state.stale_vector_ids ++
            flatIds (dictSet m.state.indexed_file_hashes
              (((chunks.head?).map (·.file_path)).getD "")
              ⟨fh.getD "", "minor",
                List.range' (m.state.major_vector_count +
                  m.state.minor_vector_count) chunks.length⟩)).Nodup
          rw [hset, flatIds_append]
          have hflat1 : flatIds [((((chunks.head?).map (·.file_path)).getD ""),
              (⟨fh.getD "", "minor",
                List.range' (m.state.major_vector_count +
                  m.state.minor_vector_count) chunks.length⟩ : FileInfo))] =
              List.range' (m.state.major_vector_count +
                m.state.minor_vector_count) chunks.length := by
            simp [flatIds]
          rw [hflat1, ← List.append_assoc, List.nodup_append]
          exact ⟨hInv.global_nodup, List.nodup_range' _ _,
            fun a ha hb => hdisj a ha hb⟩
        · show ((dictSet m.state.indexed_file_hashes
              (((chunks.head?).map (·.file_path)).getD "")
              ⟨fh.getD "", "minor",
                List.range' (m.state.major_vector_count +
                  m.state.minor_vector_count) chunks.length⟩).map
              Prod.fst).Nodup
          rw [hset, List.map_append]
          refine List.nodup_append.mpr ⟨hInv.keys_nodup, ?_, ?_⟩
          · simp only [List.map_cons, List.map_nil]
            exact List.nodup_singleton _
          · intro a ha hb
            simp only [List.map_cons, List.map_nil, List.mem_singleton] at hb
            subst hb
            exact not_key_of_lookup_none hlook ha
      | some old =>
        have hp := dictSet_found_perm hlook
          (⟨fh.getD "", "minor",
            List.range' (m.state.major_vector_count +
              m.state.minor_vector_count) chunks.length⟩ : FileInfo)
        refine ⟨hInv.lens_major, ?_, hInv.cnt_major, ?_, ?_, ?_, ?_, ?_, ?_⟩
        · simp only [List.length_append, List.length_map, List.enum_length]
          omega
        · simp only [List.length_append, List.length_map, List.enum_length]
          omega
        · show (m.major_meta ++ (m.minor_meta ++ (chunks.enum).map (fun ic =>
              mkMeta (m.state.major_vector_count + m.state.minor_vector_count +
                ic.1) ic.2))).map VecMeta.id =
            List.range ((m.major_meta ++ (m.minor_meta ++ (chunks.enum).map
              (fun ic => mkMeta (m.state.major_vector_count +
                m.state.minor_vector_count + ic.1) ic.2))).length)
          rw [← List.append_assoc, List.map_append, hrange, enum_map_mkMeta_id,
            hbase]
          simp only [List.length_append, List.length_map, List.enum_length]
          have hr : List.range (m.major_meta.length + m.minor_meta.length +
              chunks.length) =
              List.range (m.major_meta.length + m.minor_meta.length) ++
                List.range' (m.major_meta.length + m.minor_meta.length)
                  chunks.length := by
            rw [List.range_add, ← List.range'_eq_map_range]
          rw [hr]
        · intro i hi
          show i < (m.major_meta ++ (m.minor_meta ++ _)).length
          simp only [List.length_append, List.length_map, List.enum_length]
          rcases List.mem_append.mp hi with h1a | h2a
          · have := hInv.stale_sub i h1a
            simp only [allMeta, List.length_append] at this
            omega
          · have := hInv.tracked_sub i
              (mem_trackedFlat (dictLookup_mem hlook) h2a)
            simp only [allMeta, List.length_append] at this
            omega
        · intro i hi
          have h0 : i ∈ flatIds (dictSet m.state.indexed_file_hashes
              (((chunks.head?).map (·.file_path)).getD "")
              ⟨fh.getD "", "minor",
                List.range' (m.state.major_vector_count +
                  m.state.minor_vector_count) chunks.length⟩) := hi
          have h1a : i ∈ flatIds m.state.indexed_file_hashes ++
              List.range' (m.state.major_vector_count +
                m.state.minor_vector_count) chunks.length :=
            hp.mem_iff.mp (List.mem_append_left _ h0)
          show i < (m.major_meta ++ (m.minor_meta ++ _)).length
          simp only [List.length_append, List.length_map, List.enum_length]
          rcases List.mem_append.mp h1a with h2a | h3a
          · have := hInv.tracked_sub i h2a
            simp only [allMeta, List.length_append] at this
            omega
          · obtain ⟨j, hj, hij⟩ := List.mem_range'.mp h3a
            have e2 := hInv.cnt_major
            have e3 := hInv.cnt_minor
            omega
        · show ((m.state.stale_vector_ids ++ old.vector_ids) ++
            flatIds (dictSet m.state.indexed_file_hashes
              (((chunks.head?).map (·.file_path)).getD "")
              ⟨fh.getD "", "minor",
                List.range' (m.state.major_vector_count +
                  m.state.minor_vector_count) chunks.length⟩)).Nodup
          have hchain : ((m.state.stale_vector_ids ++ old.vector_ids) ++
              flatIds (dictSet m.state.indexed_file_hashes
                (((chunks.head?).map (·.file_path)).getD "")
                ⟨fh.getD "", "minor",
                  List.range' (m.state.major_vector_count +
                    m.state.minor_vector_count) chunks.length⟩)).Perm
              ((m.state.stale_vector_ids ++
                flatIds m.state.indexed_file_hashes) ++
                List.range' (m.state.major_vector_count +
                  m.state.minor_vector_count) chunks.length) := by
            rw [List.append_assoc, List.append_assoc]
            exact List.Perm.append_left _ ((List.perm_append_comm).trans hp)
          have hcan : ((m.state.stale_vector_ids ++
              flatIds m.state.indexed_file_hashes) ++
              List.range' (m.state.major_vector_count +
                m.state.minor_vector_count) chunks.length).Nodup := by
            rw [List.nodup_append]
            exact ⟨hInv.global_nodup, List.nodup_range' _ _,
              fun a ha hb => hdisj a ha hb⟩
          exact hcan.perm hchain.symm
        · show ((dictSet m.state.indexed_file_hashes
              (((chunks.head?).map (·.file_path)).getD "")
              ⟨fh.getD "", "minor",
                List.range' (m.state.major_vector_count +
                  m.state.minor_vector_count) chunks.length⟩).map
              Prod.fst).Nodup
          rw [dictSet_keys_of_found hlook]
          exact hInv.keys_nodup

theorem inv_markStale (m : Manager) (fp : String) (hInv : Inv m) :
    Inv (mark_file_stale m fp).2 := by
  rw [mark_file_stale]
  cases hlook : dictLookup m.state.indexed_file_hashes fp with
  | none => exact hInv
  | some info =>
    refine ⟨hInv.lens_major, hInv.lens_minor, hInv.cnt_major, hInv.cnt_minor,
      hInv.ids_range, ?_, ?_, ?_, ?_⟩
    · intro i hi
      rcases List.mem_append.mp hi with h1 | h2
      · exact hInv.stale_sub i h1
      · exact hInv.tracked_sub i (mem_trackedFlat (dictLookup_mem hlook) h2)
    · intro i hi
      have h0 : i ∈ flatIds (dictDelete m.state.indexed_file_hashes fp) := hi
      exact hInv.tracked_sub i (mem_flatIds_dictDelete h0)
    · show ((m.state.stale_vector_ids ++ info.vector_ids) ++
        flatIds (dictDelete m.state.indexed_file_hashes fp)).Nodup
      have hp := dictDelete_found_perm hlook hInv.keys_nodup
      have hchain : ((m.state.stale_vector_ids ++ info.vector_ids) ++
          flatIds (dictDelete m.state.indexed_file_hashes fp)).Perm
          (m.state.stale_vector_ids ++
            flatIds m.state.indexed_file_hashes) := by
        rw [List.append_assoc]
        exact List.Perm.append_left _ ((List.perm_append_comm).trans hp)
      exact (show (m.state.stale_vector_ids ++
        flatIds m.state.indexed_file_hashes).Nodup from
          hInv.global_nodup).perm hchain.symm
    · show ((dictDelete m.state.indexed_file_hashes fp).map Prod.fst).Nodup
      exact List.Nodup.sublist
        ((dictDelete_sublist m.state.indexed_file_hashes fp).map Prod.fst)
        hInv.keys_nodup

theorem inv_compact (m : Manager) (now : String) (hInv : Inv m) :
    Inv (compact m now).2 := by
  rw [compact]
  by_cases hz : m.minor_vecs.length = 0
  · rw [if_pos hz]
    exact hInv
  · rw [if_neg hz]
    refine ⟨?_, rfl, ?_, rfl, ?_, ?_, ?_, ?_, ?_⟩
    · simp only [List.length_append, hInv.lens_major, hInv.lens_minor]
    · simp only [List.length_append, hInv.lens_major, hInv.lens_minor]
    · show ((m.major_meta ++ m.minor_meta) ++ []).map VecMeta.id =
        List.range ((m.major_meta ++ m.minor_meta) ++ []).length
      rw [List.append_nil]
      exact hInv.ids_range
    · intro i hi
      have hlt := hInv.stale_sub i hi
      show i < ((m.major_meta ++ m.minor_meta) ++ []).length
      rw [List.append_nil]
      exact hlt
    · intro i hi
      have h0 : i ∈ flatIds (m.state.indexed_file_hashes.map
          (fun kv => if kv.2.tier == "minor" then
            (kv.1, { kv.2 with tier := "major" }) else kv)) := hi
      rw [flatIds_retag] at h0
      have hlt := hInv.tracked_sub i h0
      show i < ((m.major_meta ++ m.minor_meta) ++ []).length
      rw [List.append_nil]
      exact hlt
    · show (m.state.stale_vector_ids ++
        flatIds (m.state.indexed_file_hashes.map
          (fun kv => if kv.2.tier == "minor" then
            (kv.1, { kv.2 with tier := "major" }) else kv))).Nodup
      rw [flatIds_retag]
      exact hInv.global_nodup
    · show ((m.state.indexed_file_hashes.map
          (fun kv => if kv.2.tier == "minor" then
            (kv.1, { kv.2 with tier := "major" }) else kv)).map
          Prod.fst).Nodup
      rw [keys_retag]
      exact hInv.keys_nodup

theorem inv_init (dim : ℕ) : Inv (initManager dim) := by
  refine ⟨rfl, rfl, rfl, rfl, rfl, ?_, ?_, ?_, ?_⟩
  · intro i hi
    simp [initManager] at hi
  · intro i hi
    simp [trackedFlat, initManager] at hi
  · simp [trackedFlat, initManager]
  · simp [initManager]

theorem inv_applyOp (m : Manager) (op : Op) (hInv : Inv m) :
    Inv (applyOp m op) := by
  cases op with
  | add chunks embs fh now =>
    show Inv (match add_chunks m chunks embs fh now with
      | .ok r => r.1
      | .error _ => m)
    cases heq : add_chunks m chunks embs fh now with
    | ok r => exact inv_add m chunks embs fh now r.1 r.2 hInv (by rw [heq])
    | error e => exact hInv
  | markStale fp => exact inv_markStale m fp hInv
  | compact now => exact inv_compact m now hInv

theorem inv_runOps (m : Manager) (ops : List Op) (hInv : Inv m) :
    Inv (runOps m ops) := by
  induction ops generalizing m with
  | nil => exact hInv
  | cons op ops ih => exact ih (applyOp m op) (inv_applyOp m op hInv)

theorem allMeta_markStale (m : Manager) (fp : String) :
    allMeta (mark_file_stale m fp).2 = allMeta m := by
  rw [mark_file_stale]
  cases dictLookup m.state.indexed_file_hashes fp <;> rfl

theorem allMeta_compact_length (m : Manager) (now : String) :
    (allMeta (compact m now).2).length = (allMeta m).length := by
  rw [compact]
  by_cases hz : m.minor_vecs.length = 0
  · rw [if_pos hz]
  · rw [if_neg hz]
    show ((m.major_meta ++ m.minor_meta) ++ []).length = _
    rw [List.append_nil]
    rfl

theorem opAllocated_spec (m : Manager) (op : Op) (hInv : Inv m) :
    opAllocated m op =
      List.range' (allMeta m).length
        ((allMeta (applyOp m op)).length - (allMeta m).length)
    ∧ (allMeta m).length ≤ (allMeta (applyOp m op)).length := by
  cases op with
  | markStale fp =>
    have hlen : (allMeta (applyOp m (Op.markStale fp))).length =
        (allMeta m).length := by
      show (allMeta (mark_file_stale m fp).2).length = _
      rw [allMeta_markStale]
    constructor
    · show ([] : List ℕ) = _
      rw [hlen, Nat.sub_self]
      rfl
    · exact le_of_eq hlen.symm
  | compact now =>
    have hlen : (allMeta (applyOp m (Op.compact now))).length =
        (allMeta m).length := by
      show (allMeta (compact m now).2).length = _
      exact allMeta_compact_length m now
    constructor
    · show ([] : List ℕ) = _
      rw [hlen, Nat.sub_self]
      rfl
    · exact le_of_eq hlen.symm
  | add chunks embs fh now =>
    cases heq : add_chunks m chunks embs fh now with
    | error e =>
      have happ : applyOp m (Op.add chunks embs fh now) = m := by
        show (match add_chunks m chunks embs fh now with
          | .ok r => r.1
          | .error _ => m) = m
        rw [heq]
      have hop : opAllocated m (Op.add chunks embs fh now) = [] := by
        show (match add_chunks m chunks embs fh now with
          | .ok _ => List.range'
              (m.state.major_vector_count + m.state.minor_vector_count)
              chunks.length
          | .error _ => []) = []
        rw [heq]
      rw [hop, happ, Nat.sub_self]
      exact ⟨rfl, le_refl _⟩
    | ok r =>
      have happ : applyOp m (Op.add chunks embs fh now) = r.1 := by
        show (match add_chunks m chunks embs fh now with
          | .ok r => r.1
          | .error _ => m) = r.1
        rw [heq]
      have hop : opAllocated m (Op.add chunks embs fh now) =
          List.range'
            (m.state.major_vector_count + m.state.minor_vector_count)
            chunks.length := by
        show (match add_chunks m chunks embs fh now with
          | .ok _ => List.range'
              (m.state.major_vector_count + m.state.minor_vector_count)
              chunks.length
          | .error _ => []) = _
        rw [heq]
      obtain ⟨hmaj, hmin, -⟩ :=
        add_chunks_ok_meta m chunks embs fh now r.1 r.2 (by rw [heq])
      have hbase : m.state.major_vector_count + m.state.minor_vector_count =
          (allMeta m).length := by
        simp only [allMeta, List.length_append, hInv.cnt_major, hInv.cnt_minor]
      have hlen : (allMeta r.1).length = (allMeta m).length + chunks.length := by
        simp only [allMeta, hmaj, hmin, List.length_append, List.length_map,
          List.enum_length]
        omega
      rw [hop, happ, hbase, hlen]
      constructor
      · congr 1
        omega
      · omega

theorem traceAllocated_spec (ops : List Op) : ∀ (m : Manager), Inv m →
    traceAllocated m ops =
      List.range' (allMeta m).length
        ((allMeta (runOps m ops)).length - (allMeta m).length)
    ∧ (allMeta m).length ≤ (allMeta (runOps m ops)).length := by
  induction ops with
  | nil =>
    intro m hInv
    constructor
    · show ([] : List ℕ) = _
      rw [show runOps m [] = m from rfl, Nat.sub_self]
      rfl
    · exact le_refl _
  | cons op ops ih =>
    intro m hInv
    obtain ⟨hop, hople⟩ := opAllocated_spec m op hInv
    obtain ⟨hih, hihle⟩ := ih (applyOp m op) (inv_applyOp m op hInv)
    have hrun : runOps m (op :: ops) = runOps (applyOp m op) ops := rfl
    constructor
    · show opAllocated m op ++ traceAllocated (applyOp m op) ops = _
      rw [hop, hih, hrun]
      have h3 := List.range'_append (allMeta m).length
        ((allMeta (applyOp m op)).length - (allMeta m).length)
        ((allMeta (runOps (applyOp m op) ops)).length -
          (allMeta (applyOp m op)).length) 1
      rw [one_mul, Nat.add_sub_cancel' hople] at h3
      rw [h3]
      have h4 : ((allMeta (runOps (applyOp m op) ops)).length -
          (allMeta (applyOp m op)).length) +
          ((allMeta (applyOp m op)).length - (allMeta m).length) =
          (allMeta (runOps (applyOp m op) ops)).length -
            (allMeta m).length := by
        omega
      rw [h4]
    · rw [hrun]
      omega

theorem live_stale_perm (m : Manager) (hInv : Inv m) :
    (liveIds m ++ m.state.stale_vector_ids).Perm
      (List.range (allMeta m).length) := by
  have hlive : liveIds m = (List.range (allMeta m).length).filter
      (fun i => i ∉ m.state.stale_vector_ids) := by
    rw [liveIds]
    rw [show ((allMeta m).map (·.id)) = List.range (allMeta m).length from
      hInv.ids_range]
  have hnd_stale : m.state.stale_vector_ids.Nodup :=
    (List.nodup_append.mp hInv.global_nodup).1
  have hnd_filter : ((List.range (allMeta m).length).filter
      (fun i => !(decide (i ∉ m.state.stale_vector_ids)))).Nodup :=
    (List.nodup_range _).filter _
  have hsp : m.state.stale_vector_ids.Perm
      ((List.range (allMeta m).length).filter
        (fun i => !(decide (i ∉ m.state.stale_vector_ids)))) := by
    rw [List.perm_ext_iff_of_nodup hnd_stale hnd_filter]
    intro a
    simp only [List.mem_filter, List.mem_range, Bool.not_eq_true',
      decide_eq_false_iff_not, not_not]
    exact ⟨fun h => ⟨hInv.stale_sub a h, h⟩, fun h => h.2⟩
  have h1 : (liveIds m ++ m.state.stale_vector_ids).Perm
      ((List.range (allMeta m).length).filter
        (fun i => i ∉ m.state.stale_vector_ids) ++
       (List.range (allMeta m).length).filter
        (fun i => !(decide (i ∉ m.state.stale_vector_ids)))) := by
    rw [hlive]
    exact List.Perm.append_left _ hsp
  exact h1.trans (List.filter_append_perm _ _)

/-- Claim C1.  Vector ids are unique, monotonically increasing non-negative
integers and are never reused: a successful `add_chunks` call appends to the
minor metadata exactly the ids `base, base+1, …, base+len-1` where `base`
is `major_vector_count + minor_vector_count` as of the start of the call
(conjunct 1, with the returned count equal to `len`); along every sequence
of add / mark-stale / compact operations from a fresh manager the allocated
ids are `0, 1, 2, …` in allocation order (conjunct 2); and the live ids
together with the stale ids form a permutation of all ids ever allocated —
the same set, each id exactly once, so none is both live and stale
(conjunct 3). -/
theorem C1_vector_id_allocation (dim : ℕ) (ops : List Op) (m : Manager)
    (chunks : List Chunk) (embs : NDArray) (fh : Option String) (now : String)
    (m' : Manager) (n : ℕ)
    (heq : add_chunks m chunks embs fh now = .ok (m', n)) :
    (m'.minor_meta.map VecMeta.id = m.minor_meta.map VecMeta.id ++
        List.range' (m.state.major_vector_count + m.state.minor_vector_count)
          chunks.length
      ∧ n = chunks.length)
    ∧ traceAllocated (initManager dim) ops =
        List.range (allMeta (runOps (initManager dim) ops)).length
    ∧ (liveIds (runOps (initManager dim) ops) ++
        (runOps (initManager dim) ops).state.stale_vector_ids).Perm
        (traceAllocated (initManager dim) ops) := by
  obtain ⟨hmaj, hmin, hn⟩ := add_chunks_ok_meta m chunks embs fh now m' n heq
  have htr := traceAllocated_spec ops (initManager dim) (inv_init dim)
  have hInvFin := inv_runOps (initManager dim) ops (inv_init dim)
  have htr1 : traceAllocated (initManager dim) ops =
      List.range (allMeta (runOps (initManager dim) ops)).length := by
    have h0 : (allMeta (initManager dim)).length = 0 := rfl
    rw [htr.1, h0, Nat.sub_zero]
    exact (List.range_eq_range' _).symm
  refine ⟨⟨?_, hn⟩, htr1, ?_⟩
  · rw [hmin, List.map_append, enum_map_mkMeta_id]
  · rw [htr1]
    exact live_stale_perm (runOps (initManager dim) ops) hInvFin

/-- Witness for claim C1's theorem: a concrete one-chunk `add_chunks` call
on a fresh dimension-0 manager, whose chunk receives id 0. -/
theorem C1_witness :
    add_chunks (initManager 0) [exChunk "A" 0] ⟨[[]], 0⟩ none "tA" =
      .ok (applyOp (initManager 0) (.add [exChunk "A" 0] ⟨[[]], 0⟩ none "tA"), 1)
    ∧ (applyOp (initManager 0)
        (.add [exChunk "A" 0] ⟨[[]], 0⟩ none "tA")).minor_meta.map VecMeta.id =
      (initManager 0).minor_meta.map VecMeta.id ++
        List.range' ((initManager 0).state.major_vector_count +
          (initManager 0).state.minor_vector_count) [exChunk "A" 0].length :=
  ⟨rfl,
    (C1_vector_id_allocation 0 [] (initManager 0) [exChunk "A" 0] ⟨[[]], 0⟩
      none "tA" (applyOp (initManager 0)
        (.add [exChunk "A" 0] ⟨[[]], 0⟩ none "tA")) 1 rfl).1.1⟩

end Faiss

namespace Faiss

/-! ### Claim C4: stale-file retirement -/

theorem add_chunks_ok_char (m : Manager) (chunks : List Chunk) (embs : NDArray)
    (fh : Option String) (now : String) (m' : Manager) (n : ℕ)
    (hz : ¬ chunks.length = 0)
    (heq : add_chunks m chunks embs fh now = .ok (m', n)) :
    m'.major_vecs = m.major_vecs ∧ m'.major_meta = m.major_meta
    ∧ m'.minor_vecs = m.minor_vecs ++ embs.rows
    ∧ m'.minor_meta = m.minor_meta ++ (chunks.enum).map (fun ic =>
        mkMeta (m.state.major_vector_count + m.state.minor_vector_count + ic.1)
          ic.2)
    ∧ m'.state.major_vector_count = m.state.major_vector_count
    ∧ m'.state.minor_vector_count = (m.minor_vecs ++ embs.rows).length
    ∧ ((((chunks.head?).map (·.file_path)).getD "") = "" →
        m'.state.stale_vector_ids = m.state.stale_vector_ids
        ∧ m'.state.indexed_file_hashes = m.state.indexed_file_hashes)
    ∧ ((((chunks.head?).map (·.file_path)).getD "") ≠ "" →
        m'.state.indexed_file_hashes = dictSet m.state.indexed_file_hashes
          (((chunks.head?).map (·.file_path)).getD "")
          ⟨fh.getD "", "minor", List.range'
            (m.state.major_vector_count + m.state.minor_vector_count)
            chunks.length⟩
        ∧ m'.state.stale_vector_ids = m.state.stale_vector_ids ++
            (match dictLookup m.state.indexed_file_hashes
              (((chunks.head?).map (·.file_path)).getD "") with
             | some old => old.vector_ids
             | none => [])) := by
  have h1 : ¬ embs.rows.length ≠ chunks.length := by
    intro hcon
    rw [add_chunks, if_neg hz, if_pos hcon] at heq
    exact Except.noConfusion heq
  have h2 : ¬ embs.cols ≠ m.embedding_dim := by
    intro hcon
    rw [add_chunks, if_neg hz, if_neg h1, if_pos hcon] at heq
    exact Except.noConfusion heq
  rw [add_chunks, if_neg hz, if_neg h1, if_neg h2] at heq
  simp only [Except.ok.injEq, Prod.mk.injEq] at heq
  obtain ⟨hm', -⟩ := heq
  subst hm'
  by_cases hFP : (((chunks.head?).map (·.file_path)).getD "") = ""
  · rw [if_neg (by simpa using hFP)]
    exact ⟨rfl, rfl, rfl, rfl, rfl, rfl, fun _ => ⟨rfl, rfl⟩,
      fun hc => absurd hFP hc⟩
  · rw [if_pos hFP]
    refine ⟨rfl, rfl, rfl, rfl, rfl, rfl, fun hc => absurd hc hFP,
      fun _ => ⟨rfl, ?_⟩⟩
    cases hold : dictLookup m.state.indexed_file_hashes
        (((chunks.head?).map (·.file_path)).getD "") <;> simp [hold]

theorem dictLookup_map_retag (l : List (String × FileInfo)) (k : String) :
    dictLookup (l.map (fun kv => if kv.2.tier == "minor" then
      (kv.1, { kv.2 with tier := "major" }) else kv)) k =
    (dictLookup l k).map (fun info => if info.tier == "minor" then
      { info with tier := "major" } else info) := by
  induction l with
  | nil => rfl
  | cons kv t ih =>
    simp only [List.map_cons]
    by_cases ht : kv.2.tier == "minor"
    · rw [if_pos ht, dictLookup,
        show ((kv.1, ({ kv.2 with tier := "major" } : FileInfo)) :
          String × FileInfo).1 = kv.1 from rfl, dictLookup]
      by_cases hk : kv.1 = k
      · rw [if_pos hk, if_pos hk,
          show (some kv.2).map (fun info => if info.tier == "minor" then
            ({ info with tier := "major" } : FileInfo) else info) =
            some (if kv.2.tier == "minor" then
              ({ kv.2 with tier := "major" } : FileInfo) else kv.2) from rfl,
          if_pos ht]
      · rw [if_neg hk, if_neg hk]
        exact ih
    · rw [if_neg ht, dictLookup, dictLookup]
      by_cases hk : kv.1 = k
      · rw [if_pos hk, if_pos hk,
          show (some kv.2).map (fun info => if info.tier == "minor" then
            ({ info with tier := "major" } : FileInfo) else info) =
            some (if kv.2.tier == "minor" then
              ({ kv.2 with tier := "major" } : FileInfo) else kv.2) from rfl,
          if_neg ht]
      · rw [if_neg hk, if_neg hk]
        exact ih

theorem retag_vector_ids (info : FileInfo) :
    (if info.tier == "minor" then { info with tier := "major" }
      else info).vector_ids = info.vector_ids := by
  by_cases h : info.tier == "minor" <;> simp [h]

theorem trackedCover_applyOp (m : Manager) (op : Op)
    (hhom : homogeneousOp op) (hc : trackedCover m) :
    trackedCover (applyOp m op) := by
  cases op with
  | add chunks embs fh now =>
    show trackedCover (match add_chunks m chunks embs fh now with
      | .ok r => r.1
      | .error _ => m)
    cases heq : add_chunks m chunks embs fh now with
    | error e => exact hc
    | ok r =>
      by_cases hz : chunks.length = 0
      · have hnil : chunks = [] := List.length_eq_zero.mp hz
        subst hnil
        rw [add_chunks] at heq
        simp only [List.length_nil, ite_true, Except.ok.injEq] at heq
        rw [← heq]
        exact hc
      · obtain ⟨hmajv, hmaj, hminv, hmin, hcM, hcm, hempty, hfull⟩ :=
          add_chunks_ok_char m chunks embs fh now r.1 r.2 hz (by rw [heq])
        intro mt hmt hne
        have hmt2 : mt ∈ m.major_meta ++
            (m.minor_meta ++ (chunks.enum).map (fun ic =>
              mkMeta (m.state.major_vector_count + m.state.minor_vector_count +
                ic.1) ic.2)) := by
          have : mt ∈ allMeta r.1 := hmt
          rw [allMeta, hmaj, hmin] at this
          exact this
        by_cases hFP : (((chunks.head?).map (·.file_path)).getD "") = ""
        · obtain ⟨hst, hhash⟩ := hempty hFP
          rcases List.mem_append.mp hmt2 with hold | hrest
          · rcases hc mt (List.mem_append_left _ hold) hne with hs | ⟨info, hi, hmem⟩
            · exact Or.inl (by rw [hst]; exact hs)
            · exact Or.inr ⟨info, by rw [hhash]; exact hi, hmem⟩
          · rcases List.mem_append.mp hrest with hold2 | hnew
            · rcases hc mt (List.mem_append_right _ hold2) hne with hs | ⟨info, hi, hmem⟩
              · exact Or.inl (by rw [hst]; exact hs)
              · exact Or.inr ⟨info, by rw [hhash]; exact hi, hmem⟩
            · exfalso
              obtain ⟨ic, hic, hmk⟩ := List.mem_map.mp hnew
              have hcp : ic.2 ∈ chunks := by
                rw [(List.mem_enum hic).2]
                exact List.getElem_mem _
              have := hhom ic.2 hcp
              apply hne
              rw [← hmk]
              show ic.2.file_path = ""
              rw [this, hFP]
        · obtain ⟨hhash, hst⟩ := hfull hFP
          rcases List.mem_append.mp hmt2 with hold | hrest
          · rcases hc mt (List.mem_append_left _ hold) hne with hs | ⟨info, hi, hmem⟩
            · refine Or.inl ?_
              rw [hst]
              exact List.mem_append_left _ hs
            · by_cases hpf : mt.file_path =
                  (((chunks.head?).map (·.file_path)).getD "")
              · refine Or.inl ?_
                rw [hst]
                refine List.mem_append_right _ ?_
                rw [hpf] at hi
                rw [hi]
                exact hmem
              · exact Or.inr ⟨info, by
                  rw [hhash, dictLookup_dictSet_ne _ _ _ _ hpf]; exact hi, hmem⟩
          · rcases List.mem_append.mp hrest with hold2 | hnew
            · rcases hc mt (List.mem_append_right _ hold2) hne with hs | ⟨info, hi, hmem⟩
              · refine Or.inl ?_
                rw [hst]
                exact List.mem_append_left _ hs
              · by_cases hpf : mt.file_path =
                    (((chunks.head?).map (·.file_path)).getD "")
                · refine Or.inl ?_
                  rw [hst]
                  refine List.mem_append_right _ ?_
                  rw [hpf] at hi
                  rw [hi]
                  exact hmem
                · exact Or.inr ⟨info, by
                    rw [hhash, dictLookup_dictSet_ne _ _ _ _ hpf]; exact hi, hmem⟩
            · obtain ⟨ic, hic, hmk⟩ := List.mem_map.mp hnew
              have hcp : ic.2 ∈ chunks := by
                rw [(List.mem_enum hic).2]
                exact List.getElem_mem _
              have hpath : mt.file_path =
                  (((chunks.head?).map (·.file_path)).getD "") := by
                rw [← hmk]
                exact hhom ic.2 hcp
              refine Or.inr ⟨⟨fh.getD "", "minor", List.range'
                (m.state.major_vector_count + m.state.minor_vector_count)
                chunks.length⟩, ?_, ?_⟩
              · rw [hhash, hpath]
                exact dictLookup_dictSet_self _ _ _
              · show mt.id ∈ List.range'
                  (m.state.major_vector_count + m.state.minor_vector_count)
                  chunks.length
                rw [← hmk]
                show m.state.major_vector_count + m.state.minor_vector_count +
                  ic.1 ∈ _
                exact List.mem_range'.mpr ⟨ic.1, (List.mem_enum hic).1, by omega⟩
  | markStale fp =>
    show trackedCover (mark_file_stale m fp).2
    rw [mark_file_stale]
    cases hlook : dictLookup m.state.indexed_file_hashes fp with
    | none => exact hc
    | some info =>
      intro mt hmt hne
      rcases hc mt hmt hne with hs | ⟨info0, hi, hmem⟩
      · exact Or.inl (List.mem_append_left _ hs)
      · by_cases hpf : mt.file_path = fp
        · refine Or.inl ?_
          refine List.mem_append_right _ ?_
          rw [hpf] at hi
          rw [hlook] at hi
          injection hi with hi
          rw [hi]
          exact hmem
        · exact Or.inr ⟨info0, by
            rw [show (({ m with state := { m.state with
              stale_vector_ids := m.state.stale_vector_ids ++ info.vector_ids,
              indexed_file_hashes :=
                dictDelete m.state.indexed_file_hashes fp } } :
                Manager)).state.indexed_file_hashes =
              dictDelete m.state.indexed_file_hashes fp from rfl,
              dictLookup_dictDelete_ne _ _ _ hpf]
            exact hi, hmem⟩
  | compact now =>
    show trackedCover (compact m now).2
    rw [compact]
    by_cases hz : m.minor_vecs.length = 0
    · rw [if_pos hz]
      exact hc
    · rw [if_neg hz]
      intro mt hmt hne
      have hmt2 : mt ∈ allMeta m := by
        have : mt ∈ (m.major_meta ++ m.minor_meta) ++ [] := hmt
        rw [List.append_nil] at this
        exact this
      rcases hc mt hmt2 hne with hs | ⟨info, hi, hmem⟩
      · exact Or.inl hs
      · refine Or.inr ⟨(if info.tier == "minor" then
          { info with tier := "major" } else info), ?_, ?_⟩
        · show dictLookup (m.state.indexed_file_hashes.map
            (fun kv => if kv.2.tier == "minor" then
              (kv.1, { kv.2 with tier := "major" }) else kv)) mt.file_path = _
          rw [dictLookup_map_retag, hi]
          rfl
        · rw [retag_vector_ids]
          exact hmem

theorem trackedCover_init (dim : ℕ) : trackedCover (initManager dim) := by
  intro mt hmt
  simp [allMeta, initManager] at hmt

theorem trackedCover_runOps (ops : List Op)
    (hhom : ∀ op ∈ ops, homogeneousOp op) :
    ∀ (m : Manager), trackedCover m → trackedCover (runOps m ops) := by
  induction ops with
  | nil => exact fun m hc => hc
  | cons op ops ih =>
    intro m hc
    exact ih (fun o ho => hhom o (List.mem_cons_of_mem _ ho)) (applyOp m op)
      (trackedCover_applyOp m op (hhom op (List.mem_cons_self _ _)) hc)

theorem fileRetired_markStale (m : Manager) (F : String) (hF : F ≠ "")
    (hc : trackedCover m) : fileRetired (mark_file_stale m F).2 F := by
  rw [mark_file_stale]
  cases hlook : dictLookup m.state.indexed_file_hashes F with
  | none =>
    refine ⟨hlook, ?_⟩
    intro mt hmt hpf
    rcases hc mt hmt (by rw [hpf]; exact hF) with hs | ⟨info, hi, hmem⟩
    · exact hs
    · rw [hpf, hlook] at hi
      exact Option.noConfusion hi
  | some info =>
    constructor
    · show dictLookup (dictDelete m.state.indexed_file_hashes F) F = none
      exact dictLookup_dictDelete_self _ _
    · intro mt hmt hpf
      have hmt2 : mt ∈ allMeta m := hmt
      rcases hc mt hmt2 (by rw [hpf]; exact hF) with hs | ⟨info0, hi, hmem⟩
      · exact List.mem_append_left _ hs
      · refine List.mem_append_right _ ?_
        rw [hpf, hlook] at hi
        injection hi with hi
        rw [hi]
        exact hmem

theorem fileRetired_applyOp (m : Manager) (op : Op) (F : String)
    (hav : avoidsFile F op) (hret : fileRetired m F) :
    fileRetired (applyOp m op) F := by
  cases op with
  | add chunks embs fh now =>
    show fileRetired (match add_chunks m chunks embs fh now with
      | .ok r => r.1
      | .error _ => m) F
    cases heq : add_chunks m chunks embs fh now with
    | error e => exact hret
    | ok r =>
      by_cases hz : chunks.length = 0
      · have hnil : chunks = [] := List.length_eq_zero.mp hz
        subst hnil
        rw [add_chunks] at heq
        simp only [List.length_nil, ite_true, Except.ok.injEq] at heq
        rw [← heq]
        exact hret
      · obtain ⟨hmajv, hmaj, hminv, hmin, hcM, hcm, hempty, hfull⟩ :=
          add_chunks_ok_char m chunks embs fh now r.1 r.2 hz (by rw [heq])
        have hFPne : (((chunks.head?).map (·.file_path)).getD "") ≠ F ∨
            (((chunks.head?).map (·.file_path)).getD "") = "" := by
          have hnil : chunks ≠ [] := fun hcon => hz (by rw [hcon]; rfl)
          obtain ⟨c, cs, hch⟩ := List.exists_cons_of_ne_nil hnil
          left
          have hcn := hav c (by rw [hch]; exact List.mem_cons_self _ _)
          rw [hch]
          simpa using hcn
        constructor
        · by_cases hFP : (((chunks.head?).map (·.file_path)).getD "") = ""
          · rw [(hempty hFP).2]
            exact hret.1
          · rcases hFPne with hne | hFP2
            · rw [(hfull hFP).1, dictLookup_dictSet_ne _ _ _ _
                (fun hc2 => hne hc2.symm)]
              exact hret.1
            · exact absurd hFP2 hFP
        · intro mt hmt hpf
          have hmt2 : mt ∈ m.major_meta ++
              (m.minor_meta ++ (chunks.enum).map (fun ic =>
                mkMeta (m.state.major_vector_count +
                  m.state.minor_vector_count + ic.1) ic.2)) := by
            have : mt ∈ allMeta r.1 := hmt
            rw [allMeta, hmaj, hmin] at this
            exact this
          have hstale_mono : ∀ i ∈ m.state.stale_vector_ids,
              i ∈ r.1.state.stale_vector_ids := by
            intro i hi
            by_cases hFP : (((chunks.head?).map (·.file_path)).getD "") = ""
            · rw [(hempty hFP).1]
              exact hi
            · rw [(hfull hFP).2]
              exact List.mem_append_left _ hi
          have hold_case : mt ∈ allMeta m → mt.id ∈ r.1.state.stale_vector_ids :=
            fun hmem => hstale_mono mt.id (hret.2 mt hmem hpf)
          rcases List.mem_append.mp hmt2 with hold | hrest
          · exact hold_case (List.mem_append_left _ hold)
          · rcases List.mem_append.mp hrest with hold2 | hnew
            · exact hold_case (List.mem_append_right _ hold2)
            · exfalso
              obtain ⟨ic, hic, hmk⟩ := List.mem_map.mp hnew
              have hcp : ic.2 ∈ chunks := by
                rw [(List.mem_enum hic).2]
                exact List.getElem_mem _
              apply hav ic.2 hcp
              rw [← hpf, ← hmk]
              rfl
  | markStale fp =>
    show fileRetired (mark_file_stale m fp).2 F
    rw [mark_file_stale]
    cases hlook : dictLookup m.state.indexed_file_hashes fp with
    | none => exact hret
    | some info =>
      constructor
      · show dictLookup (dictDelete m.state.indexed_file_hashes fp) F = none
        by_cases hpf : F = fp
        · rw [hpf]
          exact dictLookup_dictDelete_self _ _
        · rw [dictLookup_dictDelete_ne _ _ _ hpf]
          exact hret.1
      · intro mt hmt hpf
        exact List.mem_append_left _ (hret.2 mt hmt hpf)
  | compact now =>
    show fileRetired (compact m now).2 F
    rw [compact]
    by_cases hz : m.minor_vecs.length = 0
    · rw [if_pos hz]
      exact hret
    · rw [if_neg hz]
      constructor
      · show dictLookup (m.state.indexed_file_hashes.map
          (fun kv => if kv.2.tier == "minor" then
            (kv.1, { kv.2 with tier := "major" }) else kv)) F = none
        rw [dictLookup_map_retag, hret.1]
        rfl
      · intro mt hmt hpf
        have hmt2 : mt ∈ allMeta m := by
          have : mt ∈ (m.major_meta ++ m.minor_meta) ++ [] := hmt
          rw [List.append_nil] at this
          exact this
        exact hret.2 mt hmt2 hpf

theorem fileRetired_runOps (ops : List Op) (F : String)
    (hav : ∀ op ∈ ops, avoidsFile F op) :
    ∀ (m : Manager), fileRetired m F → fileRetired (runOps m ops) F := by
  induction ops with
  | nil => exact fun m h => h
  | cons op ops ih =>
    intro m hret
    exact ih (fun o ho => hav o (List.mem_cons_of_mem _ ho)) (applyOp m op)
      (fileRetired_applyOp m op F (hav op (List.mem_cons_self _ _)) hret)

theorem search_eq_merge (m : Manager) (q : List ℚ) (k : ℕ) (fs : Bool) :
    search m q k fs = _merge_results (searchCandidates m q k fs) k := by
  rw [search, searchCandidates]
  by_cases hM : 0 < m.major_vecs.length
  · by_cases hm : 0 < m.minor_vecs.length
    · rw [if_pos hM, if_pos hm]
    · rw [if_pos hM, if_neg hm]
      have : m.minor_vecs = [] := by
        cases hv : m.minor_vecs with
        | nil => rfl
        | cons a t => rw [hv] at hm; simp at hm
      rw [this]
      simp only [flatSearch_nil]
  · by_cases hm : 0 < m.minor_vecs.length
    · rw [if_neg hM, if_pos hm]
      have : m.major_vecs = [] := by
        cases hv : m.major_vecs with
        | nil => rfl
        | cons a t => rw [hv] at hM; simp at hM
      rw [this]
      simp only [flatSearch_nil]
    · rw [if_neg hM, if_neg hm]
      have h1 : m.major_vecs = [] := by
        cases hv : m.major_vecs with
        | nil => rfl
        | cons a t => rw [hv] at hM; simp at hM
      have h2 : m.minor_vecs = [] := by
        cases hv : m.minor_vecs with
        | nil => rfl
        | cons a t => rw [hv] at hm; simp at hm
      rw [h1, h2]
      simp only [flatSearch_nil]

theorem mem_merge_results {r : SearchResult} {l : List SearchResult} {k : ℕ}
    (h : r ∈ _merge_results l k) : r ∈ l :=
  (pyStableSort_perm resultLt l).mem_iff.mp
    (List.Sublist.mem (List.mem_of_mem_take h) (dedupKeys_sublist _ []))

theorem mem_collectHits {r : SearchResult} :
    ∀ (hits : List (ℚ × ℕ)) (meta : List VecMeta) (tier : String)
      (stale : List ℕ), r ∈ collectHits hits meta tier stale →
      ∃ mt ∈ meta, r.file_path = mt.file_path ∧ mt.id ∉ stale := by
  intro hits
  induction hits with
  | nil =>
    intro meta tier stale h
    simp [collectHits] at h
  | cons h t ih =>
    intro meta tier stale hr
    have hr2 : r ∈ (match meta[h.2]? with
        | none => collectHits t meta tier stale
        | some mt =>
          if mt.id ∈ stale then collectHits t meta tier stale
          else ⟨mt.id, mt.file_path, mt.chunk_index, mt.chunk_text, h.1, tier,
            mt⟩ :: collectHits t meta tier stale) := hr
    cases hm : meta[h.2]? with
    | none =>
      rw [hm] at hr2
      exact ih meta tier stale hr2
    | some mt =>
      rw [hm] at hr2
      have hr3 : r ∈ (if mt.id ∈ stale then collectHits t meta tier stale
          else ⟨mt.id, mt.file_path, mt.chunk_index, mt.chunk_text, h.1, tier,
            mt⟩ :: collectHits t meta tier stale) := hr2
      by_cases hs : mt.id ∈ stale
      · rw [if_pos hs] at hr3
        exact ih meta tier stale hr3
      · rw [if_neg hs] at hr3
        rcases List.mem_cons.mp hr3 with rfl | hr4
        · exact ⟨mt, List.getElem?_mem hm, rfl, hs⟩
        · exact ih meta tier stale hr4

theorem mem_searchCandidates_origin {m : Manager} {q : List ℚ} {k : ℕ}
    {r : SearchResult} (h : r ∈ searchCandidates m q k true) :
    ∃ mt ∈ allMeta m, r.file_path = mt.file_path ∧
      mt.id ∉ m.state.stale_vector_ids := by
  have h2 : r ∈ collectHits
      (flatSearch m.major_vecs q (min (k * 2) m.major_vecs.length))
      m.major_meta "major" m.state.stale_vector_ids ++
    collectHits
      (flatSearch m.minor_vecs q (min (k * 2) m.minor_vecs.length))
      m.minor_meta "minor" m.state.stale_vector_ids := h
  rcases List.mem_append.mp h2 with h3 | h3
  · obtain ⟨mt, hmt, hfp, hst⟩ := mem_collectHits _ _ _ _ h3
    exact ⟨mt, List.mem_append_left _ hmt, hfp, hst⟩
  · obtain ⟨mt, hmt, hfp, hst⟩ := mem_collectHits _ _ _ _ h3
    exact ⟨mt, List.mem_append_right _ hmt, hfp, hst⟩

theorem fileRetired_no_results {m : Manager} {F : String}
    (hret : fileRetired m F) (q : List ℚ) (k : ℕ) :
    ∀ r ∈ search m q k true, r.file_path ≠ F := by
  intro r hr hF
  have hc : r ∈ searchCandidates m q k true := by
    rw [search_eq_merge] at hr
    exact mem_merge_results hr
  obtain ⟨mt, hmt, hfp, hst⟩ := mem_searchCandidates_origin hc
  exact hst (hret.2 mt hmt (by rw [← hfp]; exact hF))

/-- Counterexample to claim C4 as stated: in the example trace `c4ops`, an
`add_chunks` call carries chunks of the two files `G` (first) and `F`;
afterwards `F` is tracked (by its own later call) and `mark_file_stale("F")`
returns its recorded ids `[2]` and removes it from the map — yet the very
next `search(..., filter_stale := true)` still returns a result whose
`file_path` is `"F"` (the ride-along vector 1 from the mixed call was
recorded under `G` and is not stale). -/
theorem C4_counterexample :
    (mark_file_stale c4m1 "F").1 = [2]
    ∧ dictLookup c4m2.state.indexed_file_hashes "F" = none
    ∧ (⟨1, "F", 0, "", 0, "minor", mkMeta 1 (exChunk "F" 0)⟩ : SearchResult) ∈
        search c4m2 [] 10 true := by
  refine ⟨by decide, by decide, by decide⟩

/-- Claim C4 as amended.  `mark_file_stale(F)` on a tracked file `F` moves
every id recorded for `F` into `stale_vector_ids` and deletes `F` from the
indexed-files map (conjuncts 1-2, unconditional).  The zero-results
guarantee holds when each earlier `add_chunks` call ingested a single file
(every chunk carries the first chunk's path) and the operations after the
staling avoid `F`: then every subsequent `search(..., filter_stale := true)`
returns no result whose `file_path` is `F` (conjunct 3).  (A mixed-file add
breaks the guarantee: see the counterexample.) -/
theorem C4_stale_file_isolation (dim : ℕ) (ops₁ ops₂ : List Op) (F : String)
    (hF : F ≠ "")
    (hhom : ∀ op ∈ ops₁, homogeneousOp op)
    (hav : ∀ op ∈ ops₂, avoidsFile F op) :
    (∀ info, dictLookup
        (runOps (initManager dim) ops₁).state.indexed_file_hashes F =
          some info →
      (mark_file_stale (runOps (initManager dim) ops₁) F).1 = info.vector_ids
      ∧ ∀ i ∈ info.vector_ids, i ∈ (mark_file_stale
          (runOps (initManager dim) ops₁) F).2.state.stale_vector_ids)
    ∧ dictLookup (mark_file_stale
        (runOps (initManager dim) ops₁) F).2.state.indexed_file_hashes F = none
    ∧ ∀ q k, ∀ r ∈ search
        (runOps (mark_file_stale (runOps (initManager dim) ops₁) F).2 ops₂)
        q k true, r.file_path ≠ F := by
  have hcov : trackedCover (runOps (initManager dim) ops₁) :=
    trackedCover_runOps ops₁ hhom (initManager dim) (trackedCover_init dim)
  have hret : fileRetired
      (mark_file_stale (runOps (initManager dim) ops₁) F).2 F :=
    fileRetired_markStale (runOps (initManager dim) ops₁) F hF hcov
  have hret3 : fileRetired (runOps
      (mark_file_stale (runOps (initManager dim) ops₁) F).2 ops₂) F :=
    fileRetired_runOps ops₂ F hav _ hret
  refine ⟨?_, hret.1, ?_⟩
  · intro info hinfo
    rw [mark_file_stale, hinfo]
    exact ⟨rfl, fun i hi => List.mem_append_right _ hi⟩
  · intro q k
    exact fileRetired_no_results hret3 q k

/-- Witness for claim C4's theorem: a homogeneous two-chunk ingest of file
`"H"`, then `mark_file_stale("H")`, then an ingest of the other file `"K"`;
the resulting search over the final state returns no `"H"` result. -/
theorem C4_witness :
    (dictLookup ((mark_file_stale
      (runOps (initManager 0) [.add [exChunk "H" 0, exChunk "H" 1]
        ⟨[[], []], 0⟩ none "t1"]) "H").2.state.indexed_file_hashes) "H" = none)
    ∧ ∀ r ∈ search (runOps (mark_file_stale
        (runOps (initManager 0) [.add [exChunk "H" 0, exChunk "H" 1]
          ⟨[[], []], 0⟩ none "t1"]) "H").2
        [.add [exChunk "K" 0] ⟨[[]], 0⟩ none "t2"]) [] 10 true,
      r.file_path ≠ "H" := by
  have h := C4_stale_file_isolation 0
    [.add [exChunk "H" 0, exChunk "H" 1] ⟨[[], []], 0⟩ none "t1"]
    [.add [exChunk "K" 0] ⟨[[]], 0⟩ none "t2"] "H"
    (by decide)
    (by
      intro op hop
      rw [List.mem_singleton] at hop
      subst hop
      intro c hc
      rcases List.mem_cons.mp hc with rfl | hc2
      · rfl
      · rcases List.mem_cons.mp hc2 with rfl | hc3
        · rfl
        · exact absurd hc3 (List.not_mem_nil _))
    (by
      intro op hop
      rw [List.mem_singleton] at hop
      subst hop
      intro c hc
      rcases List.mem_cons.mp hc with rfl | hc2
      · decide
      · exact absurd hc2 (List.not_mem_nil _))
  exact ⟨h.2.1, h.2.2 [] 10⟩

end Faiss

namespace Chunker

/-! ### Claims C5 and C6: envelope contents, reconstruction, size bounds -/

theorem map_env_content (l : List (ℕ × Str)) (g : ℕ × Str → ChunkEnvelope)
    (hg : ∀ i cc, (g (i, cc)).content = cc) :
    (l.map g).map ChunkEnvelope.content = l.map Prod.snd := by
  induction l with
  | nil => rfl
  | cons p t ih =>
    cases p with
    | mk i cc => simp only [List.map_cons, ih, hg]

theorem map_env_index (l : List (ℕ × Str)) (g : ℕ × Str → ChunkEnvelope)
    (hg : ∀ i cc, (g (i, cc)).metadata.chunk_index = i) :
    (l.map g).map (fun e => e.metadata.chunk_index) = l.map Prod.fst := by
  induction l with
  | nil => rfl
  | cons p t ih =>
    cases p with
    | mk i cc => simp only [List.map_cons, ih, hg]

theorem createEnvelopes_contents (hashFn : Str → Str) (timestamp : Str)
    (chunks : List Str) (filename content strategy : Str) (oc : ℕ) :
    (createEnvelopes hashFn timestamp chunks filename content strategy oc).map
      ChunkEnvelope.content = chunks := by
  refine (map_env_content _ _ ?_).trans (List.enum_map_snd chunks)
  intro i cc
  rfl

theorem createEnvelopes_length (hashFn : Str → Str) (timestamp : Str)
    (chunks : List Str) (filename content strategy : Str) (oc : ℕ) :
    (createEnvelopes hashFn timestamp chunks filename content strategy
      oc).length = chunks.length := by
  rw [createEnvelopes]
  simp

theorem createEnvelopes_indexes (hashFn : Str → Str) (timestamp : Str)
    (chunks : List Str) (filename content strategy : Str) (oc : ℕ) :
    (createEnvelopes hashFn timestamp chunks filename content strategy oc).map
      (fun e => e.metadata.chunk_index) = List.range chunks.length := by
  refine (map_env_index _ _ ?_).trans (List.enum_map_fst chunks)
  intro i cc
  rfl

theorem createEnvelopes_size (hashFn : Str → Str) (timestamp : Str)
    (chunks : List Str) (filename content strategy : Str) (oc : ℕ) :
    ∀ e ∈ createEnvelopes hashFn timestamp chunks filename content strategy oc,
      e.metadata.chunk_size = e.content.length := by
  intro e he
  obtain ⟨p, hp, hpe⟩ := List.mem_map.mp he
  cases p with
  | mk i cc => rw [← hpe]

/-- Claim C5 as amended.  The envelopes carry chunk indexes `0, 1, 2, …` in
list order (conjunct 1); `chunk_file` dispatches to exactly one of
`chunk_prose` / `chunk_code` (conjunct 2); rejoining the `chunk_code`
envelope contents with `'\n'` reconstructs the input exactly (conjunct 3);
and `chunk_prose` preserves the sequence of non-whitespace characters of the
input (conjunct 4) — but not the interior whitespace itself: paragraph
separators are canonicalised (see the counterexample), so the source text is
reconstructible only up to whitespace, not exactly. -/
theorem C5_chunk_reconstruction (hashFn : Str → Str)
    (timestamp content filename : Str) (forceProse : Bool) :
    ((chunk_file hashFn timestamp filename content forceProse).map
        (fun e => e.metadata.chunk_index)) =
      List.range (chunk_file hashFn timestamp filename content
        forceProse).length
    ∧ (chunk_file hashFn timestamp filename content forceProse =
        chunk_prose hashFn timestamp content filename ∨
       chunk_file hashFn timestamp filename content forceProse =
        chunk_code hashFn timestamp content filename)
    ∧ joinWith ['\n'] ((chunk_code hashFn timestamp content filename).map
        ChunkEnvelope.content) = content
    ∧ nonWs (((chunk_prose hashFn timestamp content filename).map
        ChunkEnvelope.content).flatten) = nonWs content := by
  refine ⟨?_, ?_, ?_, ?_⟩
  · rw [chunk_file]
    by_cases h : (forceProse || ¬ is_code_file filename : Prop)
    · rw [if_pos h, chunk_prose, createEnvelopes_indexes, createEnvelopes_length]
    · rw [if_neg h, chunk_code, createEnvelopes_indexes, createEnvelopes_length]
  · rw [chunk_file]
    by_cases h : (forceProse || ¬ is_code_file filename : Prop)
    · rw [if_pos h]
      exact Or.inl rfl
    · rw [if_neg h]
      exact Or.inr rfl
  · rw [chunk_code, createEnvelopes_contents]
    exact chunkCodeRaw_join content
  · rw [chunk_prose, createEnvelopes_contents]
    exact chunkProseRaw_nonWs content

theorem splitParasAux_no_nl :
    ∀ (s cs acc : Str), (∀ c ∈ s, ¬ c = '\n') →
      splitParasAux (s ++ cs) acc = splitParasAux cs (s.reverse ++ acc) := by
  intro s
  induction s with
  | nil =>
    intro cs acc h
    simp
  | cons c s ih =>
    intro cs acc h
    have hc : ¬ c = '\n' := h c (List.mem_cons_self _ _)
    rw [List.cons_append, splitParasAux]
    have hp : paraSepLen (c :: (s ++ cs)) = 0 := by
      simp only [paraSepLen]
      rw [if_neg hc]
    rw [hp, ih cs (c :: acc) (fun d hd => h d (List.mem_cons_of_mem _ hd))]
    simp

theorem splitParasAux_nil (acc : Str) : splitParasAux [] acc = [acc.reverse] := by
  rw [splitParasAux]

theorem splitParasAux_single (s acc : Str) (h : ∀ c ∈ s, ¬ c = '\n') :
    splitParasAux s acc = [(s.reverse ++ acc).reverse] := by
  have h1 := splitParasAux_no_nl s [] acc h
  rw [List.append_nil] at h1
  rw [h1, splitParasAux_nil]

theorem splitParasAux_sep (b : Char) (rest acc : Str)
    (hb : pyIsSpace b = false) :
    splitParasAux ('\n' :: '\n' :: b :: rest) acc =
      acc.reverse :: splitParasAux (b :: rest) [] := by
  rw [splitParasAux]
  have hp : paraSepLen ('\n' :: '\n' :: b :: rest) = 2 := by
    simp only [paraSepLen]
    rw [if_pos (by trivial)]
    rw [show ('\n' :: b :: rest).takeWhile pyIsSpace =
      '\n' :: (b :: rest).takeWhile pyIsSpace from rfl]
    rw [show (b :: rest).takeWhile pyIsSpace = [] from by
      rw [List.takeWhile_cons, hb]; rfl]
    rfl
  rw [hp]
  rfl

theorem splitParasAux_para (s : Str) (hs : ∀ c ∈ s, ¬ c = '\n')
    (b : Char) (hb : pyIsSpace b = false) (rest acc : Str) :
    splitParasAux (s ++ '\n' :: '\n' :: b :: rest) acc =
      (s.reverse ++ acc).reverse :: splitParasAux (b :: rest) [] := by
  rw [splitParasAux_no_nl s _ acc hs, splitParasAux_sep b rest _ hb]

theorem sentSplitAux_no_punct :
    ∀ (s cs acc : Str), (∀ c ∈ s, isSentPunct c = false) →
      sentSplitAux (s ++ cs) acc = sentSplitAux cs (s.reverse ++ acc) := by
  intro s
  induction s with
  | nil =>
    intro cs acc h
    simp
  | cons c s ih =>
    intro cs acc h
    have hc : isSentPunct c = false := h c (List.mem_cons_self _ _)
    rw [List.cons_append, sentSplitAux]
    have hp : sentSepLen (c :: (s ++ cs)) = 0 := by
      simp only [sentSepLen]
      rw [show (c :: (s ++ cs)).takeWhile isSentPunct = [] from by
        rw [List.takeWhile_cons, hc]; rfl]
      simp
    rw [hp, ih cs (c :: acc) (fun d hd => h d (List.mem_cons_of_mem _ hd))]
    simp

theorem sentSplitAux_nil (acc : Str) : sentSplitAux [] acc = [acc.reverse] := by
  rw [sentSplitAux]

theorem sentSplit_no_punct (s : Str) (h : ∀ c ∈ s, isSentPunct c = false) :
    sentSplit s = [s] := by
  have h1 := sentSplitAux_no_punct s [] [] h
  rw [List.append_nil] at h1
  rw [sentSplit, h1, sentSplitAux_nil]
  simp

theorem pyStrip_no_ws (s : Str) (h : ∀ c ∈ s, pyIsSpace c = false) :
    pyStrip s = s := by
  have hdrop : ∀ (t : Str), (∀ c ∈ t, pyIsSpace c = false) →
      t.dropWhile pyIsSpace = t := by
    intro t ht
    cases t with
    | nil => rfl
    | cons c t2 =>
      rw [List.dropWhile_cons, ht c (List.mem_cons_self _ _)]
      rfl
  rw [pyStrip, hdrop s h, hdrop s.reverse (fun c hc =>
    h c (List.mem_reverse.mp hc)), List.reverse_reverse]

theorem c6_splitParas :
    splitParas c6content = [List.replicate 99 'a',
      'b' :: List.replicate 699 'b', 'c' :: List.replicate 98 'c', ['d']] := by
  have hrep : ∀ (n : ℕ) (ch : Char), ¬ ch = '\n' →
      ∀ c ∈ List.replicate n ch, ¬ c = '\n' := by
    intro n ch hch c hc
    rw [List.eq_of_mem_replicate hc]
    exact hch
  have hbb : ∀ c ∈ ('b' :: List.replicate 699 'b' : Str), ¬ c = '\n' := by
    intro c hc
    rcases List.mem_cons.mp hc with rfl | h2
    · decide
    · exact hrep 699 'b' (by decide) c h2
  have hcc : ∀ c ∈ ('c' :: List.replicate 98 'c' : Str), ¬ c = '\n' := by
    intro c hc
    rcases List.mem_cons.mp hc with rfl | h2
    · decide
    · exact hrep 98 'c' (by decide) c h2
  have hform : c6content = List.replicate 99 'a' ++ '\n' :: '\n' :: 'b' ::
      (List.replicate 699 'b' ++ '\n' :: '\n' :: 'c' ::
        (List.replicate 98 'c' ++ '\n' :: '\n' :: 'd' :: [])) := by
    rw [c6content]
    rw [show (List.replicate 700 'b' : Str) = 'b' :: List.replicate 699 'b'
      from rfl]
    rw [show (List.replicate 99 'c' : Str) = 'c' :: List.replicate 98 'c'
      from rfl]
    simp only [List.append_assoc, List.cons_append, List.nil_append]
  rw [splitParas, hform]
  rw [splitParasAux_para _ (hrep 99 'a' (by decide)) _ (by decide)]
  rw [show ('b' :: (List.replicate 699 'b' ++ '\n' :: '\n' :: 'c' ::
      (List.replicate 98 'c' ++ '\n' :: '\n' :: 'd' :: [])) : Str) =
    ('b' :: List.replicate 699 'b') ++ '\n' :: '\n' :: 'c' ::
      (List.replicate 98 'c' ++ '\n' :: '\n' :: 'd' :: []) from rfl]
  rw [splitParasAux_para _ hbb _ (by decide)]
  rw [show ('c' :: (List.replicate 98 'c' ++ '\n' :: '\n' :: 'd' :: []) :
      Str) =
    ('c' :: List.replicate 98 'c') ++ '\n' :: '\n' :: 'd' :: [] from rfl]
  rw [splitParasAux_para _ hcc _ (by decide)]
  rw [splitParasAux_single _ _ (by decide)]
  simp only [List.append_nil, List.reverse_reverse]

theorem c6_proseParagraphs :
    proseParagraphs c6content = [List.replicate 99 'a',
      'b' :: List.replicate 699 'b', 'c' :: List.replicate 98 'c', ['d']] := by
  have hrepw : ∀ (n : ℕ) (ch : Char), pyIsSpace ch = false →
      ∀ c ∈ List.replicate n ch, pyIsSpace c = false := by
    intro n ch hch c hc
    rw [List.eq_of_mem_replicate hc]
    exact hch
  have hbw : ∀ c ∈ ('b' :: List.replicate 699 'b' : Str),
      pyIsSpace c = false := by
    intro c hc
    rcases List.mem_cons.mp hc with rfl | h2
    · decide
    · exact hrepw 699 'b' (by decide) c h2
  have hcw : ∀ c ∈ ('c' :: List.replicate 98 'c' : Str),
      pyIsSpace c = false := by
    intro c hc
    rcases List.mem_cons.mp hc with rfl | h2
    · decide
    · exact hrepw 98 'c' (by decide) c h2
  rw [proseParagraphs, c6_splitParas]
  simp only [List.map_cons, List.map_nil,
    pyStrip_no_ws _ (hrepw 99 'a' (by decide)), pyStrip_no_ws _ hbw,
    pyStrip_no_ws _ hcw, pyStrip_no_ws ['d'] (by decide)]
  rw [List.filter_cons, List.filter_cons, List.filter_cons, List.filter_cons]
  rw [show (!(List.replicate 99 'a' : Str).isEmpty) = true from rfl]
  rw [show (!('b' :: List.replicate 699 'b' : Str).isEmpty) = true from rfl]
  rw [show (!('c' :: List.replicate 98 'c' : Str).isEmpty) = true from rfl]
  rw [show (!(['d'] : Str).isEmpty) = true from rfl]
  rfl

set_option maxRecDepth 40000 in
theorem c6_chunk_lengths :
    (chunkProseRaw c6content).map List.length = [99, 801, 1] := by
  rw [chunkProseRaw, if_neg (by decide), c6_proseParagraphs]
  decide

theorem c6_units :
    proseUnits c6content = [List.replicate 99 'a',
      'b' :: List.replicate 699 'b', 'c' :: List.replicate 98 'c', ['d']] := by
  have hp1 : sentSplit (List.replicate 99 'a') = [List.replicate 99 'a'] := by
    refine sentSplit_no_punct _ ?_
    intro c hc
    rw [List.eq_of_mem_replicate hc]
    decide
  have hp2 : sentSplit ('b' :: List.replicate 699 'b') =
      [('b' :: List.replicate 699 'b' : Str)] := by
    refine sentSplit_no_punct _ ?_
    intro c hc
    rcases List.mem_cons.mp hc with rfl | h2
    · decide
    · rw [List.eq_of_mem_replicate h2]
      decide
  have hp3 : sentSplit ('c' :: List.replicate 98 'c') =
      [('c' :: List.replicate 98 'c' : Str)] := by
    refine sentSplit_no_punct _ ?_
    intro c hc
    rcases List.mem_cons.mp hc with rfl | h2
    · decide
    · rw [List.eq_of_mem_replicate h2]
      decide
  rw [proseUnits, c6_proseParagraphs]
  simp only [List.map_cons, List.map_nil, hp1, hp2, hp3,
    sentSplit_no_punct ['d'] (by decide)]
  rfl

/-- Counterexample to claim C6 as stated: on the four-paragraph input
`c6content` (99, 700, 99 and 1 characters), `chunk_prose` produces chunks of
lengths `[99, 801, 1]` — the middle, non-final chunk has 801 > 800
characters even though every indivisible unit (every sentence fragment of
every paragraph) is at most 800 characters long.  The packing loop resets
`current_size` to `len(para)` without the `+2` separator allowance, so a
two-paragraph chunk can reach 802 characters. -/
theorem C6_counterexample :
    ((chunk_prose (fun _ => []) [] c6content ['f']).map
      (fun e => e.content.length)) = [99, 801, 1]
    ∧ ∀ u ∈ proseUnits c6content, u.length ≤ PROSE_CHUNK_SIZE := by
  constructor
  · have h1 : ((chunk_prose (fun _ => []) [] c6content ['f']).map
        (fun e => e.content.length)) =
        ((chunk_prose (fun _ => []) [] c6content ['f']).map
          ChunkEnvelope.content).map List.length := by
      rw [List.map_map]
      rfl
    rw [h1, chunk_prose, createEnvelopes_contents]
    exact c6_chunk_lengths
  · intro u hu
    rw [c6_units] at hu
    simp only [List.mem_cons, List.not_mem_nil, or_false] at hu
    rcases hu with rfl | rfl | rfl | rfl
    · rw [List.length_replicate]
      decide
    · rw [List.length_cons, List.length_replicate]
      decide
    · rw [List.length_cons, List.length_replicate]
      decide
    · decide

/-- Claim C6 as amended.  Every `chunk_code` chunk is at most 350 characters
long or is a single (unsplittable) input line; every `chunk_prose` chunk is
at most 802 characters long (the 800-character target can be exceeded by the
two separator characters a two-paragraph chunk re-inserts, even when no unit
is oversized — see the counterexample) or is the strip of one single
sentence fragment that itself exceeds 800 characters; and each envelope's
`chunk_size` equals its content length. -/
theorem C6_chunk_size_bounds (hashFn : Str → Str)
    (timestamp content filename : Str) :
    (∀ e ∈ chunk_code hashFn timestamp content filename,
      e.content.length ≤ CODE_CHUNK_SIZE ∨
        e.content ∈ splitOnChar '\n' content)
    ∧ (∀ e ∈ chunk_prose hashFn timestamp content filename,
      e.content.length ≤ PROSE_CHUNK_SIZE + 2 ∨
        ∃ u ∈ proseUnits content, e.content = pyStrip u ∧
          PROSE_CHUNK_SIZE < u.length)
    ∧ (∀ e ∈ chunk_code hashFn timestamp content filename,
        e.metadata.chunk_size = e.content.length)
    ∧ (∀ e ∈ chunk_prose hashFn timestamp content filename,
        e.metadata.chunk_size = e.content.length) := by
  refine ⟨?_, ?_, ?_, ?_⟩
  · intro e he
    have hc : e.content ∈ chunkCodeRaw content := by
      have h2 := List.mem_map_of_mem ChunkEnvelope.content he
      rwa [show (chunk_code hashFn timestamp content filename).map
        ChunkEnvelope.content = chunkCodeRaw content from by
          rw [chunk_code, createEnvelopes_contents]] at h2
    exact chunkCodeRaw_bound content e.content hc
  · intro e he
    have hc : e.content ∈ chunkProseRaw content := by
      have h2 := List.mem_map_of_mem ChunkEnvelope.content he
      rwa [show (chunk_prose hashFn timestamp content filename).map
        ChunkEnvelope.content = chunkProseRaw content from by
          rw [chunk_prose, createEnvelopes_contents]] at h2
    exact chunkProseRaw_bound content e.content hc
  · intro e he
    exact createEnvelopes_size _ _ _ _ _ _ _ e he
  · intro e he
    exact createEnvelopes_size _ _ _ _ _ _ _ e he

theorem c5_splitParas :
    splitParas ('a' :: '\n' :: ' ' :: '\n' :: ['b']) = [['a'], ['b']] := by
  rw [splitParas]
  rw [show ('a' :: '\n' :: ' ' :: '\n' :: ['b'] : Str) =
    ['a'] ++ '\n' :: ' ' :: '\n' :: ['b'] from rfl]
  rw [splitParasAux_no_nl _ _ _ (by decide)]
  rw [splitParasAux]
  have hp : paraSepLen ('\n' :: ' ' :: '\n' :: ['b']) = 3 := by
    simp only [paraSepLen]
    rw [if_pos (by trivial)]
    rfl
  rw [hp]
  show (['a'].reverse ++ []).reverse :: splitParasAux ['b'] [] = [['a'], ['b']]
  rw [splitParasAux_single _ _ (by decide)]
  decide

theorem c5_chunkProse :
    chunkProseRaw ('a' :: '\n' :: ' ' :: '\n' :: ['b']) =
      [['a', '\n', '\n', 'b']] := by
  rw [chunkProseRaw, if_neg (by decide), proseParagraphs, c5_splitParas]
  decide

/-- Counterexample to claim C5 as stated: on the prose input `"a\n \nb"`
(a space inside the paragraph separator), chunking produces the single chunk
`"a\n\nb"` — the interior whitespace is altered (the separator is
canonicalised to exactly two newlines), so no concatenation of the chunk
contents with any inserted strings `w₀`, `w₁` around the chunk reconstructs
the original text. -/
theorem C5_counterexample :
    chunkProseRaw ('a' :: '\n' :: ' ' :: '\n' :: ['b']) =
      [['a', '\n', '\n', 'b']]
    ∧ ((chunk_prose (fun _ => []) [] ('a' :: '\n' :: ' ' :: '\n' :: ['b'])
        ['f']).map ChunkEnvelope.content) = [['a', '\n', '\n', 'b']]
    ∧ ¬ ∃ w₀ w₁ : Str, 'a' :: '\n' :: ' ' :: '\n' :: ['b'] =
        w₀ ++ ('a' :: '\n' :: '\n' :: ['b']) ++ w₁ := by
  refine ⟨c5_chunkProse, ?_, ?_⟩
  · rw [chunk_prose, createEnvelopes_contents]
    exact c5_chunkProse
  · rintro ⟨w₀, w₁, heq⟩
    have hlen := congrArg List.length heq
    simp only [List.length_append, List.length_cons, List.length_nil] at hlen
    rcases w₀ with _ | ⟨c, w₀'⟩
    · simp only [List.nil_append, List.cons_append] at heq
      injection heq with h1 heq2
      injection heq2 with h2 heq3
      injection heq3 with h3 heq4
      exact absurd h3 (by decide)
    · rcases w₀' with _ | ⟨d, w₀''⟩
      · simp only [List.cons_append, List.nil_append] at heq
        injection heq with h1 heq2
        injection heq2 with h2 heq3
        exact absurd h2 (by decide)
      · simp only [List.length_cons] at hlen
        omega

end Chunker

namespace Autograph

/-! ### Claim C8: source suggestions -/

theorem foldl_skip_eq_filter {α β : Type} (g : α → β → α) (q : β → Prop)
    [DecidablePred q] :
    ∀ (l : List β) (init : α),
      l.foldl (fun a b => if q b then a else g a b) init =
        (l.filter (fun b => !(decide (q b)))).foldl g init := by
  intro l
  induction l with
  | nil =>
    intro init
    rfl
  | cons b t ih =>
    intro init
    rw [List.foldl_cons, List.filter_cons]
    by_cases hq : q b
    · rw [if_pos hq, if_neg (by simp [hq])]
      exact ih init
    · rw [if_neg hq, if_pos (by simp [hq]), List.foldl_cons]
      exact ih (g init b)

theorem suggLt_false_iff (a b : Suggestion) :
    suggLt b a = false ↔
      (b.confidence ≤ a.confidence ∧
        (a.confidence = b.confidence → b.total_weight ≤ a.total_weight)) := by
  rw [suggLt, Bool.or_eq_false_iff, Bool.and_eq_false_iff,
    decide_eq_false_iff_not, decide_eq_false_iff_not,
    decide_eq_false_iff_not, not_lt, not_lt]
  constructor
  · rintro ⟨h1, h2 | h2⟩
    · exact ⟨h1, fun he => absurd he h2⟩
    · exact ⟨h1, fun _ => h2⟩
  · rintro ⟨h1, h2⟩
    by_cases he : a.confidence = b.confidence
    · exact ⟨h1, Or.inr (h2 he)⟩
    · exact ⟨h1, Or.inl he⟩

theorem suggLt_asymm : ∀ a b, suggLt a b = true → suggLt b a = false := by
  intro a b h
  simp only [suggLt, Bool.or_eq_true, Bool.and_eq_true, decide_eq_true_eq] at h
  refine (suggLt_false_iff a b).mpr ?_
  rcases h with h | ⟨h1, h2⟩
  · exact ⟨le_of_lt h, fun he => absurd he (ne_of_gt h)⟩
  · exact ⟨le_of_eq h1, fun _ => le_of_lt h2⟩

theorem suggLt_trans :
    ∀ a b c, suggLt a b = true → suggLt b c = true → suggLt a c = true := by
  intro a b c hab hbc
  simp only [suggLt, Bool.or_eq_true, Bool.and_eq_true,
    decide_eq_true_eq] at hab hbc ⊢
  rcases hab with h | ⟨h1, h2⟩ <;> rcases hbc with h3 | ⟨h4, h5⟩
  · exact Or.inl (lt_trans h3 h)
  · exact Or.inl (h4 ▸ h)
  · exact Or.inl (h1 ▸ h3)
  · exact Or.inr ⟨h4.trans h1, lt_trans h5 h2⟩

theorem suggest_sources_eq_claim_filter (similar : List (String × ℚ))
    (edges : List KnowledgeEdge) (t : ℚ) (k : ℕ) :
    suggest_sources similar edges t k =
      suggest_sources_claim (similar.filter (fun cs => !(decide (cs.2 < t))))
        edges t k := by
  by_cases h : similar.isEmpty
  · have hnil : similar = [] := List.isEmpty_iff.mp h
    subst hnil
    rfl
  · rw [suggest_sources, if_neg h]
    rw [foldl_skip_eq_filter
      (fun a cs => (edges.filter (fun e => e.source_node == cs.1)).foldl
        (fun a2 e => processEdge a2 cs.2 e) a)
      (fun cs => cs.2 < t) similar []]
    rw [suggest_sources_claim]
    by_cases h2 : (similar.filter (fun cs => !(decide (cs.2 < t)))).isEmpty
    · rw [if_pos h2, List.isEmpty_iff.mp h2]
      show List.take k (pyStableSort suggLt ([] : List Suggestion)) = []
      rw [show pyStableSort suggLt ([] : List Suggestion) = [] from rfl,
        List.take_nil]
    · rw [if_neg h2]

theorem pyRound_3_1 : Chunker.pyRound 3 (1 : ℚ) = 1 := by
  rw [Chunker.pyRound, Chunker.roundHalfEven]
  norm_num

theorem pyRound_3_3 : Chunker.pyRound 3 (3 : ℚ) = 3 := by
  rw [Chunker.pyRound, Chunker.roundHalfEven]
  norm_num

theorem pyRound_2_3 : Chunker.pyRound 2 (3 : ℚ) = 3 := by
  rw [Chunker.pyRound, Chunker.roundHalfEven]
  norm_num

theorem pyRound_2_0 : Chunker.pyRound 2 (0 : ℚ) = 0 := by
  rw [Chunker.pyRound, Chunker.roundHalfEven]
  norm_num

theorem pyRound_3_910 : Chunker.pyRound 3 (9 / 10 : ℚ) = 9 / 10 := by
  rw [Chunker.pyRound, Chunker.roundHalfEven]
  norm_num

theorem pyRound_2_910 : Chunker.pyRound 2 (9 / 10 : ℚ) = 9 / 10 := by
  rw [Chunker.pyRound, Chunker.roundHalfEven]
  norm_num

theorem pyRound_3_34 : Chunker.pyRound 3 (3 / 4 : ℚ) = 3 / 4 := by
  rw [Chunker.pyRound, Chunker.roundHalfEven]
  norm_num

theorem pyRound_2_310 : Chunker.pyRound 2 (3 / 10 : ℚ) = 3 / 10 := by
  rw [Chunker.pyRound, Chunker.roundHalfEven]
  norm_num

set_option maxRecDepth 8000 in
/-- Claim C8 as amended.  `suggest_sources` equals the claim's aggregation
applied to the similar contexts whose similarity is at least the threshold —
the code skips the below-threshold contexts, while the claim's formula
aggregates every top-K context (conjunct 1, with the counterexample showing
the two differ); the result is sorted by descending confidence with ties by
descending total weight (conjunct 2) and has at most `max_suggestions`
entries (conjunct 3); and in the claim's concrete scenario (three accepted
edges for `X`, one rejected edge for `Y`, one similar context) `X` is
suggested with confidence `1 ≥ 3/4` and `Y` is absent (conjuncts 4-5). -/
theorem C8_suggest_sources_behaviour (similar : List (String × ℚ))
    (edges : List KnowledgeEdge) (t : ℚ) (k : ℕ) :
    suggest_sources similar edges t k =
      suggest_sources_claim (similar.filter (fun cs => !(decide (cs.2 < t))))
        edges t k
    ∧ (suggest_sources similar edges t k).Pairwise
        (fun a b => b.confidence ≤ a.confidence ∧
          (a.confidence = b.confidence → b.total_weight ≤ a.total_weight))
    ∧ (suggest_sources similar edges t k).length ≤ k
    ∧ suggest_sources [("c", 1)] c8edges2 auto_suggest_threshold
        max_suggestions = [⟨"X", 1, 3, 3, 0⟩]
    ∧ ∀ s ∈ suggest_sources [("c", 1)] c8edges2 auto_suggest_threshold
        max_suggestions, s.source = "X" ∧ 3 / 4 ≤ s.confidence ∧
          s.source ≠ "Y" := by
  have hconc : suggest_sources [("c", 1)] c8edges2 auto_suggest_threshold
      max_suggestions = [⟨"X", 1, 3, 3, 0⟩] := by
    norm_num +decide [List.filterMap_cons, List.filterMap_nil, List.foldl_cons, List.foldl_nil,
      List.take_succ_cons, List.take_nil, pyRound_3_1, pyRound_3_3, pyRound_2_3, pyRound_2_0, pyRound_3_910,
      pyRound_2_910, pyRound_3_34, pyRound_2_310, suggest_sources, c8edges2, exEdge, processEdge, updateEntry,
      Faiss.dictLookup, auto_suggest_threshold, max_suggestions,
      pyStableSort, stableInsert, suggLt]
  refine ⟨suggest_sources_eq_claim_filter similar edges t k, ?_, ?_, hconc, ?_⟩
  · rw [suggest_sources]
    by_cases h : similar.isEmpty
    · rw [if_pos h]
      simp
    · rw [if_neg h]
      have hsorted := pyStableSort_pairwise suggLt suggLt_asymm suggLt_trans
        ((similar.foldl
          (fun acc cs => if cs.2 < t then acc
            else (edges.filter (fun e => e.source_node == cs.1)).foldl
              (fun a e => processEdge a cs.2 e) acc) []).filterMap (fun kv =>
          if 0 < kv.2.accepted + kv.2.rejected then
            if t ≤ kv.2.accepted / (kv.2.accepted + kv.2.rejected) then
              some ⟨kv.1,
                Chunker.pyRound 3 (kv.2.accepted /
                  (kv.2.accepted + kv.2.rejected)),
                Chunker.pyRound 3 kv.2.total_weight,
                Chunker.pyRound 2 kv.2.accepted,
                Chunker.pyRound 2 kv.2.rejected⟩
            else none
          else none))
      refine ((hsorted.sublist (List.take_sublist k _)).imp ?_)
      intro a b hab
      exact (suggLt_false_iff a b).mp hab
  · rw [suggest_sources]
    by_cases h : similar.isEmpty
    · rw [if_pos h]
      simp
    · rw [if_neg h]
      exact List.length_take_le k _
  · intro s hs
    rw [hconc, List.mem_singleton] at hs
    subst hs
    refine ⟨rfl, by norm_num, by decide⟩

set_option maxRecDepth 8000 in
/-- Counterexample to claim C8 as stated: with one similar context above the
0.5 threshold and one below it, and one accepted plus one rejected edge for
the same source `S`, the code returns `S` with confidence 1 (the rejected
edge lives in the below-threshold context, which `suggest_sources` skips
entirely), while the claim's formula — aggregating the edges of every top-K
similar context — gives confidence 3/4.  The claim omits the per-context
similarity gate `if similarity < threshold: continue`. -/
theorem C8_counterexample :
    suggest_sources c8similar c8edges auto_suggest_threshold
        max_suggestions ≠
      suggest_sources_claim c8similar c8edges auto_suggest_threshold
        max_suggestions
    ∧ (suggest_sources c8similar c8edges auto_suggest_threshold
        max_suggestions).map Suggestion.confidence = [1]
    ∧ (suggest_sources_claim c8similar c8edges auto_suggest_threshold
        max_suggestions).map Suggestion.confidence = [3 / 4] := by
  have h1 : (suggest_sources c8similar c8edges auto_suggest_threshold
      max_suggestions).map Suggestion.confidence = [1] := by
    norm_num +decide [List.filterMap_cons, List.filterMap_nil, List.foldl_cons, List.foldl_nil,
      List.take_succ_cons, List.take_nil, pyRound_3_1, pyRound_3_3, pyRound_2_3, pyRound_2_0, pyRound_3_910,
      pyRound_2_910, pyRound_3_34, pyRound_2_310, suggest_sources, c8similar, c8edges, exEdge, processEdge,
      updateEntry, Faiss.dictLookup, auto_suggest_threshold, max_suggestions,
      pyStableSort, stableInsert, suggLt]
  have h2 : (suggest_sources_claim c8similar c8edges auto_suggest_threshold
      max_suggestions).map Suggestion.confidence = [3 / 4] := by
    norm_num +decide [List.filterMap_cons, List.filterMap_nil, List.foldl_cons, List.foldl_nil,
      List.take_succ_cons, List.take_nil, pyRound_3_1, pyRound_3_3, pyRound_2_3, pyRound_2_0, pyRound_3_910,
      pyRound_2_910, pyRound_3_34, pyRound_2_310, suggest_sources_claim, c8similar, c8edges, exEdge, processEdge,
      updateEntry, Faiss.dictLookup, auto_suggest_threshold, max_suggestions,
      pyStableSort, stableInsert, suggLt]
  refine ⟨?_, h1, h2⟩
  intro hc
  rw [hc, h2] at h1
  have : (3 / 4 : ℚ) = 1 := by
    injection h1
  norm_num at this

end Autograph

end FMEE
